import Mathlib

/-! # Archive-backed file store of `shipedit` (src/src/fileio.c)

A shallow embedding of `fileio.c`: the MSB-first bit reader, the LZ77-style
decoder with its 8192-byte lookback window, the mounted-archive chain and the
file resolver, followed by theorems about them.

Conventions of the embedding.
* Bytes are natural numbers below 256; a `char`/`uint8_t` buffer is a `List Nat`.
* A C pointer into a buffer is the list of the bytes addressable from that
  pointer up to the end of the underlying object; an access beyond it is
  undefined behaviour in C and is the outcome `Outcome.oob` here.
* Unsigned machine integers are `Nat` with an explicit reduction modulo `2^w`
  where the C operation can wrap.
* `while` loops carry a fuel argument; running out of fuel is `Outcome.timeout`.
-/

namespace Shipedit

/-- Result of running a piece of the C code. -/
inductive Outcome (α : Type) where
  /-- the call returns normally -/
  | ret (a : α)
  /-- Modelled from the spec: `fail(...)` is declared in `util.h`, which is not
  among the sources; it reports `msg` and ends the process (spec 7: "fatal in
  the original (process-terminating)"). -/
  | fatal (msg : String)
  /-- the code accessed memory outside the addressed object -/
  | oob
  /-- the fuel of the model ran out before the loop ended -/
  | timeout
  deriving DecidableEq, Repr

/-- Sequencing of outcomes: run `f` on the returned value, stop otherwise. -/
def Outcome.bind {α β : Type} (x : Outcome α) (f : α → Outcome β) : Outcome β :=
  match x with
  | .ret a => f a
  | .fatal m => .fatal m
  | .oob => .oob
  | .timeout => .timeout

/-! ## The decompression context (fileio.c:33-42) -/

/-- The `struct DecompressionContext`. `buf` holds the bytes addressable from the
C pointer `buf`; `lookback_buffer` maps an index below 8192 to the byte held
there. -/
structure DecompressionContext where
  buf : List Nat
  buf_len : Nat
  lookback_buffer_write_index : Nat
  bit_in_current_byte : Nat
  current_byte : Nat
  current_byte_read_pos : Nat
  lookback_buffer : Nat → Nat

/-- One iteration of the `while (current_bit != 0)` loop body of
`DecompressionContext_read_bits` (fileio.c:51-64). The state is the context,
`result` and `current_bit`. -/
def read_bits_step (self : DecompressionContext) (result current_bit : Nat) :
    Outcome (DecompressionContext × Nat × Nat) :=
  -- if (self->bit_in_current_byte == 0x80) self->current_byte = self->buf[self->current_byte_read_pos++];
  let fetched : Outcome DecompressionContext :=
    if self.bit_in_current_byte = 0x80 then
      match self.buf.get? self.current_byte_read_pos with
      | none => .oob
      | some b =>
        .ret { self with
          current_byte := b % 256
          current_byte_read_pos := (self.current_byte_read_pos + 1) % 4294967296 }
    else .ret self
  fetched.bind fun s1 =>
    -- if ((self->current_byte & self->bit_in_current_byte) != 0) result |= current_bit;
    let result1 :=
      if s1.current_byte &&& s1.bit_in_current_byte ≠ 0 then result ||| current_bit else result
    -- self->bit_in_current_byte >>= 1; current_bit >>= 1;
    let mask1 := s1.bit_in_current_byte >>> 1
    let current_bit1 := current_bit >>> 1
    -- if (self->bit_in_current_byte == 0) self->bit_in_current_byte = 0x80;
    let mask2 := if mask1 = 0 then 0x80 else mask1
    .ret ({ s1 with bit_in_current_byte := mask2 }, result1, current_bit1)

/-- The loop `while (current_bit != 0) { ... }` of
`DecompressionContext_read_bits`, with fuel. -/
def read_bits_loop : Nat → DecompressionContext → Nat → Nat → Outcome (Nat × DecompressionContext)
  | 0, _, _, _ => .timeout
  | fuel + 1, self, result, current_bit =>
    if current_bit = 0 then .ret (result, self)
    else
      (read_bits_step self result current_bit).bind fun st =>
        read_bits_loop fuel st.1 st.2.1 st.2.2

/-- Function `DecompressionContext_read_bits` (fileio.c:44-68). `current_bit` is a
32-bit value with one bit set, so the loop ends within 32 iterations and the
fuel 33 is never used up (`read_bits_ne_timeout`). Returns the result and the
updated context. -/
def DecompressionContext_read_bits (self : DecompressionContext) (size_bits : Nat) :
    Outcome (Nat × DecompressionContext) :=
  -- uint32_t current_bit = 1 << (size_bits - 1U & 0x1f);
  let current_bit := 1 <<< (((size_bits + 4294967295) % 4294967296) &&& 0x1f)
  read_bits_loop 33 self 0 current_bit

/-- The body of the `for` loop of the back-reference branch (fileio.c:90-95)
at index `i`. The state is the context, the bytes written through `buffer` so
far and `length`. -/
def copy_step (copy_from_lookback_offset i : Nat) (self : DecompressionContext)
    (buffer : List Nat) (length : Nat) : DecompressionContext × List Nat × Nat :=
  -- char tmp = self->lookback_buffer[(copy_from_lookback_offset + i) & 0x1fff];
  let tmp := self.lookback_buffer ((copy_from_lookback_offset + i) &&& 0x1fff)
  -- *buffer++ = tmp; length--;
  let buffer1 := buffer ++ [tmp]
  let length1 := (length + 4294967295) % 4294967296
  -- self->lookback_buffer[self->lookback_buffer_write_index] = tmp;
  -- self->lookback_buffer_write_index = self->lookback_buffer_write_index + 1 & 0x1fff;
  let self1 := { self with
    lookback_buffer := Function.update self.lookback_buffer self.lookback_buffer_write_index tmp
    lookback_buffer_write_index := (self.lookback_buffer_write_index + 1) &&& 0x1fff }
  (self1, buffer1, length1)

/-- The loop `for (int i=0; i<repetition_count; ++i)` of the back-reference
branch (fileio.c:89-96) from index `i` on; `n` counts the iterations still to
run (`repetition_count - i`). The state is the context, the bytes written
through `buffer` so far and `length`. -/
def copy_loop (copy_from_lookback_offset : Nat) :
    Nat → Nat → DecompressionContext × List Nat × Nat → DecompressionContext × List Nat × Nat
  | 0, _, st => st
  | n + 1, i, st =>
    copy_loop copy_from_lookback_offset n (i + 1)
      (copy_step copy_from_lookback_offset i st.1 st.2.1 st.2.2)

/-- One iteration of the body of `while (length > 0)` in
`DecompressionContext_unpack` (fileio.c:74-97). `buffer` is the list of bytes
written through the output pointer so far, in order: position `p` of the
output is `buffer[p]`. The state is the context, `buffer` and `length`. -/
def unpack_step (self : DecompressionContext) (buffer : List Nat) (length : Nat) :
    Outcome (DecompressionContext × List Nat × Nat) :=
  (DecompressionContext_read_bits self 1).bind fun r =>
    if r.1 ≠ 0 then
      -- char tmp = DecompressionContext_read_bits(self, 8); *buffer++ = tmp; length--;
      (DecompressionContext_read_bits r.2 8).bind fun t =>
        let tmp := t.1 % 256
        let s := t.2
        let s1 := { s with
          lookback_buffer := Function.update s.lookback_buffer s.lookback_buffer_write_index tmp
          lookback_buffer_write_index := (s.lookback_buffer_write_index + 1) &&& 0x1fff }
        .ret (s1, buffer ++ [tmp], (length + 4294967295) % 4294967296)
    else
      -- int copy_from_lookback_offset = DecompressionContext_read_bits(self, 13);
      -- int repetition_count = 3 + DecompressionContext_read_bits(self, 4);
      (DecompressionContext_read_bits r.2 13).bind fun o =>
        (DecompressionContext_read_bits o.2 4).bind fun c =>
          let copy_from_lookback_offset := o.1
          let repetition_count := 3 + c.1
          .ret (copy_loop copy_from_lookback_offset repetition_count 0 (c.2, buffer, length))

/-- The loop `while (length > 0) { ... }` of `DecompressionContext_unpack`
(fileio.c:73-98), with fuel. -/
def unpack_loop : Nat → DecompressionContext → List Nat → Nat →
    Outcome (DecompressionContext × List Nat)
  | 0, _, _, _ => .timeout
  | fuel + 1, self, buffer, length =>
    if length = 0 then .ret (self, buffer)
    else
      (unpack_step self buffer length).bind fun st =>
        unpack_loop fuel st.1 st.2.1 st.2.2

/-- Function `DecompressionContext_unpack` (fileio.c:70-99). Every iteration of the
outer loop reads at least 9 bits, so over an input of fewer than `2^32` bytes
it ends (or leaves the input) within `buf.length + 1` iterations, which is the
fuel given to the loop (`unpack_init_ne_timeout`). The result is the final
context and the bytes written to `buffer`. -/
def DecompressionContext_unpack (self : DecompressionContext) (length : Nat) :
    Outcome (DecompressionContext × List Nat) :=
  unpack_loop (self.buf.length + 1) self [] length

/-- Function `DecompressionContext_init` (fileio.c:101-111). The lookback buffer of
`self` is left as it was: the C code does not initialise it. -/
def DecompressionContext_init (self : DecompressionContext) (buf : List Nat) (buf_len : Nat) :
    DecompressionContext :=
  { self with
    buf := buf
    buf_len := buf_len
    lookback_buffer_write_index := 1
    current_byte_read_pos := 0
    current_byte := 0
    bit_in_current_byte := 0x80 }

/-- A context whose fields are all zero, standing for the memory of the
context before `DecompressionContext_init`. -/
def DecompressionContext.zero : DecompressionContext :=
  { buf := [], buf_len := 0, lookback_buffer_write_index := 0, bit_in_current_byte := 0,
    current_byte := 0, current_byte_read_pos := 0, lookback_buffer := fun _ => 0 }

/-- The bytes an unpack run wrote, forgetting the final context. -/
def Outcome.written (x : Outcome (DecompressionContext × List Nat)) : Outcome (List Nat) :=
  x.bind fun r => .ret r.2

/-! ## Mounted archives and the file resolver (fileio.c:113-259) -/

/-- Apply `f` to the returned value of an outcome. -/
def Outcome.map {α β : Type} (f : α → β) (x : Outcome α) : Outcome β :=
  x.bind fun a => .ret (f a)

/-- What `inflate` left in the `z_stream`: its return code, `total_out` and
the bytes it wrote to `next_out`. -/
structure InflateResult where
  res : Int
  total_out : Nat
  out : List Nat

/-- The zlib library, which `fileio.c` links against and which is not part of
the repository: its functions are parameters of the model.
* `crc32 crc buf` is `crc32(crc, buf, len)` over the bytes `buf`;
* `inflateInit` is the return code of `inflateInit(&stream)`;
* `inflate next_in avail_in avail_out` is the effect of
  `inflate(&stream, Z_SYNC_FLUSH)` on a stream whose input pointer addresses
  the bytes `next_in`. -/
structure Zlib where
  crc32 : Nat → List Nat → Nat
  inflateInit : Int
  inflate : List Nat → Nat → Nat → InflateResult

/-- The real file system as `read_file` sees it. `fopen name` is `none` when
`fopen(name, "rb")` returns `NULL`, and otherwise the bytes the opened stream
delivers to `fread`. `unread name` is the number of bytes, out of the size
`ftell` reports at the end of that stream, that `fread` does not deliver: 0
for a file that is read in full, positive for a stream that opens but cannot
be read in full (a directory, a failing device). -/
structure FileSystem where
  fopen : List Nat → Option (List Nat)
  unread : List Nat → Nat

/-- The `struct WADEntry` (fileio.c:113-118). -/
structure WADEntry where
  name : Nat
  start_offset : Nat
  length : Nat
  compressed_length : Nat
  deriving DecidableEq, Repr

/-- The `struct MountedWAD` (fileio.c:126-131); the `next` pointer is the tail of
the list the container stands in. `header` is the archive image the pointer
`header` addresses, `len` its length as stored by `read_file`. File names are
the bytes of the C string. -/
structure MountedWAD where
  filename : List Nat
  header : List Nat
  len : Nat
  deriving DecidableEq, Repr

/-- A `uint32_t` load at byte offset `off` of an object (host order: little
endian); `none` when the four bytes are not all inside the object. -/
def load_u32 (mem : List Nat) (off : Nat) : Option Nat :=
  if off + 4 ≤ mem.length then
    some (mem.getD off 0 + 256 * mem.getD (off + 1) 0 + 65536 * mem.getD (off + 2) 0
      + 16777216 * mem.getD (off + 3) 0)
  else none

/-- The load of `header->entries[i]` (fileio.c:113-124): the four fields of entry `i`, at
byte offsets `8 + 16 i`, `12 + 16 i`, `16 + 16 i` and `20 + 16 i` of the image. -/
def load_entry (image : List Nat) (i : Nat) : Option WADEntry :=
  match load_u32 image (8 + 16 * i), load_u32 image (8 + 16 * i + 4),
      load_u32 image (8 + 16 * i + 8), load_u32 image (8 + 16 * i + 12) with
  | some name, some start_offset, some length, some compressed_length =>
    some { name := name, start_offset := start_offset, length := length,
           compressed_length := compressed_length }
  | _, _, _, _ => none

/-- The block run for a matching entry in `read_wad_file` (fileio.c:169-218):
the codec dispatch. Returns the result buffer and `*len`. `tmp` is the memory
of the local `DecompressionContext tmp` before it is initialised. `malloc` is
taken to succeed with a non-null pointer. -/
def read_wad_entry (z : Zlib) (tmp : DecompressionContext) (wad : MountedWAD) (entry : WADEntry) :
    Outcome (List Nat × Nat) :=
  -- const char *read_ptr = (const uint8_t *)wad->header + entry->start_offset;
  let read_ptr := wad.header.drop entry.start_offset
  if entry.length ≠ entry.compressed_length then
    if entry.length &&& 0x80000000 ≠ 0 then
      -- *len = entry->length; *len &= ~0x80000000;
      let len := entry.length &&& 0x7FFFFFFF
      -- if (*((uint8_t *)read_ptr) != 0x78) fail("Invalid zlib header");
      match read_ptr.get? 0 with
      | none => .oob
      | some first =>
        if first ≠ 0x78 then .fatal "Invalid zlib header"
        else if z.inflateInit ≠ 0 then .fatal "Failed to init zlib"
        else
          -- result = malloc(*len); res = inflate(&stream, Z_SYNC_FLUSH);
          let r := z.inflate read_ptr entry.compressed_length len
          -- if (res != Z_STREAM_END || stream.total_out != *len) fail(...)
          if r.res ≠ 1 ∨ r.total_out ≠ len then .fatal "%s: zlib error for %s"
          else .ret (r.out, len)
    else
      -- result = malloc(entry->length); *len = entry->length;
      let ctx := DecompressionContext_init tmp read_ptr entry.compressed_length
      (DecompressionContext_unpack ctx entry.length).bind fun r =>
        -- a write past the `entry->length` bytes of `result` leaves the allocation
        if entry.length < r.2.length then .oob else .ret (r.2, entry.length)
  else
    -- result = malloc(entry->length); *len = entry->length;
    -- memcpy(result, read_ptr, entry->length); a copy of 0 bytes reads nothing
    if entry.length = 0 ∨ entry.start_offset + entry.length ≤ wad.header.length then
      .ret (read_ptr.take entry.length, entry.length)
    else .oob

/-- The loop `for (int i=0; i<wad->header->nfiles; ++i)` of `read_wad_file`
(fileio.c:164-220) from index `i` on, `n` being the number of iterations left
(`nfiles - i`). `some` is the `return result;` inside the loop, `none` the end
of the loop. The counter is an `int` in C; it does not overflow on tables of
fewer than `2^31` entries. -/
def scan_entries (z : Zlib) (tmp : DecompressionContext) (wad : MountedWAD) (name : Nat) :
    Nat → Nat → Outcome (Option (List Nat × Nat))
  | 0, _ => .ret none
  | n + 1, i =>
    -- if (entry->name == name)
    match load_u32 wad.header (8 + 16 * i) with
    | none => .oob
    | some entry_name =>
      if entry_name = name then
        match load_entry wad.header i with
        | none => .oob
        | some entry => (read_wad_entry z tmp wad entry).map some
      else scan_entries z tmp wad name n (i + 1)

/-- The loop `while (wad != NULL)` of `read_wad_file` (fileio.c:163-223) over
the chain from `wad` on. -/
def read_wad_chain (z : Zlib) (tmp : DecompressionContext) (name : Nat) :
    List MountedWAD → Outcome (Option (List Nat × Nat))
  | [] => .ret none
  | wad :: next =>
    -- wad->header->nfiles
    match load_u32 wad.header 4 with
    | none => .oob
    | some nfiles =>
      (scan_entries z tmp wad name nfiles 0).bind fun r =>
        match r with
        | some result => .ret (some result)
        | none => read_wad_chain z tmp name next

/-- The name hash of `read_wad_file` (fileio.c:161):
`uint32_t name = crc32(0xFFFFFFFF, filename, strlen(filename))`. -/
def name_hash (z : Zlib) (filename : List Nat) : Nat :=
  z.crc32 0xFFFFFFFF filename % 4294967296

/-- Function `read_wad_file` (fileio.c:156-226) on the chain `g_mounted_wads`.
`some (buffer, len)` is the returned buffer with `*len`, `none` is `NULL`. -/
def read_wad_file (z : Zlib) (tmp : DecompressionContext) (g_mounted_wads : List MountedWAD)
    (filename : List Nat) : Outcome (Option (List Nat × Nat)) :=
  read_wad_chain z tmp (name_hash z filename) g_mounted_wads

/-- Function `read_file` (fileio.c:228-259). `size` is what `ftell` reports after
`fseek(fp, 0, SEEK_END)`, `got` the bytes `fread(buf, 1, size, fp)` stores in
`buf`; their number is the value `fread` returns. -/
def read_file (z : Zlib) (tmp : DecompressionContext) (fs : FileSystem)
    (g_mounted_wads : List MountedWAD) (filename : List Nat) :
    Outcome (Option (List Nat × Nat)) :=
  (read_wad_file z tmp g_mounted_wads filename).bind fun buf =>
    match buf with
    | some result => .ret (some result)
    | none =>
      match fs.fopen filename with
      | none => .ret none
      | some contents =>
        let size := contents.length + fs.unread filename
        let got := contents.take size
        -- if (fread(buf, 1, size, fp) != size) fail(...)
        if got.length ≠ size then .fatal "Could not read %zu bytes from %s"
        else .ret (some (got, size))

/-- Function `mount_wad` (fileio.c:136-154): the returned `bool` and the chain
`g_mounted_wads` after the call. -/
def mount_wad (z : Zlib) (tmp : DecompressionContext) (fs : FileSystem)
    (g_mounted_wads : List MountedWAD) (filename : List Nat) :
    Outcome (Bool × List MountedWAD) :=
  -- wad->header = (struct WADHeader *)read_file(filename, &wad->len);
  (read_file z tmp fs g_mounted_wads filename).bind fun r =>
    match r with
    | none => .ret (false, g_mounted_wads)
    | some (header, len) =>
      -- wad->next = g_mounted_wads; g_mounted_wads = wad;
      .ret (true, { filename := filename, header := header, len := len } :: g_mounted_wads)

/-! ## Vocabulary for archives -/

/-- The name hash stored in entry `i` of an image, when the entry lies inside
the image. -/
def nameAt (image : List Nat) (i : Nat) : Option Nat :=
  (load_entry image i).map fun e => e.name

/-- The entry table of the image lies inside the image. -/
def TableInBounds (image : List Nat) : Prop :=
  ∃ n, load_u32 image 4 = some n ∧ 8 + 16 * n ≤ image.length

/-- No entry of the table of the image has name hash `h`. -/
def NoEntry (image : List Nat) (h : Nat) : Prop :=
  ∀ n, load_u32 image 4 = some n → ∀ i, i < n → nameAt image i ≠ some h

/-- Entry `i` is the first entry of the table of the image with name hash `h`. -/
def FirstMatch (image : List Nat) (h i : Nat) : Prop :=
  (∃ n, load_u32 image 4 = some n ∧ i < n) ∧ nameAt image i = some h ∧
    ∀ j, j < i → nameAt image j ≠ some h

/-- Walking the chain `g` from the front, the first container with an entry
of name hash `h` is `w`, and `e` is the first such entry of `w`: the
containers before `w` hold their entry tables and have no entry of hash `h`. -/
def Resolves (g : List MountedWAD) (h : Nat) (w : MountedWAD) (e : WADEntry) : Prop :=
  ∃ pre post i, g = pre ++ w :: post ∧
    (∀ w' ∈ pre, TableInBounds w'.header ∧ NoEntry w'.header h) ∧
    FirstMatch w.header h i ∧ load_entry w.header i = some e

/-- No container of the chain `g` has an entry of name hash `h` (and each
holds its entry table). -/
def Unresolved (g : List MountedWAD) (h : Nat) : Prop :=
  ∀ w ∈ g, TableInBounds w.header ∧ NoEntry w.header h

/-- One step of the bitwise CRC-32 (reflected polynomial `0xEDB88320`). -/
def crc32_bit (c : Nat) : Nat :=
  if c % 2 = 1 then (c / 2) ^^^ 0xEDB88320 else c / 2

/-- CRC-32 register after one more input byte. -/
def crc32_byte (c b : Nat) : Nat :=
  crc32_bit (crc32_bit (crc32_bit (crc32_bit (crc32_bit (crc32_bit (crc32_bit
    (crc32_bit (c ^^^ b))))))))

/-- Reference model of zlib's `crc32(crc, buf, len)`: the running CRC-32 with
the register complemented on entry and on exit. -/
def zlib_crc32 (crc : Nat) (buf : List Nat) : Nat :=
  buf.foldl crc32_byte (crc ^^^ 0xFFFFFFFF) ^^^ 0xFFFFFFFF

/-- A zlib for concrete runs in which no stream is inflated: the reference
CRC-32, and an `inflate` that reports `Z_DATA_ERROR` on every input. -/
def zlibRef : Zlib :=
  { crc32 := zlib_crc32
    inflateInit := 0
    inflate := fun _ _ _ => { res := -3, total_out := 0, out := [] } }

/-! ## Vocabulary for the bit stream -/

/-- Bit `k` of a byte buffer, the most significant bit of each byte first. -/
def bitAt (bytes : List Nat) (k : Nat) : Bool :=
  (bytes.getD (k / 8) 0).testBit (7 - k % 8)

/-- Value of the `n` bits at positions `k, ..., k + n - 1`, the first bit being
the most significant one: `sum over i < n of bit (k + i) * 2 ^ (n - 1 - i)`. -/
def readVal (bytes : List Nat) : Nat → Nat → Nat
  | _, 0 => 0
  | k, n + 1 => (bitAt bytes k).toNat * 2 ^ n + readVal bytes (k + 1) n

/-- The reader fields of a context after `k` bits have been read from `buf`
since `DecompressionContext_init`: the mask is `0x80 >> (k mod 8)`, the read
position is `ceil (k / 8)` (as a `uint32_t`) and the current byte is the last
byte fetched. The other fields are those of `base`. -/
def readerAt (base : DecompressionContext) (k : Nat) : DecompressionContext :=
  { base with
    bit_in_current_byte := 2 ^ (7 - k % 8)
    current_byte_read_pos := ((k + 7) / 8) % 4294967296
    current_byte := if k = 0 then base.current_byte else base.buf.getD ((k - 1) / 8) 0 % 256 }

/-! ## The documented bitstream and the documented expansion (spec 4.2)

These definitions follow the words of the specification, not the C code: they
are what the decoder is compared with. -/

/-- A token of the compressed stream: a literal byte, or a back-reference
with a lookback offset and a repeat count. -/
inductive Token where
  | literal (byte : Nat)
  | backref (offset count : Nat)
  deriving DecidableEq, Repr

/-- A literal holds a byte; a back-reference holds a 13-bit offset and a
repeat count in `3..18`. -/
def Token.WellFormed : Token → Prop
  | .literal b => b < 256
  | .backref o c => o < 8192 ∧ 3 ≤ c ∧ c ≤ 18

instance (t : Token) : Decidable t.WellFormed := by
  cases t <;> unfold Token.WellFormed <;> infer_instance

/-- The `w` low bits of `v`, most significant first. -/
def natBits : Nat → Nat → List Bool
  | 0, _ => []
  | w + 1, v => v.testBit w :: natBits w v

/-- Serialisation of one token: flag bit 1 and 8 bits, or flag bit 0, a
13-bit offset and the 4-bit value `count - 3`. -/
def Token.bits : Token → List Bool
  | .literal b => true :: natBits 8 b
  | .backref o c => false :: (natBits 13 o ++ natBits 4 (c - 3))

/-- The bits of a token sequence, in order. -/
def tokenBits : List Token → List Bool
  | [] => []
  | t :: ts => t.bits ++ tokenBits ts

/-- Byte `i` of a bit list packed MSB-first; bits past the end count as 0. -/
def packByte (bs : List Bool) (i : Nat) : Nat :=
  128 * (bs.getD (8 * i) false).toNat + 64 * (bs.getD (8 * i + 1) false).toNat
    + 32 * (bs.getD (8 * i + 2) false).toNat + 16 * (bs.getD (8 * i + 3) false).toNat
    + 8 * (bs.getD (8 * i + 4) false).toNat + 4 * (bs.getD (8 * i + 5) false).toNat
    + 2 * (bs.getD (8 * i + 6) false).toNat + (bs.getD (8 * i + 7) false).toNat

/-- A bit list packed MSB-first into bytes, zero-padded to whole bytes. -/
def packBits (bs : List Bool) : List Nat :=
  (List.range ((bs.length + 7) / 8)).map (packByte bs)

/-- The byte stream of a token sequence: the token bits, followed by the
padding bits `pad` (any bits; the last byte is completed with zeros). -/
def serialise (toks : List Token) (pad : List Bool) : List Nat :=
  packBits (tokenBits toks ++ pad)

/-- The lookback window of the documented decoder: each of the 8192 slots is
undefined (`none`) until written, and a write cursor. -/
structure Window where
  lookback : Nat → Option Nat
  cursor : Nat

/-- Initial state of the documented decoder: nothing written, cursor at 1. -/
def Window.initial : Window :=
  { lookback := fun _ => none, cursor := 1 }

/-- Write an emitted byte at the cursor and advance the cursor modulo 8192. -/
def Window.emit (w : Window) (b : Nat) : Window :=
  { lookback := Function.update w.lookback w.cursor (some b), cursor := (w.cursor + 1) % 8192 }

/-- The documented copy run: for each of the `n` remaining bytes, read the
slot `(offset + i) mod 8192`, emit it and write it at the cursor. Reading a
slot that was never written has no documented result (`none`). -/
def expandCopy (offset : Nat) : Nat → Nat → Window → List Nat → Option (Window × List Nat)
  | 0, _, w, out => some (w, out)
  | n + 1, i, w, out =>
    match w.lookback ((offset + i) % 8192) with
    | none => none
    | some b => expandCopy offset n (i + 1) (w.emit b) (out ++ [b])

/-- The documented expansion of one token. -/
def expandToken : Token → Window → List Nat → Option (Window × List Nat)
  | .literal b, w, out => some (w.emit b, out ++ [b])
  | .backref o c, w, out => expandCopy o c 0 w out

/-- The documented expansion of a token sequence from a given state. -/
def expandFrom : List Token → Window → List Nat → Option (Window × List Nat)
  | [], w, out => some (w, out)
  | t :: ts, w, out =>
    match expandToken t w out with
    | none => none
    | some st => expandFrom ts st.1 st.2

/-- The byte sequence a token sequence expands to under the documented
algorithm, when every back-reference reads only slots written earlier in the
same decode. -/
def expandTokens (toks : List Token) : Option (List Nat) :=
  (expandFrom toks Window.initial []).map fun st => st.2

/-- The bits of `bs` stand in `bytes` from bit position `k` on. -/
def BitsAt (bytes : List Nat) : Nat → List Bool → Prop
  | _, [] => True
  | k, b :: bs => bitAt bytes k = b ∧ BitsAt bytes (k + 1) bs

/-- The context holds what the documented window holds: same cursor, and
every written slot has the documented byte. -/
def Agrees (w : Window) (self : DecompressionContext) : Prop :=
  self.lookback_buffer_write_index = w.cursor ∧
    ∀ i b, w.lookback i = some b → self.lookback_buffer i = b

/-! ## Concrete archives, laid out as the container format prescribes (spec 6) -/

/-- The four bytes of a `uint32_t` in host (little-endian) order. -/
def store_u32 (v : Nat) : List Nat :=
  [v % 256, v / 256 % 256, v / 65536 % 256, v / 16777216 % 256]

/-- The 16 bytes of an entry record. -/
def WADEntry.bytes (e : WADEntry) : List Nat :=
  store_u32 e.name ++ store_u32 e.start_offset ++ store_u32 e.length
    ++ store_u32 e.compressed_length

/-- The bytes of an entry table. -/
def entryTable : List WADEntry → List Nat
  | [] => []
  | e :: es => e.bytes ++ entryTable es

/-- An archive image: header `{version, entry_count}`, the entry table, then
the payload bytes. -/
def archiveImage (version : Nat) (entries : List WADEntry) (payload : List Nat) : List Nat :=
  store_u32 version ++ store_u32 entries.length ++ entryTable entries ++ payload

/-- The file name `a.txt`; its name hash is 4164353880. -/
def name_a_txt : List Nat := [97, 46, 116, 120, 116]

/-- The file name `b.txt`; its name hash is 3214312840. -/
def name_b_txt : List Nat := [98, 46, 116, 120, 116]

/-- The file name `plumless`; its name hash is 3607506099. -/
def name_plumless : List Nat := [112, 108, 117, 109, 108, 101, 115, 115]

/-- The file name `buckeroo`; its name hash is 3607506099 as well. -/
def name_buckeroo : List Nat := [98, 117, 99, 107, 101, 114, 111, 111]

/-- The file name `a.wad`. -/
def name_a_wad : List Nat := [97, 46, 119, 97, 100]

/-- The file name `b.wad`. -/
def name_b_wad : List Nat := [98, 46, 119, 97, 100]

/-- An archive with two raw entries of the name hash of `a.txt`: "hello" at
offset 40 and "world" at offset 45. -/
def imageA : List Nat :=
  archiveImage 1
    [{ name := 4164353880, start_offset := 40, length := 5, compressed_length := 5 },
     { name := 4164353880, start_offset := 45, length := 5, compressed_length := 5 }]
    [104, 101, 108, 108, 111, 119, 111, 114, 108, 100]

/-- An archive with one raw entry of the name hash of `a.txt`: "abc" at
offset 24. -/
def imageB : List Nat :=
  archiveImage 1
    [{ name := 4164353880, start_offset := 24, length := 3, compressed_length := 3 }]
    [97, 98, 99]

/-- An archive with two raw entries of the name hash shared by `plumless` and
`buckeroo`: "hello" at offset 40 and "world" at offset 45. -/
def imageC : List Nat :=
  archiveImage 1
    [{ name := 3607506099, start_offset := 40, length := 5, compressed_length := 5 },
     { name := 3607506099, start_offset := 45, length := 5, compressed_length := 5 }]
    [104, 101, 108, 108, 111, 119, 111, 114, 108, 100]

/-- An archive with one zlib-flagged entry of the name hash of `a.txt`
(stored length `0x80000005`, 9 payload bytes at offset 24) whose payload
starts with `0x79`. -/
def imageZ : List Nat :=
  archiveImage 1
    [{ name := 4164353880, start_offset := 24, length := 0x80000005, compressed_length := 9 }]
    [0x79, 0x9c, 1, 2, 3, 4, 5, 6, 7]

/-- The containers of `imageA`, `imageB`, `imageC` and `imageZ`. -/
def wadA : MountedWAD := { filename := name_a_wad, header := imageA, len := imageA.length }

/-- The container of `imageB`. -/
def wadB : MountedWAD := { filename := name_b_wad, header := imageB, len := imageB.length }

/-- The container of `imageC`. -/
def wadC : MountedWAD := { filename := name_a_wad, header := imageC, len := imageC.length }

/-- The container of `imageZ`. -/
def wadZ : MountedWAD := { filename := name_a_wad, header := imageZ, len := imageZ.length }

/-- A file system holding `a.wad` (`imageA`), `b.wad` (`imageB`) and two
loose files: `a.txt` with the bytes "xyz" and `b.txt` with the bytes "abc". -/
def fsAB : FileSystem :=
  { fopen := fun name =>
      if name = name_a_wad then some imageA
      else if name = name_b_wad then some imageB
      else if name = name_a_txt then some [120, 121, 122]
      else if name = name_b_txt then some [97, 98, 99]
      else none
    unread := fun _ => 0 }

/-! ## Vocabulary for the later claims -/

/-- Bit `j` of a buffer as the claim writes it:
`(buf[j / 8] >> (7 - j mod 8)) & 1`. -/
def bitNat (bytes : List Nat) (j : Nat) : Nat :=
  (bytes.getD (j / 8) 0 >>> (7 - j % 8)) &&& 1

/-- The reader states reached from `start` after `k` bits have been read:
`start` itself after 0 bits, the state a successful
`DecompressionContext_read_bits` of `n` bits (`1 ≤ n ≤ 32`) leaves, and the
states the decoder makes in between by writing to the lookback buffer and its
write index. -/
inductive ReachedAfter (start : DecompressionContext) : Nat → DecompressionContext → Prop
  | start : ReachedAfter start 0 start
  | read (k n v : Nat) (s s' : DecompressionContext) :
      ReachedAfter start k s → 1 ≤ n → n ≤ 32 →
      DecompressionContext_read_bits s n = .ret (v, s') → ReachedAfter start (k + n) s'
  | window (k : Nat) (s : DecompressionContext) (lb : Nat → Nat) (w : Nat) :
      ReachedAfter start k s →
      ReachedAfter start k { s with lookback_buffer := lb, lookback_buffer_write_index := w }

/-- The lookback window of a context holds the last bytes of the output `out`:
the write cursor is `(1 + N) mod 8192` and slot `(N - j) mod 8192` holds
`out[N - 1 - j]` for every `j < min N 8192`, where `N` is the number of bytes
emitted. -/
def WindowInv (self : DecompressionContext) (out : List Nat) : Prop :=
  self.lookback_buffer_write_index = (1 + out.length) % 8192 ∧
    ∀ j, j < min out.length 8192 →
      out[out.length - 1 - j]? = some (self.lookback_buffer ((out.length - j) % 8192))

/-- The `inflate` call of the zlib path of `read_wad_file` for an entry
(fileio.c:183-197): input pointer at `start_offset` of the image,
`avail_in = compressed_length`, `avail_out = stored_length & 0x7FFFFFFF`. -/
def inflate_entry (z : Zlib) (w : MountedWAD) (e : WADEntry) : InflateResult :=
  z.inflate (w.header.drop e.start_offset) e.compressed_length (e.length &&& 0x7FFFFFFF)

/-- The decoder call of the LZ path of `read_wad_file` for an entry
(fileio.c:207-209): the context is initialised on the image from
`start_offset` on with `buf_len = compressed_length` and unpacked with
`length = stored_length`. -/
def unpack_entry (tmp : DecompressionContext) (w : MountedWAD) (e : WADEntry) :
    Outcome (DecompressionContext × List Nat) :=
  DecompressionContext_unpack
    (DecompressionContext_init tmp (w.header.drop e.start_offset) e.compressed_length) e.length

/-- The context `s` with the field `buf_len` set to `x`. -/
def DecompressionContext.withBufLen (s : DecompressionContext) (x : Nat) : DecompressionContext :=
  { s with buf_len := x }

/-- The Adler-32 checksum of a byte sequence. -/
def adler32 (data : List Nat) : Nat :=
  let r := data.foldl
    (fun (ab : Nat × Nat) x => ((ab.1 + x) % 65521, (ab.2 + (ab.1 + x) % 65521) % 65521)) (1, 0)
  r.2 * 65536 + r.1

/-- Reference model of zlib's `inflate` on the zlib streams made of the header
`78 01` and one final stored block (`01`, `LEN`, `NLEN`, the data, the
big-endian Adler-32 of the data). It returns `Z_STREAM_END` (1) when the whole
stream is well formed and the data fit in `avail_out`, `Z_OK` (0) with
`avail_out` bytes written when they do not fit, and `Z_DATA_ERROR` (-3)
otherwise. -/
def inflate_stored (next_in : List Nat) (avail_in avail_out : Nat) : InflateResult :=
  let input := next_in.take avail_in
  let len := input.getD 3 0 + 256 * input.getD 4 0
  let data := (input.drop 7).take len
  if input.take 3 = [0x78, 0x01, 0x01] ∧ input.getD 3 0 + input.getD 5 0 = 255
      ∧ input.getD 4 0 + input.getD 6 0 = 255 ∧ 7 + len + 4 ≤ input.length then
    if avail_out < len then { res := 0, total_out := avail_out, out := data.take avail_out }
    else if (input.drop (7 + len)).take 4 = (store_u32 (adler32 data)).reverse then
      { res := 1, total_out := len, out := data }
    else { res := -3, total_out := len, out := data }
  else { res := -3, total_out := 0, out := [] }

/-- A zlib for concrete runs with stored-block streams: the reference CRC-32
and `inflate_stored`. -/
def zlibStored : Zlib :=
  { crc32 := zlib_crc32, inflateInit := 0, inflate := inflate_stored }

/-- An archive with one zlib-flagged entry of the name hash of `a.txt`: stored
length `0x80000005`, and at offset 24 the 16 bytes of the zlib stream (one
stored block) of "hello". -/
def imageZok : List Nat :=
  archiveImage 1
    [{ name := 4164353880, start_offset := 24, length := 0x80000005, compressed_length := 16 }]
    [120, 1, 1, 5, 0, 250, 255, 104, 101, 108, 108, 111, 6, 44, 2, 21]

/-- An archive with one LZ entry of the name hash of `a.txt`: stored length 5,
and at offset 24 the 6 bytes `B0 D8 80 01 00 00`, the stream of literal 'a',
literal 'b', back-reference (offset 1, count 3). -/
def imageL : List Nat :=
  archiveImage 1
    [{ name := 4164353880, start_offset := 24, length := 5, compressed_length := 6 }]
    [0xB0, 0xD8, 0x80, 0x01, 0x00, 0x00]

/-- An archive like `imageL` whose entry declares 2 compressed bytes: the
stream of 5 bytes goes on past them inside the image. -/
def imageLshort : List Nat :=
  archiveImage 1
    [{ name := 4164353880, start_offset := 24, length := 5, compressed_length := 2 }]
    [0xB0, 0xD8, 0x80, 0x01, 0x00, 0x00]

/-- An archive like `imageL` whose entry declares 100 compressed bytes, more
than the 6 bytes the image holds from offset 24 on. -/
def imageLlong : List Nat :=
  archiveImage 1
    [{ name := 4164353880, start_offset := 24, length := 5, compressed_length := 100 }]
    [0xB0, 0xD8, 0x80, 0x01, 0x00, 0x00]

/-- An archive with one entry of the name hash of `a.txt` whose stored length
and compressed length are both `0x80000005` (high bit set), with the payload
"hello" at offset 24. -/
def imageR : List Nat :=
  archiveImage 1
    [{ name := 4164353880, start_offset := 24, length := 0x80000005,
       compressed_length := 0x80000005 }]
    [104, 101, 108, 108, 111]

/-- An archive with one raw entry of the name hash of `a.txt` that declares 9
bytes at offset 24, where the image holds 5. -/
def imageT : List Nat :=
  archiveImage 1
    [{ name := 4164353880, start_offset := 24, length := 9, compressed_length := 9 }]
    [104, 101, 108, 108, 111]

/-- The archive of the concrete raw scenario as written: header
`{version = 1, entry_count = 1}`, one entry
`{crc32("a.txt"), start_offset = 16, stored_length = 5, compressed_length = 5}`
and the payload "hello". The header and the entry take 24 bytes, so the
payload stands at offset 24 and offset 16 is inside the entry. -/
def image16 : List Nat :=
  archiveImage 1
    [{ name := 4164353880, start_offset := 16, length := 5, compressed_length := 5 }]
    [104, 101, 108, 108, 111]

/-- The archive of the concrete raw scenario with the payload offset the
layout gives, 24. -/
def image24 : List Nat :=
  archiveImage 1
    [{ name := 4164353880, start_offset := 24, length := 5, compressed_length := 5 }]
    [104, 101, 108, 108, 111]

/-- The container of an image, under the file name `a.wad`. -/
def wadOf (image : List Nat) : MountedWAD :=
  { filename := name_a_wad, header := image, len := image.length }

/-! ## Line-wise parsing of the manifest (fileio.c:262-284, shipedit.c:2094-2102, 2247-2252) -/

/-- The bytes of the C string at a pointer: those before the first NUL. -/
def c_string (p : List Nat) : List Nat :=
  p.takeWhile fun c => c != 0

/-- The inner loop `while (*lineend != '\n' && *lineend != '\0') ++lineend;` of
`parse_file_lines` (fileio.c:272-274), with fuel. `buf` is the whole buffer
object; the loop does not compare `lineend` with `end`, so a scan that finds
no terminator reads the byte after the object. -/
def scan_line (buf : List Nat) : Nat → Nat → Outcome Nat
  | 0, _ => .timeout
  | fuel + 1, lineend =>
    match buf.get? lineend with
    | none => .oob
    | some c =>
      if c ≠ 10 ∧ c ≠ 0 then scan_line buf fuel (lineend + 1) else .ret lineend

/-- The loop `while (cur < end) { ... }` of `parse_file_lines`
(fileio.c:270-281), with fuel. `buf` is the buffer object, `len` the length
`read_file` reported (`end = buf + len`), `cur` the index of the current line.
The callback receives the pointer `cur`, that is the bytes of the buffer from
`cur` on after the terminator of the line has been overwritten with NUL, and
the state the callbacks pass along. -/
def parse_lines {σ : Type} (line_callback : List Nat → σ → Outcome σ) :
    Nat → List Nat → Nat → Nat → σ → Outcome σ
  | 0, _, _, _, _ => .timeout
  | fuel + 1, buf, len, cur, st =>
    if cur < len then
      (scan_line buf (buf.length + 1) cur).bind fun lineend =>
        -- *lineend = '\0';
        let buf1 := buf.set lineend 0
        -- line_callback(cur, user_data); cur = lineend + 1;
        (line_callback (buf1.drop cur) st).bind fun st1 =>
          parse_lines line_callback fuel buf1 len (lineend + 1) st1
    else .ret st

/-- Function `parse_file_lines` (fileio.c:262-284) on the chain `g_mounted_wads`.
Every iteration moves `cur` forward, so the loop ends within `len + 1` tests of
its condition. When `read_file` returns `NULL`, `buf` is `NULL` and `len` keeps
the indeterminate value `len0` it had before the call: the loop is skipped
when that is 0 and dereferences `NULL` otherwise. -/
def parse_file_lines {σ : Type} (z : Zlib) (tmp : DecompressionContext) (fs : FileSystem)
    (g_mounted_wads : List MountedWAD) (len0 : Nat) (filename : List Nat)
    (line_callback : List Nat → σ → Outcome σ) (user_data : σ) : Outcome σ :=
  (read_file z tmp fs g_mounted_wads filename).bind fun r =>
    match r with
    | none => if 0 < len0 then .oob else .ret user_data
    | some (buf, len) => parse_lines line_callback (len + 1) buf len 0 user_data

/-- Function `parse_wadlist_line` (shipedit.c:2094-2102): the chain
`g_mounted_wads` after the call. `line` is the pointer passed by
`parse_file_lines`; `mount_wad` takes the C string at it. -/
def parse_wadlist_line (z : Zlib) (tmp : DecompressionContext) (fs : FileSystem)
    (line : List Nat) (g_mounted_wads : List MountedWAD) : Outcome (List MountedWAD) :=
  -- if (line[0] == '#' || line[0] == '\0') return;
  match line.get? 0 with
  | none => .oob
  | some c0 =>
    if c0 = 35 ∨ c0 = 0 then .ret g_mounted_wads
    else if 0 ∈ line then
      -- mount_wad(line);
      (mount_wad z tmp fs g_mounted_wads (c_string line)).map Prod.snd
    else .oob

/-- The file name `editor.wad`. -/
def name_editor_wad : List Nat := [101, 100, 105, 116, 111, 114, 46, 119, 97, 100]

/-- The file name `data/editor/wadlist.txt`. -/
def name_wadlist_txt : List Nat :=
  [100, 97, 116, 97, 47, 101, 100, 105, 116, 111, 114, 47, 119, 97, 100, 108, 105, 115, 116, 46,
   116, 120, 116]

/-- The mounting part of `main` (shipedit.c:2247-2252), started with the empty
chain: `none` is the `return 1` taken when `editor.wad` cannot be mounted,
`some g` the chain after the manifest has been processed. -/
def main_mounts (z : Zlib) (tmp : DecompressionContext) (fs : FileSystem) (len0 : Nat) :
    Outcome (Option (List MountedWAD)) :=
  -- if (!mount_wad("editor.wad")) { ...; return 1; }
  (mount_wad z tmp fs [] name_editor_wad).bind fun r =>
    if r.1 = false then .ret none
    else
      -- parse_file_lines("data/editor/wadlist.txt", parse_wadlist_line, NULL);
      (parse_file_lines z tmp fs r.2 len0 name_wadlist_txt (parse_wadlist_line z tmp fs) r.2).map
        some

/-! ## Vocabulary for the manifest -/

/-- The text whose lines are `lines`, each terminated by `'\n'`. -/
def joinLines : List (List Nat) → List Nat
  | [] => []
  | l :: ls => l ++ 10 :: joinLines ls

/-- Run `f` on each line in order, passing the state along. -/
def runLines {σ : Type} (f : List Nat → σ → Outcome σ) : List (List Nat) → σ → Outcome σ
  | [], st => .ret st
  | l :: ls, st => (f l st).bind fun st1 => runLines f ls st1

/-- A manifest line that names an archive: not empty and not starting with `#`. -/
def isPathLine (l : List Nat) : Bool :=
  match l with
  | [] => false
  | c :: _ => c != 35

/-- The call `mount_wad(path)` as a step on the chain, its result dropped as
`parse_wadlist_line` drops it. -/
def mount_step (z : Zlib) (tmp : DecompressionContext) (fs : FileSystem) (path : List Nat)
    (g : List MountedWAD) : Outcome (List MountedWAD) :=
  (mount_wad z tmp fs g path).map Prod.snd

/-- Mounting the paths `ps` one after the other from the chain `g` succeeds
each time and ends with the chain `g'`. -/
def Mountable (z : Zlib) (tmp : DecompressionContext) (fs : FileSystem) :
    List (List Nat) → List MountedWAD → List MountedWAD → Prop
  | [], g, g' => g' = g
  | p :: ps, g, g' =>
    ∃ g1, mount_wad z tmp fs g p = .ret (true, g1) ∧ Mountable z tmp fs ps g1 g'

/-- An archive with one raw entry of the name hash of `b.wad`: the three bytes
`01 02 03` at offset 24. -/
def imageN : List Nat :=
  archiveImage 1
    [{ name := 996639405, start_offset := 24, length := 3, compressed_length := 3 }]
    [1, 2, 3]

/-- The manifest `# list`, an empty line, `a.wad`, `b.wad`, each terminated
by `'\n'`. -/
def manifestAB : List Nat :=
  joinLines [[35, 32, 108, 105, 115, 116], [], name_a_wad, name_b_wad]

/-- A file system holding `editor.wad` (`imageC`), the manifest
`data/editor/wadlist.txt` (`manifestAB`), `a.wad` (`imageA`) and `b.wad`
(`imageB`). -/
def fsMain : FileSystem :=
  { fopen := fun name =>
      if name = name_editor_wad then some imageC
      else if name = name_wadlist_txt then some manifestAB
      else if name = name_a_wad then some imageA
      else if name = name_b_wad then some imageB
      else none
    unread := fun _ => 0 }

/-- The path `data`. -/
def name_data : List Nat := [100, 97, 116, 97]

/-- A file system in which `data` is a directory: `fopen` opens it, `ftell`
reports the size 4096 and `fread` delivers no byte. It holds no other file. -/
def fsDir : FileSystem :=
  { fopen := fun name => if name = name_data then some [] else none
    unread := fun name => if name = name_data then 4096 else 0 }

/-! ## The in-memory font (src/src/fontaine/fontaine2.c:33-259) -/

/-- The `struct PixelDataEntry` (fontaine2.c:51-56); the fields are `uint8_t`. -/
structure PixelDataEntry where
  character : Nat
  width : Nat
  height : Nat
  xspacing : Nat
  deriving DecidableEq, Repr

/-- The `struct InMemoryFont` (fontaine2.h:33-46) without `name`; the four
arrays of 256 entries map an index to the value held there, `pixels_packed` is
the list of bytes written to the pixel buffer. -/
structure InMemoryFont where
  pixels_packed : List Nat
  char_offset : Nat → Nat
  char_width : Nat → Nat
  char_height : Nat → Nat
  char_xspacing : Nat → Nat
  n_chars : Nat
  max_char_width : Nat
  max_char_height : Nat
  is_monospace : Nat
  codepage : Nat

/-- The loop `for (i=0; i<255; i++) font->char_offset[i] = (uint32_t)-1;` of
`in_memory_font_new` (fontaine2.c:167-169) from index `i` on, `n` being the
number of iterations left. -/
def sentinel_loop : Nat → Nat → (Nat → Nat) → (Nat → Nat)
  | 0, _, char_offset => char_offset
  | n + 1, i, char_offset => sentinel_loop n (i + 1) (Function.update char_offset i 0xFFFFFFFF)

/-- The body of the loop `for (i=0; i<count; i++)` of `in_memory_font_new`
(fontaine2.c:172-191) for the entry `e`; the state is the font and
`total_output_pixels`. -/
def glyph_step (e : PixelDataEntry) (font : InMemoryFont) (total_output_pixels : Nat) :
    InMemoryFont × Nat :=
  let font1 :=
    if e.width ≠ font.max_char_width ∨ e.height ≠ font.max_char_height then
      { font with
        is_monospace := 0
        max_char_width := if e.width > font.max_char_width then e.width else font.max_char_width
        max_char_height :=
          if e.height > font.max_char_height then e.height else font.max_char_height }
    else font
  ({ font1 with
      char_offset := Function.update font1.char_offset e.character
        (total_output_pixels % 4294967296)
      char_width := Function.update font1.char_width e.character e.width
      char_height := Function.update font1.char_height e.character e.height
      char_xspacing := Function.update font1.char_xspacing e.character e.xspacing },
    total_output_pixels + e.width * e.height)

/-- The loop `for (i=0; i<count; i++) { ...; e++; }` of `in_memory_font_new`
(fontaine2.c:171-191) from entry `i` on, `n` being the number of iterations
left; reading an entry outside `chars` leaves the object. -/
def glyph_loop (chars : List PixelDataEntry) :
    Nat → Nat → InMemoryFont × Nat → Outcome (InMemoryFont × Nat)
  | 0, _, st => .ret st
  | n + 1, i, st =>
    match chars.get? i with
    | none => .oob
    | some e => glyph_loop chars n (i + 1) (glyph_step e st.1 st.2)

/-- The body of the inner replacement loop of `in_memory_font_new`
(fontaine2.c:201-208) for the characters `f` and `t`. -/
def replacement_step (f t : Nat) (font : InMemoryFont) : InMemoryFont :=
  if font.char_offset t = 0xFFFFFFFF ∧ font.char_offset f ≠ 0xFFFFFFFF then
    { font with
      char_offset := Function.update font.char_offset t (font.char_offset f)
      char_width := Function.update font.char_width t (font.char_width f)
      char_height := Function.update font.char_height t (font.char_height f)
      char_xspacing := Function.update font.char_xspacing t (font.char_xspacing f) }
  else font

/-- The loop `for (j=0; j<26; j++)` of the replacement pass over the strings
`from` and `to`, given as their first characters (the 26 letters follow each
other); `n` is the number of iterations left. -/
def replacement_loop (from_ to_ : Nat) : Nat → Nat → InMemoryFont → InMemoryFont
  | 0, _, font => font
  | n + 1, j, font =>
    replacement_loop from_ to_ n (j + 1) (replacement_step (from_ + j) (to_ + j) font)

/-- One iteration of the column loop of `decode_2bit_data` (fontaine2.c:66-76);
the state is the pixels written, the index into the encoded data and `bits`. -/
def decode_pixel (encoded_pixel_data : List Nat) (st : List Nat × Nat × Nat) :
    Outcome (List Nat × Nat × Nat) :=
  match encoded_pixel_data.get? st.2.1 with
  | none => .oob
  | some b =>
    let v := (b >>> (6 - st.2.2)) &&& 0x03
    let bits1 := st.2.2 + 2
    if bits1 = 8 then .ret (st.1 ++ [v], st.2.1 + 1, 0) else .ret (st.1 ++ [v], st.2.1, bits1)

/-- The loop `for (column=0; column<chars->width; column++)`, `n` iterations. -/
def decode_row (encoded_pixel_data : List Nat) :
    Nat → List Nat × Nat × Nat → Outcome (List Nat × Nat × Nat)
  | 0, st => .ret st
  | n + 1, st => (decode_pixel encoded_pixel_data st).bind (decode_row encoded_pixel_data n)

/-- The loop `for (row=0; row<chars->height; row++)`, `n` iterations. -/
def decode_rows (encoded_pixel_data : List Nat) (width : Nat) :
    Nat → List Nat × Nat × Nat → Outcome (List Nat × Nat × Nat)
  | 0, st => .ret st
  | n + 1, st =>
    (decode_row encoded_pixel_data width st).bind (decode_rows encoded_pixel_data width n)

/-- The loop `for (i=0; i<count; i++)` of `decode_2bit_data`
(fontaine2.c:62-86) from entry `i` on, `n` iterations left. -/
def decode_chars (chars : List PixelDataEntry) (encoded_pixel_data : List Nat) :
    Nat → Nat → List Nat × Nat × Nat → Outcome (List Nat × Nat × Nat)
  | 0, _, st => .ret st
  | n + 1, i, st =>
    match chars.get? i with
    | none => .oob
    | some e =>
      (decode_rows encoded_pixel_data e.width e.height st).bind fun st1 =>
        -- if (bits != 0) { encoded_pixel_data++; bits = 0; }
        let st2 := if st1.2.2 ≠ 0 then (st1.1, st1.2.1 + 1, 0) else st1
        decode_chars chars encoded_pixel_data n (i + 1) st2

/-- Function `decode_2bit_data` (fontaine2.c:58-87): the pixels written. -/
def decode_2bit_data (chars : List PixelDataEntry) (count : Nat)
    (encoded_pixel_data : List Nat) : Outcome (List Nat) :=
  (decode_chars chars encoded_pixel_data count 0 ([], 0, 0)).map fun st => st.1

/-- Function `in_memory_font_new` (fontaine2.c:136-222). `chars` holds the
entries addressable from the pointer `chars`. -/
def in_memory_font_new (chars : List PixelDataEntry) (count : Nat)
    (encoded_pixel_data : List Nat) (codepage : Nat) (replacements : Bool) :
    Outcome InMemoryFont :=
  -- memset(font, 0, sizeof(*font));
  let zero : Nat → Nat := fun _ => 0
  -- font->max_char_width = chars[0].width; font->max_char_height = chars[0].height;
  match chars.get? 0 with
  | none => .oob
  | some first =>
    let font0 : InMemoryFont :=
      { pixels_packed := [], char_offset := sentinel_loop 255 0 zero, char_width := zero,
        char_height := zero, char_xspacing := zero, n_chars := count,
        max_char_width := first.width, max_char_height := first.height, is_monospace := 1,
        codepage := codepage }
    (glyph_loop chars count 0 (font0, 0)).bind fun st =>
      let font1 :=
        if replacements then
          -- "abc...z" to "ABC...Z", then "ABC...Z" to "abc...z"
          replacement_loop 65 97 26 0 (replacement_loop 97 65 26 0 st.1)
        else st.1
      -- font->pixels_packed = malloc(total_output_pixels); decode_2bit_data(...);
      (decode_2bit_data chars count encoded_pixel_data).bind fun pixels =>
        .ret { font1 with pixels_packed := pixels }

/-- The loop `while (1) { ... }` of `in_memory_font_measure`
(fontaine2.c:230-258) over the bytes addressable from `text`; the state is
`*w` and `*h`. A text without a terminating NUL is read past its end. -/
def measure_loop (font : InMemoryFont) : List Nat → Nat × Nat → Outcome (Nat × Nat)
  | [], _ => .oob
  | c :: text, wh =>
    if c = 0 then .ret wh
    else
      -- if (font->char_offset[c] == (uint32_t)-1) c = 26;
      let c1 := if font.char_offset c = 0xFFFFFFFF then 26 else c
      -- if (font->char_offset[c] == (uint32_t)-1) continue;
      if font.char_offset c1 = 0xFFFFFFFF then measure_loop font text wh
      else
        let h1 := if font.char_height c1 > wh.2 then font.char_height c1 else wh.2
        measure_loop font text (wh.1 + font.char_width c1 + font.char_xspacing c1, h1)

/-- Function `in_memory_font_measure` (fontaine2.c:224-259): the values left in
`*w` and `*h`. -/
def in_memory_font_measure (font : InMemoryFont) (text : List Nat) : Outcome (Nat × Nat) :=
  measure_loop font text (0, 0)

/-- A font table with the single glyph 26 (3 by 5 pixels, spacing 1). -/
def chars26 : List PixelDataEntry :=
  [{ character := 26, width := 3, height := 5, xspacing := 1 }]

/-- Four bytes of encoded pixels: the 15 pixels of `chars26`. -/
def pixels26 : List Nat := [0x1B, 0x1B, 0x1B, 0x1B]

/-! ## Vocabulary for the last claims -/

/-- The 32-bit little-endian value of the four bytes at offset `off`. -/
def le32 (image : List Nat) (off : Nat) : Nat :=
  image.getD off 0 + 256 * image.getD (off + 1) 0 + 65536 * image.getD (off + 2) 0
    + 16777216 * image.getD (off + 3) 0

/-- A well-formed entry: its four fields are 32-bit values. -/
def WADEntry.Fits (e : WADEntry) : Prop :=
  e.name < 4294967296 ∧ e.start_offset < 4294967296 ∧ e.length < 4294967296
    ∧ e.compressed_length < 4294967296

/-- The number of bytes a token emits. -/
def Token.size : Token → Nat
  | .literal _ => 1
  | .backref _ c => c

/-- The number of bytes a token sequence emits. -/
def tokensSize : List Token → Nat
  | [] => 0
  | t :: ts => t.size + tokensSize ts

/-- The window in which every slot holds what the context holds: the
documented view of a decoder whose lookback memory counts as written. -/
def Window.ofContext (self : DecompressionContext) : Window :=
  { lookback := fun i => some (self.lookback_buffer i), cursor := self.lookback_buffer_write_index }

/-! ## The resolver on an explicit memory (fileio.c:126-259)

The functions `read_wad_file` and `read_file` once more, with every store of
the C code made on a memory of objects: the chain `g_mounted_wads` and its
images live in the same memory the stores go to. -/

/-- A pointer to a `size_t`: the address of a variable of the caller, or of
the field `len` of a `struct MountedWAD` (as in `read_file(filename, &wad->len)`
of `mount_wad`). -/
inductive SizePtr where
  | var (addr : Nat)
  | wad_len (addr : Nat)
  deriving DecidableEq, Repr

/-- An object of the memory: a byte buffer (a `malloc` block, an archive
image, a string), a `size_t` variable, or a `struct MountedWAD`
(fileio.c:126-131) whose pointer fields hold addresses; `next = none` is `NULL`. -/
inductive Object where
  | bytes (data : List Nat)
  | size_t (value : Nat)
  | wad (filename : Nat) (header : Nat) (len : Nat) (next : Option Nat)
  deriving DecidableEq, Repr

/-- The memory: the objects by address, and the global pointer
`g_mounted_wads` (fileio.c:133-134; `none` is `NULL`). -/
structure Memory where
  objects : List Object
  g_mounted_wads : Option Nat
  deriving DecidableEq, Repr

/-- The call `malloc(n)`: a new byte buffer of `n` bytes at the first free
address; the returned pointer and the memory after the call. -/
def Memory.malloc (m : Memory) (n : Nat) : Nat × Memory :=
  (m.objects.length, { m with objects := m.objects ++ [.bytes (List.replicate n 0)] })

/-- A store of the bytes `data` through a `char *` that points to the start
of the buffer at `addr`; storing past the end of the buffer, or through a
pointer to no buffer, leaves the object. -/
def Memory.store_bytes (m : Memory) (addr : Nat) (data : List Nat) : Outcome Memory :=
  match m.objects.get? addr with
  | some (.bytes old) =>
    if data.length ≤ old.length then
      .ret { m with objects := m.objects.set addr (.bytes (data ++ old.drop data.length)) }
    else .oob
  | _ => .oob

/-- The store `*len = v` through a `size_t *`; `none` is the `NULL` pointer. -/
def Memory.store_size (m : Memory) (len : Option SizePtr) (v : Nat) : Outcome Memory :=
  match len with
  | none => .oob
  | some (.var addr) =>
    match m.objects.get? addr with
    | some (.size_t _) => .ret { m with objects := m.objects.set addr (.size_t v) }
    | _ => .oob
  | some (.wad_len addr) =>
    match m.objects.get? addr with
    | some (.wad filename header _ next) =>
      .ret { m with objects := m.objects.set addr (.wad filename header v next) }
    | _ => .oob

/-- The block run for a matching entry in `read_wad_file` (fileio.c:169-218) on
the memory `m`: the pointer `result` and the memory after the stores. `image`
holds the bytes of the buffer `wad->header` points to. -/
def read_wad_entry_mem (z : Zlib) (tmp : DecompressionContext) (m : Memory) (image : List Nat)
    (entry : WADEntry) (len : Option SizePtr) : Outcome (Nat × Memory) :=
  -- const char *read_ptr = (const uint8_t *)wad->header + entry->start_offset;
  let read_ptr := image.drop entry.start_offset
  if entry.length ≠ entry.compressed_length then
    if entry.length &&& 0x80000000 ≠ 0 then
      -- *len = entry->length; *len &= ~0x80000000;
      (m.store_size len entry.length).bind fun m1 =>
        (m1.store_size len (entry.length &&& 0x7FFFFFFF)).bind fun m2 =>
          -- if (*((uint8_t *)read_ptr) != 0x78) fail("Invalid zlib header");
          match read_ptr.get? 0 with
          | none => .oob
          | some first =>
            if first ≠ 0x78 then .fatal "Invalid zlib header"
            else if z.inflateInit ≠ 0 then .fatal "Failed to init zlib"
            else
              -- result = malloc(*len); stream.next_out = result;
              let a := m2.malloc (entry.length &&& 0x7FFFFFFF)
              -- res = inflate(&stream, Z_SYNC_FLUSH); it stores its output at next_out
              let r := z.inflate read_ptr entry.compressed_length (entry.length &&& 0x7FFFFFFF)
              (a.2.store_bytes a.1 r.out).bind fun m3 =>
                if r.res ≠ 1 ∨ r.total_out ≠ entry.length &&& 0x7FFFFFFF then
                  .fatal "%s: zlib error for %s"
                else .ret (a.1, m3)
    else
      -- result = malloc(entry->length); *len = entry->length;
      let a := m.malloc entry.length
      (a.2.store_size len entry.length).bind fun m1 =>
        -- DecompressionContext_unpack(&tmp, result, entry->length) stores through result
        (DecompressionContext_unpack
            (DecompressionContext_init tmp read_ptr entry.compressed_length)
            entry.length).bind fun r =>
          (m1.store_bytes a.1 r.2).bind fun m2 => .ret (a.1, m2)
  else
    -- result = malloc(entry->length); *len = entry->length;
    let a := m.malloc entry.length
    (a.2.store_size len entry.length).bind fun m1 =>
      -- memcpy(result, read_ptr, entry->length); a copy of 0 bytes reads nothing
      if entry.length = 0 ∨ entry.start_offset + entry.length ≤ image.length then
        (m1.store_bytes a.1 (read_ptr.take entry.length)).bind fun m2 => .ret (a.1, m2)
      else .oob

/-- The loop `for (int i=0; i<wad->header->nfiles; ++i)` of `read_wad_file`
(fileio.c:164-220) on the memory `m`, from index `i` on, `n` iterations left.
`some result` is the `return result;` inside the loop. -/
def scan_entries_mem (z : Zlib) (tmp : DecompressionContext) (m : Memory) (image : List Nat)
    (name : Nat) (len : Option SizePtr) : Nat → Nat → Outcome (Option Nat × Memory)
  | 0, _ => .ret (none, m)
  | n + 1, i =>
    match load_u32 image (8 + 16 * i) with
    | none => .oob
    | some entry_name =>
      if entry_name = name then
        match load_entry image i with
        | none => .oob
        | some entry =>
          (read_wad_entry_mem z tmp m image entry len).bind fun r => .ret (some r.1, r.2)
      else scan_entries_mem z tmp m image name len n (i + 1)

/-- The loop `while (wad != NULL)` of `read_wad_file` (fileio.c:163-223) on the
memory `m`, from the node `wad` on, with fuel: a chain that runs in a circle
is walked for ever. -/
def read_wad_chain_mem (z : Zlib) (tmp : DecompressionContext) (name : Nat)
    (len : Option SizePtr) : Nat → Memory → Option Nat → Outcome (Option Nat × Memory)
  | 0, _, _ => .timeout
  | _ + 1, m, none => .ret (none, m)
  | fuel + 1, m, some wad =>
    match m.objects.get? wad with
    | some (.wad _ header _ next) =>
      match m.objects.get? header with
      | some (.bytes image) =>
        -- wad->header->nfiles
        match load_u32 image 4 with
        | none => .oob
        | some nfiles =>
          (scan_entries_mem z tmp m image name len nfiles 0).bind fun r =>
            match r.1 with
            | some result => .ret (some result, r.2)
            | none => read_wad_chain_mem z tmp name len fuel r.2 next
      | _ => .oob
    | _ => .oob

/-- Function `read_wad_file` (fileio.c:156-226) on the memory `m`: the returned
pointer (`none` is `NULL`) and the memory after the call. A chain of distinct
nodes has at most as many nodes as the memory has objects. -/
def read_wad_file_mem (z : Zlib) (tmp : DecompressionContext) (m : Memory) (filename : List Nat)
    (len : Option SizePtr) : Outcome (Option Nat × Memory) :=
  read_wad_chain_mem z tmp (name_hash z filename) len (m.objects.length + 1) m m.g_mounted_wads

/-- Function `read_file` (fileio.c:228-259) on the memory `m`: the returned
pointer and the memory after the call. -/
def read_file_mem (z : Zlib) (tmp : DecompressionContext) (fs : FileSystem) (m : Memory)
    (filename : List Nat) (len : Option SizePtr) : Outcome (Option Nat × Memory) :=
  -- char *buf = read_wad_file(filename, len); if (buf != NULL) return buf;
  (read_wad_file_mem z tmp m filename len).bind fun r =>
    match r.1 with
    | some buf => .ret (some buf, r.2)
    | none =>
      match fs.fopen filename with
      | none => .ret (none, r.2)
      | some contents =>
        let size := contents.length + fs.unread filename
        -- buf = malloc(size); fread(buf, 1, size, fp) stores what it reads in buf
        let a := r.2.malloc size
        let got := contents.take size
        (a.2.store_bytes a.1 got).bind fun m1 =>
          if got.length ≠ size then .fatal "Could not read %zu bytes from %s"
          else
            -- if (len) *len = size;
            match len with
            | none => .ret (some a.1, m1)
            | some p => (m1.store_size (some p) size).bind fun m2 => .ret (some a.1, m2)

/-- The chain a memory holds from the node pointer `wad` on: for each node
its address and its container (the bytes of the name string, the bytes of the
image, `len`), in chain order; `none` when a pointer of the chain does not
point to an object of its type, or the fuel runs out. -/
def chain_view : Nat → Memory → Option Nat → Option (List (Nat × MountedWAD))
  | 0, _, _ => none
  | _ + 1, _, none => some []
  | fuel + 1, m, some wad =>
    match m.objects.get? wad with
    | some (.wad filename header len next) =>
      match m.objects.get? filename, m.objects.get? header with
      | some (.bytes name), some (.bytes image) =>
        (chain_view fuel m next).map fun rest =>
          (wad, { filename := name, header := image, len := len }) :: rest
      | _, _ => none
    | _ => none

/-- A memory holding the chain `[wadA]`: the name string at address 0, the
image `imageA` at 1, the node at 2, and a `size_t` variable at 3. -/
def memA : Memory :=
  { objects := [.bytes name_a_wad, .bytes imageA, .wad 0 1 imageA.length none, .size_t 0]
    g_mounted_wads := some 2 }

/-- The memory `m'` keeps what the memory `m` holds below the address `bound`:
the global `g_mounted_wads`, every byte buffer, and every `struct MountedWAD`
other than the one whose field `len` the pointer `len` addresses. -/
def Kept (len : Option SizePtr) (bound : Nat) (m m' : Memory) : Prop :=
  m'.g_mounted_wads = m.g_mounted_wads ∧ m.objects.length ≤ m'.objects.length ∧
    ∀ addr, addr < bound →
      (∀ d, m.objects.get? addr = some (.bytes d) → m'.objects.get? addr = some (.bytes d)) ∧
      (∀ f h l n, m.objects.get? addr = some (.wad f h l n) → len ≠ some (.wad_len addr) →
        m'.objects.get? addr = some (.wad f h l n))


/-! # Theorems -/

/-! ## The bit reader -/

theorem and_two_pow_ne_zero (x j : Nat) : (x &&& 2 ^ j ≠ 0) ↔ x.testBit j = true := by
  rw [Nat.and_two_pow]
  cases h : x.testBit j <;> simp

theorem testBit_mod_256 (b j : Nat) (hj : j < 8) : (b % 256).testBit j = b.testBit j := by
  have h := Nat.testBit_mod_two_pow b 8 j
  simpa [hj] using h

theorem readerAt_zero (self : DecompressionContext) (buf : List Nat) (buf_len : Nat) :
    DecompressionContext_init self buf buf_len
      = readerAt (DecompressionContext_init self buf buf_len) 0 := by
  simp [readerAt, DecompressionContext_init]

/-- One iteration of the bit loop, started in the state reached after `k`
bits, consumes bit `k` and leaves the state reached after `k + 1` bits. -/
theorem read_bits_step_at (base : DecompressionContext) (k result cb : Nat)
    (hk : k < 8 * base.buf.length) (hlen : base.buf.length ≤ 4294967296) :
    read_bits_step (readerAt base k) result cb
      = .ret (readerAt base (k + 1),
          (if bitAt base.buf k then result ||| cb else result), cb >>> 1) := by
  have hq : k / 8 < base.buf.length := by omega
  have hget : base.buf.get? (k / 8) = some (base.buf.getD (k / 8) 0) := by
    rw [List.get?_eq_getElem?, List.getD_eq_getElem?_getD, List.getElem?_eq_getElem hq]
    rfl
  have hcases : k % 8 = 0 ∨ k % 8 = 1 ∨ k % 8 = 2 ∨ k % 8 = 3 ∨ k % 8 = 4 ∨ k % 8 = 5
      ∨ k % 8 = 6 ∨ k % 8 = 7 := by omega
  have hbit : ∀ j, j < 8 → ((base.buf.getD (k / 8) 0 % 256 &&& 2 ^ j ≠ 0)
      ↔ (base.buf.getD (k / 8) 0).testBit j = true) := by
    intro j hj
    rw [and_two_pow_ne_zero, testBit_mod_256 _ _ hj]
  rcases Nat.eq_zero_or_pos (k % 8) with h0 | hpos
  · -- a new byte is fetched
    have hpos1 : (k + 7) / 8 % 4294967296 = k / 8 := by omega
    have hpos2 : (k + 1 + 7) / 8 % 4294967296 = (k / 8 + 1) % 4294967296 := by omega
    have h1 : (k + 1) % 8 = 1 := by omega
    have hb := hbit 7 (by omega)
    simp only [read_bits_step, readerAt, bitAt, h0, h1, hpos1, hpos2, hget, Outcome.bind]
    simp only [Nat.sub_zero, Nat.reducePow, if_true, Nat.add_sub_cancel] at hb ⊢
    rw [if_congr hb rfl rfl]
    simp
  · -- the current byte is still in use
    have hk0 : k ≠ 0 := by rintro rfl; simp at hpos
    have hprev : (k - 1) / 8 = k / 8 := by omega
    have hpos2 : (k + 1 + 7) / 8 % 4294967296 = (k + 7) / 8 % 4294967296 := by
      have : (k + 1 + 7) / 8 = (k + 7) / 8 := by omega
      rw [this]
    have hb := hbit (7 - k % 8) (by omega)
    have hmask : (2 : Nat) ^ (7 - k % 8) ≠ 128 := by
      rcases hcases with h | h | h | h | h | h | h | h <;> simp [h] at hpos ⊢
    have hnext : (if (2 : Nat) ^ (7 - k % 8) >>> 1 = 0 then 128 else 2 ^ (7 - k % 8) >>> 1)
        = 2 ^ (7 - (k + 1) % 8) := by
      rcases hcases with h | h | h | h | h | h | h | h
      · simp [h] at hpos
      all_goals
        have h' : (k + 1) % 8 = (k % 8 + 1) % 8 := by omega
        rw [h', h]
        decide
    simp only [read_bits_step, readerAt, bitAt, hk0, hprev, hpos2, hmask, if_false, Outcome.bind,
      hnext]
    rw [if_congr hb rfl rfl]
    simp

/-- At the end of an input of fewer than `2^32` bytes the next iteration of
the bit loop reads `buf[buf.length]`. -/
theorem read_bits_step_end (base : DecompressionContext) (result cb : Nat)
    (hlen : base.buf.length < 4294967296) :
    read_bits_step (readerAt base (8 * base.buf.length)) result cb = .oob := by
  have h0 : 8 * base.buf.length % 8 = 0 := by omega
  have hpos : (8 * base.buf.length + 7) / 8 % 4294967296 = base.buf.length := by omega
  have hget : base.buf.get? base.buf.length = none := by
    rw [List.get?_eq_getElem?]
    exact List.getElem?_eq_none (Nat.le_refl _)
  simp [read_bits_step, readerAt, h0, hpos, hget, Outcome.bind]

theorem two_pow_succ_shiftRight_one (n : Nat) : (2 : Nat) ^ (n + 1) >>> 1 = 2 ^ n := by
  rw [Nat.shiftRight_eq_div_pow, Nat.pow_succ]
  simp

theorem or_two_pow_of_dvd (r n : Nat) (hr : 2 ^ (n + 1) ∣ r) : r ||| 2 ^ n = r + 2 ^ n := by
  obtain ⟨a, rfl⟩ := hr
  exact (Nat.mul_add_lt_is_or (Nat.pow_lt_pow_right (by omega) (Nat.lt_succ_self n)) a).symm

/-- The bit loop started with `current_bit = 2 ^ n` after `k` bits reads the
`n + 1` bits that follow and adds their value to `result`. -/
theorem read_bits_loop_at (base : DecompressionContext) (hlen : base.buf.length ≤ 4294967296) :
    ∀ (n fuel k r : Nat), n + 2 ≤ fuel → k + (n + 1) ≤ 8 * base.buf.length → 2 ^ (n + 1) ∣ r →
      read_bits_loop fuel (readerAt base k) r (2 ^ n)
        = .ret (r + readVal base.buf k (n + 1), readerAt base (k + (n + 1))) := by
  intro n
  induction n with
  | zero =>
    intro fuel k r hfuel hk hr
    obtain ⟨f, rfl⟩ : ∃ f, fuel = f + 2 := ⟨fuel - 2, by omega⟩
    have hstep := read_bits_step_at base k r 1 (by omega) hlen
    have hor : r ||| 1 = r + 1 := by simpa using or_two_pow_of_dvd r 0 hr
    simp only [read_bits_loop, Nat.pow_zero, Nat.one_ne_zero, if_false, hstep, Outcome.bind]
    cases hb : bitAt base.buf k <;> simp [readVal, hb, hor]
  | succ n ih =>
    intro fuel k r hfuel hk hr
    obtain ⟨f, rfl⟩ : ∃ f, fuel = f + 1 := ⟨fuel - 1, by omega⟩
    have hstep := read_bits_step_at base k r (2 ^ (n + 1)) (by omega) hlen
    have hor : r ||| 2 ^ (n + 1) = r + 2 ^ (n + 1) := or_two_pow_of_dvd r (n + 1) hr
    have hne : (2 : Nat) ^ (n + 1) ≠ 0 := by positivity
    have hr1 : 2 ^ (n + 1) ∣ r := Dvd.dvd.trans (pow_dvd_pow 2 (Nat.le_succ _)) hr
    rw [read_bits_loop]
    simp only [hne, if_false, hstep, Outcome.bind, two_pow_succ_shiftRight_one]
    cases hb : bitAt base.buf k
    · simp only [Bool.false_eq_true, if_false]
      rw [ih f (k + 1) r (by omega) (by omega) hr1]
      have e1 : k + 1 + (n + 1) = k + (n + 1 + 1) := by omega
      rw [e1]
      simp [readVal, hb]
    · simp only [if_true, hor]
      rw [ih f (k + 1) (r + 2 ^ (n + 1)) (by omega) (by omega) (Dvd.dvd.add hr1 (dvd_refl _))]
      have e1 : k + 1 + (n + 1) = k + (n + 1 + 1) := by omega
      rw [e1]
      simp [readVal, hb, Nat.add_assoc]

theorem read_bits_current_bit (n : Nat) (h1 : 1 ≤ n) (h32 : n ≤ 32) :
    1 <<< (((n + 4294967295) % 4294967296) &&& 0x1f) = 2 ^ (n - 1) := by
  have h : (n + 4294967295) % 4294967296 = n - 1 := by omega
  have hand : (n - 1) &&& 0x1f = (n - 1) % 2 ^ 5 := Nat.and_pow_two_sub_one_eq_mod (n - 1) 5
  have hmod : (n - 1) % 2 ^ 5 = n - 1 := Nat.mod_eq_of_lt (by norm_num; omega)
  rw [h, Nat.one_shiftLeft, hand, hmod]

/-- Reading `n` bits (`1 ≤ n ≤ 32`) after `k` bits, with the `n` bits inside
the input, returns their MSB-first value and leaves the state after `k + n`
bits. -/
theorem read_bits_at (base : DecompressionContext) (k n : Nat)
    (hlen : base.buf.length ≤ 4294967296) (h1 : 1 ≤ n) (h32 : n ≤ 32)
    (hk : k + n ≤ 8 * base.buf.length) :
    DecompressionContext_read_bits (readerAt base k) n
      = .ret (readVal base.buf k n, readerAt base (k + n)) := by
  obtain ⟨m, rfl⟩ : ∃ m, n = m + 1 := ⟨n - 1, by omega⟩
  unfold DecompressionContext_read_bits
  simp only [read_bits_current_bit (m + 1) h1 h32, Nat.add_sub_cancel]
  rw [read_bits_loop_at base hlen m 33 k 0 (by omega) hk (dvd_zero _)]
  simp

/-- The bit loop reports an access outside the input when fewer bits remain
than it still has to read (input shorter than `2^32` bytes). -/
theorem read_bits_loop_end (base : DecompressionContext) (hlen : base.buf.length < 4294967296) :
    ∀ (n fuel k r : Nat), n + 2 ≤ fuel → k ≤ 8 * base.buf.length →
      8 * base.buf.length < k + (n + 1) →
      read_bits_loop fuel (readerAt base k) r (2 ^ n) = .oob := by
  intro n
  induction n with
  | zero =>
    intro fuel k r hfuel hk hend
    obtain ⟨f, rfl⟩ : ∃ f, fuel = f + 1 := ⟨fuel - 1, by omega⟩
    have hk8 : k = 8 * base.buf.length := by omega
    subst hk8
    simp [read_bits_loop, read_bits_step_end base r 1 hlen, Outcome.bind]
  | succ n ih =>
    intro fuel k r hfuel hk hend
    obtain ⟨f, rfl⟩ : ∃ f, fuel = f + 1 := ⟨fuel - 1, by omega⟩
    have hne : (2 : Nat) ^ (n + 1) ≠ 0 := by positivity
    rw [read_bits_loop]
    simp only [hne, if_false]
    rcases Nat.lt_or_ge k (8 * base.buf.length) with hlt | hge
    · rw [read_bits_step_at base k r (2 ^ (n + 1)) hlt (Nat.le_of_lt hlen)]
      simp only [Outcome.bind, two_pow_succ_shiftRight_one]
      exact ih f (k + 1) _ (by omega) (by omega) (by omega)
    · have hk8 : k = 8 * base.buf.length := by omega
      subst hk8
      simp [read_bits_step_end base r _ hlen, Outcome.bind]

theorem read_bits_end (base : DecompressionContext) (k n : Nat)
    (hlen : base.buf.length < 4294967296) (h1 : 1 ≤ n) (h32 : n ≤ 32)
    (hk : k ≤ 8 * base.buf.length) (hend : 8 * base.buf.length < k + n) :
    DecompressionContext_read_bits (readerAt base k) n = .oob := by
  obtain ⟨m, rfl⟩ : ∃ m, n = m + 1 := ⟨n - 1, by omega⟩
  unfold DecompressionContext_read_bits
  simp only [read_bits_current_bit (m + 1) h1 h32, Nat.add_sub_cancel]
  exact read_bits_loop_end base hlen m 33 k 0 (by omega) hk hend

theorem read_bits_step_cases (self : DecompressionContext) (result cb : Nat) :
    read_bits_step self result cb = .oob ∨
      ∃ s r, read_bits_step self result cb = .ret (s, r, cb >>> 1) := by
  unfold read_bits_step
  by_cases hm : self.bit_in_current_byte = 0x80
  · cases hg : self.buf.get? self.current_byte_read_pos with
    | none => left; simp [hm, hg, Outcome.bind]
    | some b => right; simp [hm, hg, Outcome.bind]
  · right
    simp [hm, Outcome.bind]

theorem read_bits_loop_ne_timeout :
    ∀ (j fuel : Nat) (self : DecompressionContext) (result : Nat), j + 2 ≤ fuel →
      read_bits_loop fuel self result (2 ^ j) ≠ .timeout := by
  intro j
  induction j with
  | zero =>
    intro fuel self result hf
    obtain ⟨f, rfl⟩ : ∃ f, fuel = f + 2 := ⟨fuel - 2, by omega⟩
    rw [read_bits_loop]
    simp only [Nat.pow_zero, Nat.one_ne_zero, if_false]
    rcases read_bits_step_cases self result 1 with h | ⟨s, r, h⟩
    · rw [h]; simp [Outcome.bind]
    · rw [h]; simp [Outcome.bind, read_bits_loop]
  | succ j ih =>
    intro fuel self result hf
    obtain ⟨f, rfl⟩ : ∃ f, fuel = f + 1 := ⟨fuel - 1, by omega⟩
    have hne : (2 : Nat) ^ (j + 1) ≠ 0 := by positivity
    rw [read_bits_loop]
    simp only [hne, if_false]
    rcases read_bits_step_cases self result (2 ^ (j + 1)) with h | ⟨s, r, h⟩
    · rw [h]; simp [Outcome.bind]
    · rw [h]
      simp only [Outcome.bind, two_pow_succ_shiftRight_one]
      exact ih f s r (by omega)

/-- The fuel of `DecompressionContext_read_bits` is never used up, whatever
the context and the bit count. -/
theorem read_bits_ne_timeout (self : DecompressionContext) (size_bits : Nat) :
    DecompressionContext_read_bits self size_bits ≠ .timeout := by
  unfold DecompressionContext_read_bits
  have hand : ((size_bits + 4294967295) % 4294967296) &&& 0x1f
      = ((size_bits + 4294967295) % 4294967296) % 2 ^ 5 :=
    Nat.and_pow_two_sub_one_eq_mod _ 5
  have hlt : ((size_bits + 4294967295) % 4294967296) % 2 ^ 5 < 32 := Nat.mod_lt _ (by norm_num)
  simp only [Nat.one_shiftLeft, hand]
  exact read_bits_loop_ne_timeout _ 33 self 0 (by omega)

/-! ## The serialised stream seen through the bit reader -/

theorem natBits_length (w v : Nat) : (natBits w v).length = w := by
  induction w with
  | zero => rfl
  | succ w ih => simp [natBits, ih]

theorem BitsAt_append (bytes : List Nat) (a b : List Bool) (k : Nat) :
    BitsAt bytes k (a ++ b) ↔ BitsAt bytes k a ∧ BitsAt bytes (k + a.length) b := by
  induction a generalizing k with
  | nil => simp [BitsAt]
  | cons x a ih =>
    have e : k + 1 + a.length = k + (a.length + 1) := by omega
    show (bitAt bytes k = x ∧ BitsAt bytes (k + 1) (a ++ b)) ↔ _
    rw [ih (k + 1), e]
    simp only [BitsAt, List.length_cons, and_assoc]

theorem BitsAt_of_getD (bytes : List Nat) (bs : List Bool) (k : Nat)
    (h : ∀ i, i < bs.length → bitAt bytes (k + i) = bs.getD i false) : BitsAt bytes k bs := by
  induction bs generalizing k with
  | nil => trivial
  | cons x bs ih =>
    refine ⟨by simpa using h 0 (by simp), ih (k + 1) ?_⟩
    intro i hi
    have := h (i + 1) (by simpa using hi)
    simpa [Nat.add_assoc, Nat.add_comm 1 i] using this

/-- Reading `w` bits where the stream holds the `w` low bits of `v` gives
`v mod 2 ^ w`. -/
theorem readVal_of_BitsAt (bytes : List Nat) (w v k : Nat) (h : BitsAt bytes k (natBits w v)) :
    readVal bytes k w = v % 2 ^ w := by
  induction w generalizing k with
  | zero => simp [readVal, Nat.mod_one]
  | succ w ih =>
    obtain ⟨h1, h2⟩ := h
    rw [readVal, ih (k + 1) h2, h1, Nat.toNat_testBit, Nat.mod_pow_succ]
    rw [Nat.mul_comm, Nat.add_comm]

theorem testBit_packed (b0 b1 b2 b3 b4 b5 b6 b7 : Bool) (j : Nat) (hj : j < 8) :
    (128 * b0.toNat + 64 * b1.toNat + 32 * b2.toNat + 16 * b3.toNat + 8 * b4.toNat
        + 4 * b5.toNat + 2 * b6.toNat + b7.toNat).testBit (7 - j)
      = [b0, b1, b2, b3, b4, b5, b6, b7].getD j false := by
  have hj' : j = 0 ∨ j = 1 ∨ j = 2 ∨ j = 3 ∨ j = 4 ∨ j = 5 ∨ j = 6 ∨ j = 7 := by omega
  rcases hj' with h | h | h | h | h | h | h | h <;> subst h <;>
    cases b0 <;> cases b1 <;> cases b2 <;> cases b3 <;> cases b4 <;> cases b5 <;>
    cases b6 <;> cases b7 <;> rfl

theorem packBits_length (bs : List Bool) : (packBits bs).length = (bs.length + 7) / 8 := by
  simp [packBits]

/-- Bit `k` of the packed stream is bit `k` of the bit list. -/
theorem bitAt_packBits (bs : List Bool) (k : Nat) (hk : k < bs.length) :
    bitAt (packBits bs) k = bs.getD k false := by
  have hq : k / 8 < (bs.length + 7) / 8 := by omega
  have hget : (packBits bs).getD (k / 8) 0 = packByte bs (k / 8) := by
    rw [List.getD_eq_getElem?_getD, List.getElem?_eq_getElem (by rw [packBits_length]; exact hq)]
    simp [packBits]
  have hj : k % 8 < 8 := Nat.mod_lt _ (by omega)
  rw [bitAt, hget, packByte, testBit_packed _ _ _ _ _ _ _ _ (k % 8) hj]
  have hk8 : 8 * (k / 8) + k % 8 = k := Nat.div_add_mod k 8
  have hj' : k % 8 = 0 ∨ k % 8 = 1 ∨ k % 8 = 2 ∨ k % 8 = 3 ∨ k % 8 = 4 ∨ k % 8 = 5
      ∨ k % 8 = 6 ∨ k % 8 = 7 := by omega
  rcases hj' with h | h | h | h | h | h | h | h
  · rw [h] at hk8 ⊢
    rw [Nat.add_zero] at hk8
    simp only [List.getD_cons_zero, hk8]
  all_goals
    rw [h] at hk8 ⊢
    simp only [List.getD_cons_succ, List.getD_cons_zero, hk8]

theorem BitsAt_packBits (bs : List Bool) : BitsAt (packBits bs) 0 bs := by
  apply BitsAt_of_getD
  intro i hi
  simpa using bitAt_packBits bs i hi

/-! ## The decoder follows the documented expansion -/

theorem and_1fff (x : Nat) : x &&& 0x1fff = x % 8192 :=
  Nat.and_pow_two_sub_one_eq_mod x 13

theorem dec_u32 (L : Nat) (h0 : 0 < L) (h32 : L < 4294967296) :
    (L + 4294967295) % 4294967296 = L - 1 := by
  omega

theorem Agrees_emit (w : Window) (self : DecompressionContext) (b : Nat) (h : Agrees w self) :
    Agrees (w.emit b)
      { self with
        lookback_buffer := Function.update self.lookback_buffer self.lookback_buffer_write_index b
        lookback_buffer_write_index := (self.lookback_buffer_write_index + 1) &&& 0x1fff } := by
  obtain ⟨hc, hl⟩ := h
  refine ⟨by simp [Window.emit, and_1fff, hc], ?_⟩
  intro j v hv
  show Function.update self.lookback_buffer self.lookback_buffer_write_index b j = v
  rw [hc]
  simp only [Window.emit] at hv
  by_cases hj : j = w.cursor
  · subst hj
    simp only [Function.update_same] at hv ⊢
    exact Option.some.inj hv
  · simp only [Function.update_noteq hj] at hv ⊢
    exact hl j v hv

/-- A copy run of the decoder, started where the documented window stands and
with `n ≤ length`, writes what the documented copy run emits. -/
theorem copy_loop_expand (o : Nat) :
    ∀ (n i : Nat) (w : Window) (self : DecompressionContext) (buffer : List Nat) (L : Nat)
      (w' : Window) (buffer' : List Nat),
      Agrees w self → expandCopy o n i w buffer = some (w', buffer') → n ≤ L → L < 4294967296 →
      ∃ lb, copy_loop o n i (self, buffer, L)
          = ({ self with lookback_buffer := lb, lookback_buffer_write_index := w'.cursor },
              buffer', L - n)
        ∧ (∀ j b, w'.lookback j = some b → lb j = b)
        ∧ buffer'.length = buffer.length + n := by
  intro n
  induction n with
  | zero =>
    intro i w self buffer L w' buffer' hag hexp _ _
    simp only [expandCopy, Option.some.injEq, Prod.mk.injEq] at hexp
    obtain ⟨rfl, rfl⟩ := hexp
    refine ⟨self.lookback_buffer, ?_, hag.2, rfl⟩
    rw [copy_loop, ← hag.1]
    rfl
  | succ n ih =>
    intro i w self buffer L w' buffer' hag hexp hn hL
    rw [expandCopy] at hexp
    cases hread : w.lookback ((o + i) % 8192) with
    | none => simp [hread] at hexp
    | some b =>
      simp only [hread] at hexp
      have hb : self.lookback_buffer ((o + i) &&& 0x1fff) = b := by
        rw [and_1fff]
        exact hag.2 _ _ hread
      obtain ⟨lb, h1, h2, h3⟩ := ih (i + 1) (w.emit b) _ (buffer ++ [b]) (L - 1) w' buffer'
        (Agrees_emit w self b hag) hexp (by omega) (by omega)
      refine ⟨lb, ?_, h2, ?_⟩
      · rw [copy_loop]
        simp only [copy_step, hb, dec_u32 L (by omega) hL]
        rw [h1]
        have e : L - 1 - n = L - (n + 1) := by omega
        rw [e]
      · rw [h3, List.length_append, List.length_singleton]
        omega

theorem readVal_one (bytes : List Nat) (k : Nat) : readVal bytes k 1 = (bitAt bytes k).toNat := by
  simp [readVal]

/-- One iteration of the outer loop of the decoder over the bits of a token
does what the documented expansion of that token does. -/
theorem unpack_step_token (base : DecompressionContext) (k : Nat) (t : Token)
    (w w' : Window) (buffer buffer' : List Nat) (L : Nat)
    (hlen : base.buf.length ≤ 4294967296) (hwf : t.WellFormed)
    (hbits : BitsAt base.buf k t.bits) (hin : k + t.bits.length ≤ 8 * base.buf.length)
    (hag : Agrees w base) (hexp : expandToken t w buffer = some (w', buffer'))
    (hL : buffer'.length ≤ buffer.length + L) (hL32 : L < 4294967296) :
    ∃ base', unpack_step (readerAt base k) buffer L
        = .ret (readerAt base' (k + t.bits.length), buffer',
            L - (buffer'.length - buffer.length))
      ∧ base'.buf = base.buf ∧ Agrees w' base' ∧ buffer.length < buffer'.length := by
  cases t with
  | literal b =>
    simp only [Token.WellFormed] at hwf
    simp only [Token.bits, List.length_cons, natBits_length] at hin
    obtain ⟨hflag, hval⟩ :
        bitAt base.buf k = true ∧ BitsAt base.buf (k + 1) (natBits 8 b) := hbits
    simp only [expandToken, Option.some.injEq, Prod.mk.injEq] at hexp
    obtain ⟨rfl, rfl⟩ := hexp
    simp only [List.length_append, List.length_singleton] at hL
    have hv : readVal base.buf (k + 1) 8 = b := by
      rw [readVal_of_BitsAt _ 8 b (k + 1) hval]
      exact Nat.mod_eq_of_lt (by norm_num; omega)
    refine ⟨{ base with
        lookback_buffer := Function.update base.lookback_buffer base.lookback_buffer_write_index b
        lookback_buffer_write_index := (base.lookback_buffer_write_index + 1) &&& 0x1fff },
      ?_, rfl, Agrees_emit w base b hag, by simp⟩
    unfold unpack_step
    rw [read_bits_at base k 1 hlen (by omega) (by omega) (by omega)]
    simp only [Outcome.bind, readVal_one, hflag, Bool.toNat_true, ne_eq, Nat.one_ne_zero,
      not_false_eq_true, if_true]
    rw [read_bits_at base (k + 1) 8 hlen (by omega) (by omega) (by omega)]
    simp only [Outcome.bind, hv, Nat.mod_eq_of_lt hwf, dec_u32 L (by omega) hL32]
    simp [readerAt, Token.bits, natBits_length, Nat.add_assoc]
  | backref o c =>
    simp only [Token.WellFormed] at hwf
    obtain ⟨ho, hc3, hc18⟩ := hwf
    simp only [Token.bits, List.length_cons, List.length_append, natBits_length] at hin
    obtain ⟨hflag, hrest⟩ : bitAt base.buf k = false
        ∧ BitsAt base.buf (k + 1) (natBits 13 o ++ natBits 4 (c - 3)) := hbits
    obtain ⟨hoff, hcnt⟩ := (BitsAt_append _ _ _ _).1 hrest
    rw [natBits_length] at hcnt
    simp only [expandToken] at hexp
    have hvo : readVal base.buf (k + 1) 13 = o := by
      rw [readVal_of_BitsAt _ 13 o (k + 1) hoff]
      exact Nat.mod_eq_of_lt (by norm_num; omega)
    have hvc : readVal base.buf (k + 1 + 13) 4 = c - 3 := by
      rw [readVal_of_BitsAt _ 4 (c - 3) (k + 1 + 13) hcnt]
      exact Nat.mod_eq_of_lt (by norm_num; omega)
    have hc : 3 + (c - 3) = c := by omega
    -- the copy run stays within `L`: the documented run emits `c` bytes
    have hlen' : ∀ (n i : Nat) (w : Window) (out : List Nat) (w' : Window) (out' : List Nat),
        expandCopy o n i w out = some (w', out') → out'.length = out.length + n := by
      intro n
      induction n with
      | zero =>
        intro i w out w' out' h
        simp only [expandCopy, Option.some.injEq, Prod.mk.injEq] at h
        rw [← h.2]; rfl
      | succ n ih =>
        intro i w out w' out' h
        rw [expandCopy] at h
        cases hr : w.lookback ((o + i) % 8192) with
        | none => simp [hr] at h
        | some v =>
          simp only [hr] at h
          rw [ih _ _ _ _ _ h]
          simp
          omega
    have hcount := hlen' c 0 w buffer w' buffer' hexp
    have hag' : Agrees w (readerAt base (k + 1 + 13 + 4)) := hag
    obtain ⟨lb, h1, h2, _⟩ := copy_loop_expand o c 0 w (readerAt base (k + 1 + 13 + 4)) buffer L
      w' buffer' hag' hexp (by omega) hL32
    refine ⟨{ base with lookback_buffer := lb, lookback_buffer_write_index := w'.cursor },
      ?_, rfl, ⟨rfl, h2⟩, by omega⟩
    unfold unpack_step
    rw [read_bits_at base k 1 hlen (by omega) (by omega) (by omega)]
    simp only [Outcome.bind, readVal_one, hflag, Bool.toNat_false, ne_eq, not_true_eq_false,
      if_false]
    rw [read_bits_at base (k + 1) 13 hlen (by omega) (by omega) (by omega)]
    simp only [Outcome.bind]
    rw [read_bits_at base (k + 1 + 13) 4 hlen (by omega) (by omega) (by omega)]
    simp only [Outcome.bind, hvo, hvc, hc, h1]
    have e1 : buffer'.length - buffer.length = c := by omega
    have e2 : k + 1 + 13 + 4 = k + (13 + 4 + 1) := by omega
    rw [e1, e2]
    rfl

theorem expandCopy_length (o : Nat) :
    ∀ (n i : Nat) (w : Window) (out : List Nat) (w' : Window) (out' : List Nat),
      expandCopy o n i w out = some (w', out') → out'.length = out.length + n := by
  intro n
  induction n with
  | zero =>
    intro i w out w' out' h
    simp only [expandCopy, Option.some.injEq, Prod.mk.injEq] at h
    rw [← h.2]; rfl
  | succ n ih =>
    intro i w out w' out' h
    rw [expandCopy] at h
    cases hr : w.lookback ((o + i) % 8192) with
    | none => simp [hr] at h
    | some v =>
      simp only [hr] at h
      rw [ih _ _ _ _ _ h]
      simp
      omega

theorem expandFrom_length_le :
    ∀ (toks : List Token) (w : Window) (out : List Nat) (w' : Window) (out' : List Nat),
      expandFrom toks w out = some (w', out') → out.length ≤ out'.length := by
  intro toks
  induction toks with
  | nil =>
    intro w out w' out' h
    simp only [expandFrom, Option.some.injEq, Prod.mk.injEq] at h
    rw [← h.2]
  | cons t ts ih =>
    intro w out w' out' h
    rw [expandFrom] at h
    cases hst : expandToken t w out with
    | none => simp [hst] at h
    | some st =>
      simp only [hst] at h
      have h1 := ih _ _ _ _ h
      have h2 : out.length ≤ st.2.length := by
        cases t with
        | literal b =>
          simp only [expandToken, Option.some.injEq] at hst
          rw [← hst]; simp
        | backref o c =>
          have := expandCopy_length o c 0 w out st.1 st.2 hst
          omega
      omega

theorem Token.bits_length_ge (t : Token) : 9 ≤ t.bits.length := by
  cases t <;> simp [Token.bits, natBits_length]

theorem tokenBits_length_ge (toks : List Token) : 9 * toks.length ≤ (tokenBits toks).length := by
  induction toks with
  | nil => simp [tokenBits]
  | cons t ts ih =>
    have := t.bits_length_ge
    simp only [tokenBits, List.length_cons, List.length_append]
    omega

/-- The outer loop of the decoder, run over the bits of a token sequence with
`length` equal to the number of bytes the sequence expands to, writes the
documented expansion. -/
theorem unpack_loop_tokens :
    ∀ (toks : List Token) (fuel : Nat) (base : DecompressionContext) (k : Nat) (w : Window)
      (buffer : List Nat) (w' : Window) (buffer' : List Nat) (L : Nat),
      toks.length + 1 ≤ fuel → (∀ t ∈ toks, t.WellFormed) →
      BitsAt base.buf k (tokenBits toks) → k + (tokenBits toks).length ≤ 8 * base.buf.length →
      base.buf.length ≤ 4294967296 → Agrees w base →
      expandFrom toks w buffer = some (w', buffer') → buffer'.length = buffer.length + L →
      L < 4294967296 →
      ∃ base', unpack_loop fuel (readerAt base k) buffer L
          = .ret (readerAt base' (k + (tokenBits toks).length), buffer')
        ∧ Agrees w' base' ∧ base'.buf = base.buf := by
  intro toks
  induction toks with
  | nil =>
    intro fuel base k w buffer w' buffer' L hfuel _ _ _ _ hag hexp hL _
    obtain ⟨f, rfl⟩ : ∃ f, fuel = f + 1 := ⟨fuel - 1, by omega⟩
    simp only [expandFrom, Option.some.injEq, Prod.mk.injEq] at hexp
    obtain ⟨rfl, rfl⟩ := hexp
    have hL0 : L = 0 := by omega
    subst hL0
    exact ⟨base, by simp [unpack_loop, tokenBits], hag, rfl⟩
  | cons t ts ih =>
    intro fuel base k w buffer w' buffer' L hfuel hwf hbits hin hlen hag hexp hL hL32
    obtain ⟨f, rfl⟩ : ∃ f, fuel = f + 1 := ⟨fuel - 1, by simp at hfuel; omega⟩
    rw [expandFrom] at hexp
    cases hst : expandToken t w buffer with
    | none => simp [hst] at hexp
    | some st =>
      obtain ⟨w1, buffer1⟩ := st
      simp only [hst] at hexp
      simp only [tokenBits, BitsAt_append, List.length_append] at hbits hin
      have hmono := expandFrom_length_le ts w1 buffer1 w' buffer' hexp
      obtain ⟨base1, hstep, hbuf1, hag1, hgrow⟩ := unpack_step_token base k t w w1 buffer buffer1 L
        hlen (hwf t (List.mem_cons_self _ _)) hbits.1 (by omega) hag hst (by omega) hL32
      have hL0 : L ≠ 0 := by omega
      obtain ⟨base2, hloop, hag2, hbuf2⟩ := ih f base1 (k + t.bits.length) w1 buffer1 w' buffer'
        (L - (buffer1.length - buffer.length)) (by simp at hfuel; omega)
        (fun t' ht' => hwf t' (List.mem_cons_of_mem _ ht')) (by rw [hbuf1]; exact hbits.2)
        (by rw [hbuf1]; omega) (by rw [hbuf1]; exact hlen) hag1 hexp (by omega) (by omega)
      refine ⟨base2, ?_, hag2, by rw [hbuf2, hbuf1]⟩
      rw [unpack_loop]
      simp only [hL0, if_false, hstep, Outcome.bind, hloop, tokenBits, List.length_append,
        Nat.add_assoc]

theorem Agrees_initial (self : DecompressionContext) (buf : List Nat) (buf_len : Nat) :
    Agrees Window.initial (DecompressionContext_init self buf buf_len) := by
  refine ⟨rfl, ?_⟩
  intro i b h
  simp [Window.initial] at h

/-! ## The decoder never runs out of fuel -/

theorem copy_loop_readerAt (o : Nat) :
    ∀ (n i : Nat) (base : DecompressionContext) (k : Nat) (buffer : List Nat) (L : Nat),
      ∃ base' buffer' L', copy_loop o n i (readerAt base k, buffer, L)
          = (readerAt base' k, buffer', L')
        ∧ base'.buf = base.buf := by
  intro n
  induction n with
  | zero =>
    intro i base k buffer L
    exact ⟨base, buffer, L, rfl, rfl⟩
  | succ n ih =>
    intro i base k buffer L
    rw [copy_loop]
    exact ih (i + 1)
      { base with
        lookback_buffer := Function.update base.lookback_buffer base.lookback_buffer_write_index
          (base.lookback_buffer ((o + i) &&& 0x1fff))
        lookback_buffer_write_index := (base.lookback_buffer_write_index + 1) &&& 0x1fff }
      k (buffer ++ [base.lookback_buffer ((o + i) &&& 0x1fff)])
      ((L + 4294967295) % 4294967296)

/-- One iteration of the outer loop, started after `k` bits of an input of
fewer than `2^32` bytes, either leaves the input or advances by at least 9
bits. -/
theorem unpack_step_progress (base : DecompressionContext) (k : Nat) (buffer : List Nat) (L : Nat)
    (hlen : base.buf.length < 4294967296) (hk : k ≤ 8 * base.buf.length) :
    unpack_step (readerAt base k) buffer L = .oob ∨
      ∃ base' k' buffer' L', unpack_step (readerAt base k) buffer L
          = .ret (readerAt base' k', buffer', L')
        ∧ base'.buf = base.buf ∧ k + 9 ≤ k' ∧ k' ≤ 8 * base.buf.length := by
  have hle := Nat.le_of_lt hlen
  unfold unpack_step
  rcases Nat.lt_or_ge (8 * base.buf.length) (k + 1) with h1 | h1
  · left
    rw [read_bits_end base k 1 hlen (by omega) (by omega) hk h1]
    rfl
  rw [read_bits_at base k 1 hle (by omega) (by omega) h1]
  simp only [Outcome.bind]
  by_cases hflag : readVal base.buf k 1 = 0
  · simp only [hflag, ne_eq, not_true_eq_false, if_false]
    rcases Nat.lt_or_ge (8 * base.buf.length) (k + 1 + 13) with h2 | h2
    · left
      rw [read_bits_end base (k + 1) 13 hlen (by omega) (by omega) h1 h2]
    rw [read_bits_at base (k + 1) 13 hle (by omega) (by omega) h2]
    simp only [Outcome.bind]
    rcases Nat.lt_or_ge (8 * base.buf.length) (k + 1 + 13 + 4) with h3 | h3
    · left
      rw [read_bits_end base (k + 1 + 13) 4 hlen (by omega) (by omega) h2 h3]
    right
    rw [read_bits_at base (k + 1 + 13) 4 hle (by omega) (by omega) h3]
    simp only [Outcome.bind]
    obtain ⟨base', buffer', L', hcopy, hbuf⟩ := copy_loop_readerAt (readVal base.buf (k + 1) 13)
      (3 + readVal base.buf (k + 1 + 13) 4) 0 base (k + 1 + 13 + 4) buffer L
    exact ⟨base', k + 1 + 13 + 4, buffer', L', by rw [hcopy], hbuf, by omega, h3⟩
  · simp only [hflag, ne_eq, not_false_eq_true, if_true]
    rcases Nat.lt_or_ge (8 * base.buf.length) (k + 1 + 8) with h2 | h2
    · left
      rw [read_bits_end base (k + 1) 8 hlen (by omega) (by omega) h1 h2]
    · right
      rw [read_bits_at base (k + 1) 8 hle (by omega) (by omega) h2]
      exact ⟨{ base with
          lookback_buffer := Function.update base.lookback_buffer
            base.lookback_buffer_write_index (readVal base.buf (k + 1) 8 % 256)
          lookback_buffer_write_index := (base.lookback_buffer_write_index + 1) &&& 0x1fff },
        k + 1 + 8, buffer ++ [readVal base.buf (k + 1) 8 % 256],
        (L + 4294967295) % 4294967296, rfl, rfl, by omega, h2⟩

theorem unpack_loop_ne_timeout :
    ∀ (fuel : Nat) (base : DecompressionContext) (k : Nat) (buffer : List Nat) (L : Nat),
      base.buf.length < 4294967296 → k ≤ 8 * base.buf.length → 8 * base.buf.length < k + 9 * fuel →
      unpack_loop fuel (readerAt base k) buffer L ≠ .timeout := by
  intro fuel
  induction fuel with
  | zero =>
    intro base k buffer L _ hk hf
    omega
  | succ f ih =>
    intro base k buffer L hlen hk hf
    rw [unpack_loop]
    by_cases hL : L = 0
    · simp [hL]
    simp only [hL, if_false]
    rcases unpack_step_progress base k buffer L hlen hk with h | ⟨base', k', buffer', L', h, hb, h9, hk'⟩
    · rw [h]
      simp [Outcome.bind]
    · rw [h]
      simp only [Outcome.bind]
      exact ih base' k' buffer' L' (by rw [hb]; exact hlen) (by rw [hb]; exact hk')
        (by rw [hb]; omega)

/-- Over an input of fewer than `2^32` bytes the fuel of
`DecompressionContext_unpack` is never used up: the decoder returns or leaves
the input. -/
theorem unpack_init_ne_timeout (self : DecompressionContext) (buf : List Nat) (buf_len L : Nat)
    (hlen : buf.length < 4294967296) :
    DecompressionContext_unpack (DecompressionContext_init self buf buf_len) L ≠ .timeout := by
  unfold DecompressionContext_unpack
  rw [readerAt_zero]
  exact unpack_loop_ne_timeout _ _ 0 [] L hlen (Nat.zero_le _)
    (by show 8 * buf.length < 0 + 9 * (buf.length + 1); omega)

/-! ## Lookup in the mounted archives -/

theorem load_u32_some (mem : List Nat) (off v : Nat) (h : load_u32 mem off = some v) :
    off + 4 ≤ mem.length := by
  unfold load_u32 at h
  by_contra hc
  simp [hc] at h

theorem load_u32_of_le (mem : List Nat) (off : Nat) (h : off + 4 ≤ mem.length) :
    ∃ v, load_u32 mem off = some v := by
  unfold load_u32
  simp [h]

theorem load_entry_some (image : List Nat) (i : Nat) (e : WADEntry)
    (h : load_entry image i = some e) :
    8 + 16 * i + 16 ≤ image.length ∧ load_u32 image (8 + 16 * i) = some e.name := by
  unfold load_entry at h
  cases h1 : load_u32 image (8 + 16 * i) with
  | none => simp [h1] at h
  | some a =>
    cases h2 : load_u32 image (8 + 16 * i + 4) with
    | none => simp [h1, h2] at h
    | some b =>
      cases h3 : load_u32 image (8 + 16 * i + 8) with
      | none => simp [h1, h2, h3] at h
      | some c =>
        cases h4 : load_u32 image (8 + 16 * i + 12) with
        | none => simp [h1, h2, h3, h4] at h
        | some d =>
          simp only [h1, h2, h3, h4, Option.some.injEq] at h
          have := load_u32_some _ _ _ h4
          subst h
          exact ⟨by omega, rfl⟩

theorem load_entry_of_le (image : List Nat) (i : Nat) (h : 8 + 16 * i + 16 ≤ image.length) :
    ∃ e, load_entry image i = some e := by
  obtain ⟨a, h1⟩ := load_u32_of_le image (8 + 16 * i) (by omega)
  obtain ⟨b, h2⟩ := load_u32_of_le image (8 + 16 * i + 4) (by omega)
  obtain ⟨c, h3⟩ := load_u32_of_le image (8 + 16 * i + 8) (by omega)
  obtain ⟨d, h4⟩ := load_u32_of_le image (8 + 16 * i + 12) (by omega)
  exact ⟨{ name := a, start_offset := b, length := c, compressed_length := d },
    by simp [load_entry, h1, h2, h3, h4]⟩

theorem nameAt_eq_some (image : List Nat) (i x : Nat) :
    nameAt image i = some x ↔ ∃ e, load_entry image i = some e ∧ e.name = x := by
  unfold nameAt
  cases load_entry image i <;> simp

theorem Outcome.map_some_ne_ret_none {α : Type} (x : Outcome α) :
    x.map some ≠ .ret none := by
  cases x <;> simp [Outcome.map, Outcome.bind]

theorem Outcome.bind_ret {α : Type} (x : Outcome α) : (x.bind fun a => .ret a) = x := by
  cases x <;> rfl

/-- The entry loop, started at or before the first entry of hash `h`, returns
the decoding of that entry. -/
theorem scan_entries_first (z : Zlib) (tmp : DecompressionContext) (wad : MountedWAD)
    (h i : Nat) (e : WADEntry) (he : load_entry wad.header i = some e) (hname : e.name = h) :
    ∀ (n j : Nat), j ≤ i → i < j + n → (∀ j', j ≤ j' → j' < i → nameAt wad.header j' ≠ some h) →
      scan_entries z tmp wad h n j = (read_wad_entry z tmp wad e).map some := by
  obtain ⟨hin, hload⟩ := load_entry_some _ _ _ he
  intro n
  induction n with
  | zero => intro j hj hi _; omega
  | succ n ih =>
    intro j hj hi hbefore
    rw [scan_entries]
    rcases Nat.lt_or_ge j i with hlt | hge
    · obtain ⟨ej, hej⟩ := load_entry_of_le wad.header j (by omega)
      have hne : ej.name ≠ h := fun hc =>
        hbefore j (Nat.le_refl _) hlt ((nameAt_eq_some _ _ _).2 ⟨ej, hej, hc⟩)
      rw [(load_entry_some _ _ _ hej).2]
      simp only [hne, if_false]
      exact ih (j + 1) (by omega) (by omega) (fun j' h1 h2 => hbefore j' (by omega) h2)
    · have hji : j = i := by omega
      subst hji
      rw [hload]
      simp only [hname, if_true, he]

/-- The entry loop over a table inside the image with no entry of hash `h`
ends without a result. -/
theorem scan_entries_none (z : Zlib) (tmp : DecompressionContext) (wad : MountedWAD) (h : Nat) :
    ∀ (n j : Nat), 8 + 16 * (j + n) ≤ wad.header.length →
      (∀ j', j ≤ j' → j' < j + n → nameAt wad.header j' ≠ some h) →
      scan_entries z tmp wad h n j = .ret none := by
  intro n
  induction n with
  | zero => intro j _ _; rfl
  | succ n ih =>
    intro j hin hno
    rw [scan_entries]
    obtain ⟨ej, hej⟩ := load_entry_of_le wad.header j (by omega)
    have hne : ej.name ≠ h := fun hc =>
      hno j (Nat.le_refl _) (by omega) ((nameAt_eq_some _ _ _).2 ⟨ej, hej, hc⟩)
    rw [(load_entry_some _ _ _ hej).2]
    simp only [hne, if_false]
    exact ih (j + 1) (by omega) (fun j' h1 h2 => hno j' (by omega) (by omega))

/-- When the entry loop ends without a result, no entry it visited has hash `h`. -/
theorem scan_entries_ret_none (z : Zlib) (tmp : DecompressionContext) (wad : MountedWAD)
    (h : Nat) :
    ∀ (n j : Nat), scan_entries z tmp wad h n j = .ret none →
      ∀ j', j ≤ j' → j' < j + n → nameAt wad.header j' ≠ some h := by
  intro n
  induction n with
  | zero => intro j _ j' h1 h2; omega
  | succ n ih =>
    intro j hscan j' h1 h2
    rw [scan_entries] at hscan
    cases hl : load_u32 wad.header (8 + 16 * j) with
    | none => simp [hl] at hscan
    | some x =>
      simp only [hl] at hscan
      by_cases hx : x = h
      · simp only [hx, if_true] at hscan
        cases hle : load_entry wad.header j with
        | none => simp [hle] at hscan
        | some e =>
          simp only [hle] at hscan
          exact absurd hscan (Outcome.map_some_ne_ret_none _)
      · simp only [hx, if_false] at hscan
        rcases Nat.lt_or_ge j j' with hlt | hge
        · exact ih (j + 1) hscan j' (by omega) (by omega)
        · have hjj : j' = j := by omega
          subst hjj
          intro hc
          obtain ⟨e, he, hen⟩ := (nameAt_eq_some _ _ _).1 hc
          have := (load_entry_some _ _ _ he).2
          rw [hl, hen] at this
          exact hx (Option.some.inj this)

theorem read_wad_chain_skip (z : Zlib) (tmp : DecompressionContext) (h : Nat)
    (pre rest : List MountedWAD)
    (hpre : ∀ w ∈ pre, TableInBounds w.header ∧ NoEntry w.header h) :
    read_wad_chain z tmp h (pre ++ rest) = read_wad_chain z tmp h rest := by
  induction pre with
  | nil => rfl
  | cons w pre ih =>
    obtain ⟨⟨n, hn, hin⟩, hno⟩ := hpre w (List.mem_cons_self _ _)
    show read_wad_chain z tmp h (w :: (pre ++ rest)) = _
    rw [read_wad_chain, hn]
    simp only []
    rw [scan_entries_none z tmp w h n 0 (by omega) (fun j' _ h2 => hno n hn j' (by omega))]
    simp only [Outcome.bind]
    exact ih (fun w' hw' => hpre w' (List.mem_cons_of_mem _ hw'))

theorem read_wad_chain_first (z : Zlib) (tmp : DecompressionContext) (h : Nat)
    (w : MountedWAD) (post : List MountedWAD) (i : Nat) (e : WADEntry)
    (hfm : FirstMatch w.header h i) (he : load_entry w.header i = some e) :
    read_wad_chain z tmp h (w :: post) = (read_wad_entry z tmp w e).map some := by
  obtain ⟨⟨n, hn, hi⟩, hname, hbefore⟩ := hfm
  obtain ⟨e', he', hen⟩ := (nameAt_eq_some _ _ _).1 hname
  rw [he] at he'
  have hee : e' = e := (Option.some.inj he').symm
  subst hee
  rw [read_wad_chain, hn]
  simp only []
  rw [scan_entries_first z tmp w h i e' he hen n 0 (Nat.zero_le _) (by omega)
    (fun j' _ h2 => hbefore j' h2)]
  cases read_wad_entry z tmp w e' <;> rfl

/-- The chain walk returns the decoding of the entry the name resolves to. -/
theorem read_wad_chain_resolves (z : Zlib) (tmp : DecompressionContext) (g : List MountedWAD)
    (h : Nat) (w : MountedWAD) (e : WADEntry) (hres : Resolves g h w e) :
    read_wad_chain z tmp h g = (read_wad_entry z tmp w e).map some := by
  obtain ⟨pre, post, i, rfl, hpre, hfm, he⟩ := hres
  rw [read_wad_chain_skip z tmp h pre (w :: post) hpre]
  exact read_wad_chain_first z tmp h w post i e hfm he

theorem read_wad_chain_unresolved (z : Zlib) (tmp : DecompressionContext) (g : List MountedWAD)
    (h : Nat) (hun : Unresolved g h) : read_wad_chain z tmp h g = .ret none := by
  have := read_wad_chain_skip z tmp h g [] hun
  rw [List.append_nil] at this
  rw [this]
  rfl

theorem read_wad_chain_ret_none (z : Zlib) (tmp : DecompressionContext) (h : Nat) :
    ∀ (g : List MountedWAD), read_wad_chain z tmp h g = .ret none →
      ∀ w ∈ g, NoEntry w.header h := by
  intro g
  induction g with
  | nil => intro _ w hw; simp at hw
  | cons w0 g ih =>
    intro hr w hw
    rw [read_wad_chain] at hr
    cases hn : load_u32 w0.header 4 with
    | none => simp [hn] at hr
    | some n =>
      simp only [hn] at hr
      cases hs : scan_entries z tmp w0 h n 0 with
      | ret r =>
        cases r with
        | some res => simp [hs, Outcome.bind] at hr
        | none =>
          simp only [hs, Outcome.bind] at hr
          rcases List.mem_cons.1 hw with rfl | hw'
          · intro n' hn' i hi
            rw [hn] at hn'
            have hnn : n = n' := Option.some.inj hn'
            subst hnn
            exact scan_entries_ret_none z tmp w h n 0 hs i (Nat.zero_le _) (by omega)
          · exact ih hr w hw'
      | fatal m => simp [hs, Outcome.bind] at hr
      | oob => simp [hs, Outcome.bind] at hr
      | timeout => simp [hs, Outcome.bind] at hr

theorem read_wad_file_resolves (z : Zlib) (tmp : DecompressionContext) (g : List MountedWAD)
    (filename : List Nat) (w : MountedWAD) (e : WADEntry)
    (hres : Resolves g (name_hash z filename) w e) :
    read_wad_file z tmp g filename = (read_wad_entry z tmp w e).map some :=
  read_wad_chain_resolves z tmp g _ w e hres

theorem read_wad_file_unresolved (z : Zlib) (tmp : DecompressionContext) (g : List MountedWAD)
    (filename : List Nat) (hun : Unresolved g (name_hash z filename)) :
    read_wad_file z tmp g filename = .ret none :=
  read_wad_chain_unresolved z tmp g _ hun

theorem read_file_of_found (z : Zlib) (tmp : DecompressionContext) (fs : FileSystem)
    (g : List MountedWAD) (filename : List Nat) (x : Outcome (List Nat × Nat))
    (h : read_wad_file z tmp g filename = x.map some) :
    read_file z tmp fs g filename = x.map some := by
  unfold read_file
  rw [h]
  cases x <;> rfl

theorem read_file_of_not_found (z : Zlib) (tmp : DecompressionContext) (fs : FileSystem)
    (g : List MountedWAD) (filename : List Nat)
    (h : read_wad_file z tmp g filename = .ret none) :
    read_file z tmp fs g filename
      = match fs.fopen filename with
        | none => .ret none
        | some contents =>
          if fs.unread filename ≠ 0 then .fatal "Could not read %zu bytes from %s"
          else .ret (some (contents, contents.length)) := by
  unfold read_file
  rw [h]
  simp only [Outcome.bind]
  cases fs.fopen filename with
  | none => rfl
  | some contents =>
    dsimp only
    rw [List.take_of_length_le (Nat.le_add_right _ _)]
    by_cases hu : fs.unread filename = 0
    · rw [hu, Nat.add_zero, if_neg (fun h => h rfl), if_neg (fun h => h rfl)]
    · rw [if_pos (by omega), if_pos hu]

/-- A `mount_wad` that returned `true` pushed one container, named after the
path and holding what `read_file` returned. -/
theorem mount_wad_true (z : Zlib) (tmp : DecompressionContext) (fs : FileSystem)
    (g g' : List MountedWAD) (path : List Nat)
    (h : mount_wad z tmp fs g path = .ret (true, g')) :
    ∃ header len, read_file z tmp fs g path = .ret (some (header, len)) ∧
      g' = { filename := path, header := header, len := len } :: g := by
  unfold mount_wad at h
  cases hr : read_file z tmp fs g path with
  | ret r =>
    cases r with
    | none => simp [hr, Outcome.bind] at h
    | some res =>
      obtain ⟨header, len⟩ := res
      simp only [hr, Outcome.bind, Outcome.ret.injEq, Prod.mk.injEq, true_and] at h
      exact ⟨header, len, rfl, h.symm⟩
  | fatal m => simp [hr, Outcome.bind] at h
  | oob => simp [hr, Outcome.bind] at h
  | timeout => simp [hr, Outcome.bind] at h

theorem NoEntry_of (image : List Nat) (h n : Nat) (hn : load_u32 image 4 = some n)
    (hall : ∀ i, i < n → nameAt image i ≠ some h) : NoEntry image h := by
  intro n' hn' i hi
  rw [hn] at hn'
  have : n = n' := Option.some.inj hn'
  subst this
  exact hall i hi

theorem drop_get?_zero (l : List Nat) (n : Nat) : (l.drop n).get? 0 = l.get? n := by
  simp [List.get?_eq_getElem?, List.getElem?_drop]

theorem name_hash_a_txt : name_hash zlibRef name_a_txt = 4164353880 := rfl

theorem name_hash_b_txt : name_hash zlibRef name_b_txt = 3214312840 := rfl

set_option maxRecDepth 100000 in
theorem name_hash_plumless : name_hash zlibRef name_plumless = 3607506099 := rfl

set_option maxRecDepth 100000 in
theorem name_hash_buckeroo : name_hash zlibRef name_buckeroo = 3607506099 := rfl

theorem name_hash_a_wad : name_hash zlibRef name_a_wad = 2093480061 := rfl

theorem name_hash_b_wad : name_hash zlibRef name_b_wad = 996639405 := rfl

theorem imageA_first (h : Nat) (hh : h = 4164353880) : FirstMatch imageA h 0 := by
  subst hh
  exact ⟨⟨2, rfl, by decide⟩, rfl, fun j hj => absurd hj (Nat.not_lt_zero j)⟩

theorem imageB_first (h : Nat) (hh : h = 4164353880) : FirstMatch imageB h 0 := by
  subst hh
  exact ⟨⟨1, rfl, by decide⟩, rfl, fun j hj => absurd hj (Nat.not_lt_zero j)⟩

theorem imageA_none (h : Nat) (hh : h ≠ 4164353880) :
    TableInBounds imageA ∧ NoEntry imageA h := by
  refine ⟨⟨2, rfl, by decide⟩, NoEntry_of imageA h 2 rfl ?_⟩
  intro i hi
  have hi' : i = 0 ∨ i = 1 := by omega
  rcases hi' with rfl | rfl
  · show some 4164353880 ≠ some h
    exact fun hc => hh (Option.some.inj hc).symm
  · show some 4164353880 ≠ some h
    exact fun hc => hh (Option.some.inj hc).symm

theorem imageB_none (h : Nat) (hh : h ≠ 4164353880) :
    TableInBounds imageB ∧ NoEntry imageB h := by
  refine ⟨⟨1, rfl, by decide⟩, NoEntry_of imageB h 1 rfl ?_⟩
  intro i hi
  have hi' : i = 0 := by omega
  subst hi'
  show some 4164353880 ≠ some h
  exact fun hc => hh (Option.some.inj hc).symm

theorem imageC_none (h : Nat) (hh : h ≠ 3607506099) :
    TableInBounds imageC ∧ NoEntry imageC h := by
  refine ⟨⟨2, rfl, by decide⟩, NoEntry_of imageC h 2 rfl ?_⟩
  intro i hi
  have hi' : i = 0 ∨ i = 1 := by omega
  rcases hi' with rfl | rfl
  · show some 3607506099 ≠ some h
    exact fun hc => hh (Option.some.inj hc).symm
  · show some 3607506099 ≠ some h
    exact fun hc => hh (Option.some.inj hc).symm

theorem imageC_first (h : Nat) (hh : h = 3607506099) : FirstMatch imageC h 0 := by
  subst hh
  exact ⟨⟨2, rfl, by decide⟩, rfl, fun j hj => absurd hj (Nat.not_lt_zero j)⟩

theorem imageZ_first (h : Nat) (hh : h = 4164353880) : FirstMatch imageZ h 0 := by
  subst hh
  exact ⟨⟨1, rfl, by decide⟩, rfl, fun j hj => absurd hj (Nat.not_lt_zero j)⟩

theorem Resolves_head (w : MountedWAD) (post : List MountedWAD) (h i : Nat) (e : WADEntry)
    (hfm : FirstMatch w.header h i) (he : load_entry w.header i = some e) :
    Resolves (w :: post) h w e :=
  ⟨[], post, i, rfl, fun _ hw => absurd hw (List.not_mem_nil _), hfm, he⟩

/-! ## The value of a bit field -/

theorem bitAt_toNat (bytes : List Nat) (j : Nat) : (bitAt bytes j).toNat = bitNat bytes j := by
  unfold bitAt bitNat
  rw [Nat.toNat_testBit, Nat.shiftRight_eq_div_pow, Nat.and_one_is_mod]

theorem readVal_lt (bytes : List Nat) : ∀ (n k : Nat), readVal bytes k n < 2 ^ n := by
  intro n
  induction n with
  | zero => intro k; simp [readVal]
  | succ n ih =>
    intro k
    have h := ih (k + 1)
    have hb : (bitAt bytes k).toNat ≤ 1 := Bool.toNat_le _
    have hmul : (bitAt bytes k).toNat * 2 ^ n ≤ 1 * 2 ^ n := Nat.mul_le_mul_right _ hb
    rw [readVal, Nat.pow_succ]
    omega

theorem readVal_eq_sum (bytes : List Nat) : ∀ (n k : Nat),
    readVal bytes k n = ∑ i in Finset.range n, bitNat bytes (k + i) * 2 ^ (n - 1 - i) := by
  intro n
  induction n with
  | zero => intro k; simp [readVal]
  | succ n ih =>
    intro k
    rw [readVal, ih (k + 1), Finset.sum_range_succ', bitAt_toNat]
    rw [Nat.add_comm]
    congr 1
    apply Finset.sum_congr rfl
    intro i hi
    have hi' : i < n := Finset.mem_range.1 hi
    have e1 : k + 1 + i = k + (i + 1) := by omega
    have e2 : n - 1 - i = n + 1 - 1 - (i + 1) := by omega
    rw [e1, e2]

theorem readVal_msb (bytes : List Nat) (n k : Nat) :
    readVal bytes k (n + 1) / 2 ^ n = bitNat bytes k := by
  have h := readVal_lt bytes n (k + 1)
  rw [readVal, bitAt_toNat, Nat.add_comm, Nat.add_mul_div_right _ _ (by positivity),
    Nat.div_eq_of_lt h, Nat.zero_add]

/-- Over an input of fewer than `2^32` bytes every reader state reached after
`k` bits is the canonical one, and `k` bits were inside the input. -/
theorem ReachedAfter_readerAt (self : DecompressionContext) (buf : List Nat) (buf_len : Nat)
    (hlen : buf.length < 4294967296) (k : Nat) (s : DecompressionContext)
    (h : ReachedAfter (DecompressionContext_init self buf buf_len) k s) :
    k ≤ 8 * buf.length ∧ ∃ lb w, s = readerAt
      { DecompressionContext_init self buf buf_len with
        lookback_buffer := lb, lookback_buffer_write_index := w } k := by
  induction h with
  | start => exact ⟨Nat.zero_le _, self.lookback_buffer, 1, rfl⟩
  | read k n v s s' _ h1 h32 hread ih =>
    obtain ⟨hk, lb, w, rfl⟩ := ih
    rcases Nat.lt_or_ge (8 * buf.length) (k + n) with hgt | hle
    · rw [read_bits_end _ k n hlen h1 h32 hk hgt] at hread
      exact absurd hread (by simp)
    · rw [read_bits_at _ k n (Nat.le_of_lt hlen) h1 h32 hle] at hread
      simp only [Outcome.ret.injEq, Prod.mk.injEq] at hread
      exact ⟨hle, lb, w, hread.2.symm⟩
  | window k s lb w _ ih =>
    obtain ⟨hk, lb0, w0, rfl⟩ := ih
    exact ⟨hk, lb, w, rfl⟩

/-! ## What a returning decoder has written -/

theorem Outcome.bind_eq_ret {α β : Type} (x : Outcome α) (f : α → Outcome β) (b : β) :
    x.bind f = .ret b ↔ ∃ a, x = .ret a ∧ f a = .ret b := by
  cases x <;> simp [Outcome.bind]

theorem Outcome.bind_eq_fatal {α β : Type} (x : Outcome α) (f : α → Outcome β) (m : String) :
    x.bind f = .fatal m ↔ x = .fatal m ∨ ∃ a, x = .ret a ∧ f a = .fatal m := by
  cases x <;> simp [Outcome.bind]

theorem read_bits_loop_ne_fatal (m : String) :
    ∀ (fuel : Nat) (self : DecompressionContext) (result cb : Nat),
      read_bits_loop fuel self result cb ≠ .fatal m := by
  intro fuel
  induction fuel with
  | zero => intro self result cb; simp [read_bits_loop]
  | succ f ih =>
    intro self result cb
    rw [read_bits_loop]
    by_cases hcb : cb = 0
    · simp [hcb]
    · simp only [hcb, if_false]
      rcases read_bits_step_cases self result cb with h | ⟨s, r, h⟩
      · rw [h]; simp [Outcome.bind]
      · rw [h]
        simp only [Outcome.bind]
        exact ih s r _

theorem read_bits_ne_fatal (self : DecompressionContext) (n : Nat) (m : String) :
    DecompressionContext_read_bits self n ≠ .fatal m :=
  read_bits_loop_ne_fatal m 33 self 0 _

theorem copy_step_written (o i : Nat) (self : DecompressionContext) (buffer : List Nat) (L : Nat)
    (hL : L < 4294967296) :
    buffer.length + L ≤ (copy_step o i self buffer L).2.1.length + (copy_step o i self buffer L).2.2
      ∧ (copy_step o i self buffer L).2.2 < 4294967296 := by
  simp only [copy_step, List.length_append, List.length_singleton]
  omega

theorem copy_loop_written (o : Nat) :
    ∀ (n i : Nat) (st : DecompressionContext × List Nat × Nat), st.2.2 < 4294967296 →
      st.2.1.length + st.2.2 ≤ (copy_loop o n i st).2.1.length + (copy_loop o n i st).2.2
        ∧ (copy_loop o n i st).2.2 < 4294967296 := by
  intro n
  induction n with
  | zero => intro i st h; exact ⟨Nat.le_refl _, h⟩
  | succ n ih =>
    intro i st h
    rw [copy_loop]
    have h1 := copy_step_written o i st.1 st.2.1 st.2.2 h
    have h2 := ih (i + 1) (copy_step o i st.1 st.2.1 st.2.2) h1.2
    exact ⟨Nat.le_trans h1.1 h2.1, h2.2⟩

theorem unpack_step_written (self : DecompressionContext) (buffer : List Nat) (L : Nat)
    (st : DecompressionContext × List Nat × Nat) (hL : L < 4294967296)
    (h : unpack_step self buffer L = .ret st) :
    buffer.length + L ≤ st.2.1.length + st.2.2 ∧ st.2.2 < 4294967296 := by
  unfold unpack_step at h
  obtain ⟨r, _, h⟩ := (Outcome.bind_eq_ret _ _ _).1 h
  by_cases hr : r.1 ≠ 0
  · rw [if_pos hr] at h
    obtain ⟨t, _, h⟩ := (Outcome.bind_eq_ret _ _ _).1 h
    simp only [Outcome.ret.injEq] at h
    subst h
    simp only [List.length_append, List.length_singleton]
    omega
  · rw [if_neg hr] at h
    obtain ⟨o, _, h⟩ := (Outcome.bind_eq_ret _ _ _).1 h
    obtain ⟨c, _, h⟩ := (Outcome.bind_eq_ret _ _ _).1 h
    simp only [Outcome.ret.injEq] at h
    subst h
    exact copy_loop_written o.1 (3 + c.1) 0 (c.2, buffer, L) hL

theorem unpack_step_ne_fatal (self : DecompressionContext) (buffer : List Nat) (L : Nat)
    (m : String) : unpack_step self buffer L ≠ .fatal m := by
  unfold unpack_step
  intro h
  rcases (Outcome.bind_eq_fatal _ _ _).1 h with h | ⟨r, _, h⟩
  · exact read_bits_ne_fatal _ _ _ h
  by_cases hr : r.1 ≠ 0
  · rw [if_pos hr] at h
    rcases (Outcome.bind_eq_fatal _ _ _).1 h with h | ⟨t, _, h⟩
    · exact read_bits_ne_fatal _ _ _ h
    · simp at h
  · rw [if_neg hr] at h
    rcases (Outcome.bind_eq_fatal _ _ _).1 h with h | ⟨o, _, h⟩
    · exact read_bits_ne_fatal _ _ _ h
    rcases (Outcome.bind_eq_fatal _ _ _).1 h with h | ⟨c, _, h⟩
    · exact read_bits_ne_fatal _ _ _ h
    · simp at h

/-- A decoder run that returns has written at least `length` bytes. -/
theorem unpack_loop_written :
    ∀ (fuel : Nat) (self : DecompressionContext) (buffer : List Nat) (L : Nat)
      (r : DecompressionContext × List Nat), L < 4294967296 →
      unpack_loop fuel self buffer L = .ret r → buffer.length + L ≤ r.2.length := by
  intro fuel
  induction fuel with
  | zero => intro self buffer L r _ h; simp [unpack_loop] at h
  | succ f ih =>
    intro self buffer L r hL h
    rw [unpack_loop] at h
    by_cases h0 : L = 0
    · simp only [h0, if_true, Outcome.ret.injEq] at h
      subst h
      simp [h0]
    · simp only [h0, if_false] at h
      obtain ⟨st, hst, h⟩ := (Outcome.bind_eq_ret _ _ _).1 h
      have h1 := unpack_step_written self buffer L st hL hst
      have h2 := ih st.1 st.2.1 st.2.2 r h1.2 h
      omega

theorem unpack_loop_ne_fatal (m : String) :
    ∀ (fuel : Nat) (self : DecompressionContext) (buffer : List Nat) (L : Nat),
      unpack_loop fuel self buffer L ≠ .fatal m := by
  intro fuel
  induction fuel with
  | zero => intro self buffer L; simp [unpack_loop]
  | succ f ih =>
    intro self buffer L
    rw [unpack_loop]
    by_cases h0 : L = 0
    · simp [h0]
    · simp only [h0, if_false]
      intro h
      rcases (Outcome.bind_eq_fatal _ _ _).1 h with h | ⟨st, _, h⟩
      · exact unpack_step_ne_fatal _ _ _ _ h
      · exact ih _ _ _ h

/-! ## The lookback window -/

theorem read_bits_step_frame (self : DecompressionContext) (result cb : Nat)
    (st : DecompressionContext × Nat × Nat) (h : read_bits_step self result cb = .ret st) :
    st.1.lookback_buffer = self.lookback_buffer ∧
      st.1.lookback_buffer_write_index = self.lookback_buffer_write_index := by
  unfold read_bits_step at h
  by_cases hm : self.bit_in_current_byte = 0x80
  · cases hg : self.buf.get? self.current_byte_read_pos with
    | none =>
      simp only [hm, hg, if_true, Outcome.bind] at h
      cases h
    | some b =>
      simp only [hm, hg, if_true, Outcome.bind, Outcome.ret.injEq] at h
      subst h
      exact ⟨rfl, rfl⟩
  · simp only [hm, if_false, Outcome.bind, Outcome.ret.injEq] at h
    subst h
    exact ⟨rfl, rfl⟩

theorem read_bits_loop_frame :
    ∀ (fuel : Nat) (self : DecompressionContext) (result cb : Nat)
      (r : Nat × DecompressionContext), read_bits_loop fuel self result cb = .ret r →
      r.2.lookback_buffer = self.lookback_buffer ∧
        r.2.lookback_buffer_write_index = self.lookback_buffer_write_index := by
  intro fuel
  induction fuel with
  | zero => intro self result cb r h; simp [read_bits_loop] at h
  | succ f ih =>
    intro self result cb r h
    rw [read_bits_loop] at h
    by_cases hcb : cb = 0
    · simp only [hcb, if_true, Outcome.ret.injEq] at h
      subst h
      exact ⟨rfl, rfl⟩
    · simp only [hcb, if_false] at h
      obtain ⟨st, hst, h⟩ := (Outcome.bind_eq_ret _ _ _).1 h
      have h1 := read_bits_step_frame self result cb st hst
      have h2 := ih st.1 st.2.1 st.2.2 r h
      exact ⟨h2.1.trans h1.1, h2.2.trans h1.2⟩

/-- Reading bits leaves the lookback buffer and its write index as they were. -/
theorem read_bits_frame (self : DecompressionContext) (n : Nat) (r : Nat × DecompressionContext)
    (h : DecompressionContext_read_bits self n = .ret r) :
    r.2.lookback_buffer = self.lookback_buffer ∧
      r.2.lookback_buffer_write_index = self.lookback_buffer_write_index :=
  read_bits_loop_frame 33 self 0 _ r h

/-- Emitting one byte (writing it at the cursor and advancing the cursor)
keeps the window invariant. -/
theorem WindowInv_emit (lb : Nat → Nat) (c : Nat) (self : DecompressionContext) (out : List Nat)
    (tmp : Nat) (hc : c = (1 + out.length) % 8192)
    (hlb : ∀ j, j < min out.length 8192 →
      out[out.length - 1 - j]? = some (lb ((out.length - j) % 8192))) :
    WindowInv
      { self with
        lookback_buffer := Function.update lb c tmp
        lookback_buffer_write_index := (c + 1) &&& 0x1fff } (out ++ [tmp]) := by
  refine ⟨?_, ?_⟩
  · show (c + 1) &&& 0x1fff = (1 + (out ++ [tmp]).length) % 8192
    rw [and_1fff, hc, List.length_append, List.length_singleton]
    omega
  · intro j hj
    show (out ++ [tmp])[(out ++ [tmp]).length - 1 - j]?
      = some (Function.update lb c tmp (((out ++ [tmp]).length - j) % 8192))
    rw [List.length_append, List.length_singleton] at hj ⊢
    rcases Nat.eq_zero_or_pos j with rfl | hpos
    · have e1 : out.length + 1 - 1 - 0 = out.length := by omega
      have e2 : (out.length + 1 - 0) % 8192 = c := by rw [hc]; omega
      rw [e1, e2, Function.update_same]
      simp
    · have hj1 : j - 1 < min out.length 8192 := by
        simp only [lt_min_iff] at hj ⊢
        omega
      have hprev := hlb (j - 1) hj1
      have e1 : out.length + 1 - 1 - j = out.length - 1 - (j - 1) := by omega
      have e2 : (out.length + 1 - j) % 8192 = (out.length - (j - 1)) % 8192 := by
        have : out.length + 1 - j = out.length - (j - 1) := by
          simp only [lt_min_iff] at hj
          omega
        rw [this]
      have hne : (out.length - (j - 1)) % 8192 ≠ c := by
        rw [hc]
        simp only [lt_min_iff] at hj
        omega
      have hidx : out.length - 1 - (j - 1) < out.length := by
        simp only [lt_min_iff] at hj
        omega
      rw [e1, e2, Function.update_noteq hne, List.getElem?_append_left hidx]
      exact hprev

theorem copy_step_WindowInv (o i : Nat) (self : DecompressionContext) (out : List Nat) (L : Nat)
    (h : WindowInv self out) :
    WindowInv (copy_step o i self out L).1 (copy_step o i self out L).2.1 :=
  WindowInv_emit self.lookback_buffer self.lookback_buffer_write_index self out _ h.1 h.2

theorem copy_loop_WindowInv (o : Nat) :
    ∀ (n i : Nat) (st : DecompressionContext × List Nat × Nat), WindowInv st.1 st.2.1 →
      WindowInv (copy_loop o n i st).1 (copy_loop o n i st).2.1 := by
  intro n
  induction n with
  | zero => intro i st h; exact h
  | succ n ih =>
    intro i st h
    rw [copy_loop]
    exact ih (i + 1) _ (copy_step_WindowInv o i st.1 st.2.1 st.2.2 h)

theorem unpack_step_WindowInv (self : DecompressionContext) (out : List Nat) (L : Nat)
    (st : DecompressionContext × List Nat × Nat) (hinv : WindowInv self out)
    (h : unpack_step self out L = .ret st) : WindowInv st.1 st.2.1 := by
  unfold unpack_step at h
  obtain ⟨r, hr1, h⟩ := (Outcome.bind_eq_ret _ _ _).1 h
  have f1 := read_bits_frame self 1 r hr1
  by_cases hr : r.1 ≠ 0
  · rw [if_pos hr] at h
    obtain ⟨t, ht, h⟩ := (Outcome.bind_eq_ret _ _ _).1 h
    have f2 := read_bits_frame r.2 8 t ht
    simp only [Outcome.ret.injEq] at h
    subst h
    exact WindowInv_emit _ _ t.2 out _ (by rw [f2.2, f1.2]; exact hinv.1)
      (by rw [f2.1, f1.1]; exact hinv.2)
  · rw [if_neg hr] at h
    obtain ⟨o, ho, h⟩ := (Outcome.bind_eq_ret _ _ _).1 h
    obtain ⟨c, hc, h⟩ := (Outcome.bind_eq_ret _ _ _).1 h
    have f2 := read_bits_frame r.2 13 o ho
    have f3 := read_bits_frame o.2 4 c hc
    simp only [Outcome.ret.injEq] at h
    subst h
    refine copy_loop_WindowInv o.1 (3 + c.1) 0 (c.2, out, L) ⟨?_, ?_⟩
    · show c.2.lookback_buffer_write_index = _
      rw [f3.2, f2.2, f1.2]; exact hinv.1
    · show ∀ j, j < min out.length 8192 → out[out.length - 1 - j]? = some (c.2.lookback_buffer _)
      rw [f3.1, f2.1, f1.1]; exact hinv.2

theorem unpack_loop_WindowInv :
    ∀ (fuel : Nat) (self : DecompressionContext) (out : List Nat) (L : Nat)
      (r : DecompressionContext × List Nat), WindowInv self out →
      unpack_loop fuel self out L = .ret r → WindowInv r.1 r.2 := by
  intro fuel
  induction fuel with
  | zero => intro self out L r _ h; simp [unpack_loop] at h
  | succ f ih =>
    intro self out L r hinv h
    rw [unpack_loop] at h
    by_cases h0 : L = 0
    · simp only [h0, if_true, Outcome.ret.injEq] at h
      subst h
      exact hinv
    · simp only [h0, if_false] at h
      obtain ⟨st, hst, h⟩ := (Outcome.bind_eq_ret _ _ _).1 h
      exact ih st.1 st.2.1 st.2.2 r (unpack_step_WindowInv self out L st hinv hst) h

theorem WindowInv_init (self : DecompressionContext) (buf : List Nat) (buf_len : Nat) :
    WindowInv (DecompressionContext_init self buf buf_len) [] :=
  ⟨rfl, fun j hj => by simp at hj⟩

/-! ## The codec dispatch -/

theorem Outcome.map_some_eq_ret {α : Type} (x : Outcome α) (a : α) :
    x.map some = .ret (some a) ↔ x = .ret a := by
  cases x <;> simp [Outcome.map, Outcome.bind]

theorem Outcome.map_eq_fatal {α β : Type} (f : α → β) (x : Outcome α) (m : String) :
    x.map f = .fatal m ↔ x = .fatal m := by
  cases x <;> simp [Outcome.map, Outcome.bind]

theorem read_wad_entry_raw (z : Zlib) (tmp : DecompressionContext) (w : MountedWAD)
    (e : WADEntry) (hraw : e.length = e.compressed_length) :
    read_wad_entry z tmp w e
      = if e.length = 0 ∨ e.start_offset + e.length ≤ w.header.length then
          .ret ((w.header.drop e.start_offset).take e.length, e.length)
        else .oob := by
  unfold read_wad_entry
  simp only [ne_eq, hraw, not_true_eq_false, if_false]

theorem read_wad_entry_lz (z : Zlib) (tmp : DecompressionContext) (w : MountedWAD)
    (e : WADEntry) (hne : e.length ≠ e.compressed_length)
    (hclear : e.length &&& 0x80000000 = 0) :
    read_wad_entry z tmp w e
      = (unpack_entry tmp w e).bind fun r =>
          if e.length < r.2.length then .oob else .ret (r.2, e.length) := by
  unfold read_wad_entry unpack_entry
  simp only [ne_eq, hne, not_false_eq_true, if_true, hclear, not_true_eq_false, if_false]

theorem read_wad_entry_zlib (z : Zlib) (tmp : DecompressionContext) (w : MountedWAD)
    (e : WADEntry) (first : Nat) (hne : e.length ≠ e.compressed_length)
    (hflag : e.length &&& 0x80000000 ≠ 0)
    (hfirst : w.header.get? e.start_offset = some first) :
    read_wad_entry z tmp w e
      = if first ≠ 0x78 then .fatal "Invalid zlib header"
        else if z.inflateInit ≠ 0 then .fatal "Failed to init zlib"
        else if (inflate_entry z w e).res ≠ 1
            ∨ (inflate_entry z w e).total_out ≠ e.length &&& 0x7FFFFFFF then
          .fatal "%s: zlib error for %s"
        else .ret ((inflate_entry z w e).out, e.length &&& 0x7FFFFFFF) := by
  unfold read_wad_entry inflate_entry
  simp only [ne_eq, hne, not_false_eq_true, if_true, hflag, drop_get?_zero, hfirst]

theorem read_wad_entry_zlib_oob (z : Zlib) (tmp : DecompressionContext) (w : MountedWAD)
    (e : WADEntry) (hne : e.length ≠ e.compressed_length)
    (hflag : e.length &&& 0x80000000 ≠ 0)
    (hfirst : w.header.get? e.start_offset = none) :
    read_wad_entry z tmp w e = .oob := by
  unfold read_wad_entry
  simp only [ne_eq, hne, not_false_eq_true, if_true, hflag, drop_get?_zero, hfirst]

theorem and_7fffffff_lt (x : Nat) : x &&& 0x7FFFFFFF < 2147483648 := by
  have h : x &&& 0x7FFFFFFF = x % 2 ^ 31 := Nat.and_pow_two_sub_one_eq_mod x 31
  rw [h]
  exact Nat.mod_lt _ (by norm_num)

theorem and_7fffffff_of_clear (x : Nat) (h32 : x < 4294967296) (hclear : x &&& 0x80000000 = 0) :
    x &&& 0x7FFFFFFF = x := by
  have h : x &&& 0x7FFFFFFF = x % 2 ^ 31 := Nat.and_pow_two_sub_one_eq_mod x 31
  have h2 : x &&& 2 ^ 31 = (x.testBit 31).toNat * 2 ^ 31 := Nat.and_two_pow x 31
  have h3 : (0x80000000 : Nat) = 2 ^ 31 := by norm_num
  rw [h3, h2, Nat.toNat_testBit] at hclear
  rw [h]
  have : x / 2 ^ 31 % 2 = 0 := by
    rcases Nat.mul_eq_zero.1 hclear with h | h
    · exact h
    · exact absurd h (by norm_num)
  norm_num at this ⊢
  omega

theorem FirstMatch_zero (image : List Nat) (h n : Nat) (hn : load_u32 image 4 = some n)
    (hpos : 0 < n) (hname : nameAt image 0 = some h) : FirstMatch image h 0 :=
  ⟨⟨n, hn, hpos⟩, hname, fun j hj => absurd hj (Nat.not_lt_zero j)⟩

/-- A container whose first entry has the name hash `h` resolves `h` to it. -/
theorem Resolves_wadOf (image : List Nat) (h n : Nat) (e : WADEntry)
    (hn : load_u32 image 4 = some n) (hpos : 0 < n) (he : load_entry image 0 = some e)
    (hname : e.name = h) : Resolves [wadOf image] h (wadOf image) e :=
  Resolves_head (wadOf image) [] h 0 e
    (FirstMatch_zero image h n hn hpos ((nameAt_eq_some _ _ _).2 ⟨e, he, hname⟩)) he

theorem name_hash_stored_a_txt : name_hash zlibStored name_a_txt = 4164353880 := rfl

/-! ## The decoder never consults `buf_len` -/

theorem read_bits_step_buf_len (x : Nat) (s : DecompressionContext) (r cb : Nat) :
    read_bits_step (s.withBufLen x) r cb
      = (read_bits_step s r cb).map fun st => (st.1.withBufLen x, st.2.1, st.2.2) := by
  unfold read_bits_step DecompressionContext.withBufLen
  by_cases hm : s.bit_in_current_byte = 0x80
  · cases hg : s.buf.get? s.current_byte_read_pos with
    | none => simp only [hm, hg, if_true, Outcome.bind, Outcome.map]
    | some b => simp only [hm, hg, if_true, Outcome.bind, Outcome.map]
  · simp only [hm, if_false, Outcome.bind, Outcome.map]

theorem read_bits_loop_buf_len (x : Nat) :
    ∀ (fuel : Nat) (s : DecompressionContext) (r cb : Nat),
      read_bits_loop fuel (s.withBufLen x) r cb
        = (read_bits_loop fuel s r cb).map fun p => (p.1, p.2.withBufLen x) := by
  intro fuel
  induction fuel with
  | zero => intro s r cb; rfl
  | succ f ih =>
    intro s r cb
    rw [read_bits_loop, read_bits_loop]
    by_cases hcb : cb = 0
    · simp only [hcb, if_true]; rfl
    · simp only [hcb, if_false]
      rw [read_bits_step_buf_len]
      cases read_bits_step s r cb with
      | ret st => exact ih st.1 st.2.1 st.2.2
      | fatal m => rfl
      | oob => rfl
      | timeout => rfl

theorem read_bits_buf_len (x : Nat) (s : DecompressionContext) (n : Nat) :
    DecompressionContext_read_bits (s.withBufLen x) n
      = (DecompressionContext_read_bits s n).map fun p => (p.1, p.2.withBufLen x) :=
  read_bits_loop_buf_len x 33 s 0 _

theorem copy_loop_buf_len (x o : Nat) :
    ∀ (n i : Nat) (st : DecompressionContext × List Nat × Nat),
      copy_loop o n i (st.1.withBufLen x, st.2.1, st.2.2)
        = ((copy_loop o n i st).1.withBufLen x, (copy_loop o n i st).2.1,
            (copy_loop o n i st).2.2) := by
  intro n
  induction n with
  | zero => intro i st; rfl
  | succ n ih =>
    intro i st
    rw [copy_loop, copy_loop]
    exact ih (i + 1) (copy_step o i st.1 st.2.1 st.2.2)

theorem unpack_step_buf_len (x : Nat) (s : DecompressionContext) (b : List Nat) (L : Nat) :
    unpack_step (s.withBufLen x) b L
      = (unpack_step s b L).map fun st => (st.1.withBufLen x, st.2.1, st.2.2) := by
  unfold unpack_step
  rw [read_bits_buf_len]
  cases DecompressionContext_read_bits s 1 with
  | ret r =>
    simp only [Outcome.map, Outcome.bind]
    by_cases hr : r.1 ≠ 0
    · rw [if_pos hr, if_pos hr, read_bits_buf_len]
      cases DecompressionContext_read_bits r.2 8 with
      | ret t => rfl
      | fatal m => rfl
      | oob => rfl
      | timeout => rfl
    · rw [if_neg hr, if_neg hr, read_bits_buf_len]
      cases DecompressionContext_read_bits r.2 13 with
      | ret o =>
        simp only [Outcome.map, Outcome.bind]
        rw [read_bits_buf_len]
        cases DecompressionContext_read_bits o.2 4 with
        | ret c =>
          simp only [Outcome.map, Outcome.bind]
          rw [copy_loop_buf_len x o.1 (3 + c.1) 0 (c.2, b, L)]
        | fatal m => rfl
        | oob => rfl
        | timeout => rfl
      | fatal m => rfl
      | oob => rfl
      | timeout => rfl
  | fatal m => rfl
  | oob => rfl
  | timeout => rfl

theorem unpack_loop_buf_len (x : Nat) :
    ∀ (fuel : Nat) (s : DecompressionContext) (b : List Nat) (L : Nat),
      unpack_loop fuel (s.withBufLen x) b L
        = (unpack_loop fuel s b L).map fun r => (r.1.withBufLen x, r.2) := by
  intro fuel
  induction fuel with
  | zero => intro s b L; rfl
  | succ f ih =>
    intro s b L
    rw [unpack_loop, unpack_loop]
    by_cases h0 : L = 0
    · simp only [h0, if_true]; rfl
    · simp only [h0, if_false]
      rw [unpack_step_buf_len]
      cases unpack_step s b L with
      | ret st => exact ih st.1 st.2.1 st.2.2
      | fatal m => rfl
      | oob => rfl
      | timeout => rfl

/-- The bytes a decoder run writes do not depend on the `buf_len` given to
`DecompressionContext_init`. -/
theorem unpack_written_buf_len (self : DecompressionContext) (buf : List Nat) (x y L : Nat) :
    (DecompressionContext_unpack (DecompressionContext_init self buf x) L).written
      = (DecompressionContext_unpack (DecompressionContext_init self buf y) L).written := by
  have h : DecompressionContext_init self buf x
      = (DecompressionContext_init self buf y).withBufLen x := rfl
  have hl : ((DecompressionContext_init self buf y).withBufLen x).buf.length
      = (DecompressionContext_init self buf y).buf.length := rfl
  unfold DecompressionContext_unpack
  rw [h, hl, unpack_loop_buf_len]
  cases unpack_loop ((DecompressionContext_init self buf y).buf.length + 1)
    (DecompressionContext_init self buf y) [] L <;> rfl

theorem unpack_init_buf_len (self : DecompressionContext) (buf : List Nat) (x y L : Nat) :
    DecompressionContext_unpack (DecompressionContext_init self buf x) L
      = (DecompressionContext_unpack (DecompressionContext_init self buf y) L).map
          fun r => (r.1.withBufLen x, r.2) := by
  have h : DecompressionContext_init self buf x
      = (DecompressionContext_init self buf y).withBufLen x := rfl
  have hl : ((DecompressionContext_init self buf y).withBufLen x).buf.length
      = (DecompressionContext_init self buf y).buf.length := rfl
  unfold DecompressionContext_unpack
  rw [h, hl, unpack_loop_buf_len]

theorem unpack_ne_fatal (self : DecompressionContext) (L : Nat) (m : String) :
    DecompressionContext_unpack self L ≠ .fatal m :=
  unpack_loop_ne_fatal m _ self [] L

theorem load_u32_of_take (img : List Nat) (off b0 b1 b2 b3 : Nat)
    (h : (img.drop off).take 4 = [b0, b1, b2, b3]) :
    load_u32 img off = some (b0 + 256 * b1 + 65536 * b2 + 16777216 * b3) := by
  have h0 : img[off]? = some b0 := by
    have := congrArg (fun l => l[0]?) h
    simpa [List.getElem?_take, List.getElem?_drop] using this
  have h1 : img[off + 1]? = some b1 := by
    have := congrArg (fun l => l[1]?) h
    simpa [List.getElem?_take, List.getElem?_drop] using this
  have h2 : img[off + 2]? = some b2 := by
    have := congrArg (fun l => l[2]?) h
    simpa [List.getElem?_take, List.getElem?_drop] using this
  have h3 : img[off + 3]? = some b3 := by
    have := congrArg (fun l => l[3]?) h
    simpa [List.getElem?_take, List.getElem?_drop] using this
  have hlen : off + 4 ≤ img.length := by
    have := (List.getElem?_eq_some.1 h3).1
    omega
  unfold load_u32
  rw [if_pos hlen]
  simp only [List.getD_eq_getElem?_getD, h0, h1, h2, h3, Option.getD_some]

theorem load_entry_length_of_take (img : List Nat) (e : WADEntry) (b0 b1 b2 b3 : Nat)
    (h : (img.drop 16).take 4 = [b0, b1, b2, b3]) (he : load_entry img 0 = some e) :
    e.length = b0 + 256 * b1 + 65536 * b2 + 16777216 * b3 := by
  have hl := load_u32_of_take img 16 b0 b1 b2 b3 h
  unfold load_entry at he
  simp only [Nat.mul_zero, Nat.add_zero] at he
  rw [show 8 + 8 = 16 from rfl, hl] at he
  cases h1 : load_u32 img 8 with
  | none => rw [h1] at he; cases he
  | some a =>
    cases h2 : load_u32 img (8 + 4) with
    | none => rw [h1, h2] at he; cases he
    | some b =>
      cases h3 : load_u32 img (8 + 12) with
      | none => rw [h1, h2, h3] at he; cases he
      | some c =>
        rw [h1, h2, h3] at he
        simp only [Option.some.injEq] at he
        rw [← he]

/-! ## Line-wise parsing -/

theorem c_string_line (l rest : List Nat) (h0 : 0 ∉ l) : c_string (l ++ 0 :: rest) = l := by
  unfold c_string
  induction l with
  | nil => simp
  | cons c l ih =>
    have hc : c ≠ 0 := fun hc => h0 (by rw [hc]; exact List.mem_cons_self _ _)
    have h0' : 0 ∉ l := fun hm => h0 (List.mem_cons_of_mem _ hm)
    have hb : (c != 0) = true := by simp [hc]
    show List.takeWhile (fun c => c != 0) (c :: (l ++ 0 :: rest)) = c :: l
    rw [List.takeWhile_cons, hb]
    simp only [if_true]
    rw [ih h0']

theorem get?_append_cons (pre : List Nat) (c : Nat) (rest : List Nat) :
    (pre ++ c :: rest).get? pre.length = some c := by
  induction pre with
  | nil => rfl
  | cons a pre ih => simpa using ih

theorem scan_line_found (t : Nat) (rest : List Nat) (ht : t = 10 ∨ t = 0) :
    ∀ (l pre : List Nat) (fuel : Nat), (10 ∉ l ∧ 0 ∉ l) → l.length + 1 ≤ fuel →
      scan_line (pre ++ l ++ t :: rest) fuel pre.length = .ret (pre.length + l.length) := by
  intro l
  induction l with
  | nil =>
    intro pre fuel _ hfuel
    obtain ⟨fuel, rfl⟩ : ∃ f, fuel = f + 1 := ⟨fuel - 1, by simp at hfuel; omega⟩
    have hget : (pre ++ [] ++ t :: rest).get? pre.length = some t := by
      rw [List.append_nil]
      exact get?_append_cons pre t rest
    rw [scan_line, hget]
    have : ¬ (t ≠ 10 ∧ t ≠ 0) := by
      rcases ht with h | h <;> simp [h]
    simp only [this, if_false]
    rfl
  | cons c l ih =>
    intro pre fuel hclean hfuel
    obtain ⟨fuel, rfl⟩ : ∃ f, fuel = f + 1 := ⟨fuel - 1, by simp at hfuel; omega⟩
    have hget : (pre ++ (c :: l) ++ t :: rest).get? pre.length = some c := by
      rw [List.append_assoc, List.cons_append]
      exact get?_append_cons pre c _
    have hc : c ≠ 10 ∧ c ≠ 0 :=
      ⟨fun h => hclean.1 (by rw [h]; exact List.mem_cons_self _ _),
       fun h => hclean.2 (by rw [h]; exact List.mem_cons_self _ _)⟩
    rw [scan_line, hget]
    dsimp only
    rw [if_pos hc]
    have hrec := ih (pre ++ [c]) fuel
      ⟨fun h => hclean.1 (List.mem_cons_of_mem _ h), fun h => hclean.2 (List.mem_cons_of_mem _ h)⟩
      (by simp only [List.length_cons] at hfuel ⊢; omega)
    have e1 : pre ++ [c] ++ l ++ t :: rest = pre ++ (c :: l) ++ t :: rest := by simp
    have e2 : (pre ++ [c]).length = pre.length + 1 := by simp
    rw [e1, e2] at hrec
    rw [hrec]
    have e3 : pre.length + 1 + l.length = pre.length + (c :: l).length := by
      simp only [List.length_cons]
      omega
    rw [e3]

theorem parse_lines_joinLines {σ : Type} (cb f : List Nat → σ → Outcome σ) :
    ∀ (lines : List (List Nat)) (pre : List Nat) (st : σ) (fuel : Nat),
      (∀ l ∈ lines, 10 ∉ l ∧ 0 ∉ l) →
      (∀ l ∈ lines, ∀ rest s, cb (l ++ 0 :: rest) s = f l s) →
      lines.length + 1 ≤ fuel →
      parse_lines cb fuel (pre ++ joinLines lines) (pre ++ joinLines lines).length pre.length st
        = runLines f lines st := by
  intro lines
  induction lines with
  | nil =>
    intro pre st fuel _ _ hfuel
    obtain ⟨fuel, rfl⟩ : ∃ f, fuel = f + 1 := ⟨fuel - 1, by simp at hfuel; omega⟩
    simp [parse_lines, joinLines, runLines]
  | cons l ls ih =>
    intro pre st fuel hclean hcb hfuel
    obtain ⟨fuel, rfl⟩ : ∃ f, fuel = f + 1 := ⟨fuel - 1, by simp at hfuel; omega⟩
    have hl := hclean l (List.mem_cons_self _ _)
    have hlt : pre.length < (pre ++ joinLines (l :: ls)).length := by
      simp [joinLines]
    have hbuf : pre ++ joinLines (l :: ls) = pre ++ l ++ 10 :: joinLines ls := by
      simp [joinLines]
    have hscan : scan_line (pre ++ joinLines (l :: ls)) ((pre ++ joinLines (l :: ls)).length + 1)
        pre.length = .ret (pre.length + l.length) := by
      rw [hbuf]
      exact scan_line_found 10 _ (Or.inl rfl) l pre _ hl (by simp; omega)
    have hset : (pre ++ joinLines (l :: ls)).set (pre.length + l.length) 0
        = (pre ++ l ++ [0]) ++ joinLines ls := by
      rw [hbuf]
      have : pre.length + l.length = (pre ++ l).length := by simp
      rw [this, List.set_append_right _ _ (Nat.le_refl _)]
      simp
    have hdrop : ((pre ++ l ++ [0]) ++ joinLines ls).drop pre.length = l ++ 0 :: joinLines ls := by
      have : pre ++ l ++ [0] ++ joinLines ls = pre ++ (l ++ 0 :: joinLines ls) := by simp
      rw [this, List.drop_left]
    have hlen : (pre ++ joinLines (l :: ls)).length = ((pre ++ l ++ [0]) ++ joinLines ls).length := by
      simp [joinLines]
    have hnext : pre.length + l.length + 1 = (pre ++ l ++ [0]).length := by
      simp only [List.length_append, List.length_singleton]
    rw [parse_lines, if_pos hlt, hscan]
    simp only [Outcome.bind]
    rw [hset, hdrop, hcb l (List.mem_cons_self _ _), runLines, hlen, hnext]
    congr 1
    funext st1
    exact ih (pre ++ l ++ [0]) st1 fuel
      (fun l' h' => hclean l' (List.mem_cons_of_mem _ h'))
      (fun l' h' => hcb l' (List.mem_cons_of_mem _ h'))
      (by simp at hfuel ⊢; omega)

theorem joinLines_length_ge (lines : List (List Nat)) : lines.length ≤ (joinLines lines).length := by
  induction lines with
  | nil => simp [joinLines]
  | cons l ls ih => simp [joinLines]; omega

theorem parse_file_lines_joinLines {σ : Type} (z : Zlib) (tmp : DecompressionContext)
    (fs : FileSystem) (g : List MountedWAD) (len0 : Nat) (filename : List Nat)
    (cb f : List Nat → σ → Outcome σ) (lines : List (List Nat)) (st : σ)
    (hclean : ∀ l ∈ lines, 10 ∉ l ∧ 0 ∉ l)
    (hcb : ∀ l ∈ lines, ∀ rest s, cb (l ++ 0 :: rest) s = f l s)
    (hread : read_file z tmp fs g filename
      = .ret (some (joinLines lines, (joinLines lines).length))) :
    parse_file_lines z tmp fs g len0 filename cb st = runLines f lines st := by
  unfold parse_file_lines
  rw [hread]
  simp only [Outcome.bind]
  have := parse_lines_joinLines cb f lines [] st ((joinLines lines).length + 1) hclean hcb
    (by have := joinLines_length_ge lines; omega)
  simpa using this

theorem parse_wadlist_line_eq (z : Zlib) (tmp : DecompressionContext) (fs : FileSystem)
    (l rest : List Nat) (g : List MountedWAD) (h0 : 0 ∉ l) :
    parse_wadlist_line z tmp fs (l ++ 0 :: rest) g
      = if isPathLine l then (mount_wad z tmp fs g l).map Prod.snd else .ret g := by
  unfold parse_wadlist_line
  cases l with
  | nil => simp [isPathLine]
  | cons c l =>
    have hc : c ≠ 0 := fun hc => h0 (by rw [hc]; exact List.mem_cons_self _ _)
    have hcs := c_string_line (c :: l) rest h0
    simp only [List.cons_append] at hcs
    by_cases h35 : c = 35
    · simp [isPathLine, h35]
    · simp [isPathLine, h35, hc, hcs]

theorem runLines_filter (z : Zlib) (tmp : DecompressionContext) (fs : FileSystem) :
    ∀ (lines : List (List Nat)) (g : List MountedWAD),
      runLines (fun l g => if isPathLine l then (mount_wad z tmp fs g l).map Prod.snd else .ret g)
          lines g
        = runLines (mount_step z tmp fs) (lines.filter isPathLine) g := by
  intro lines
  induction lines with
  | nil => intro g; rfl
  | cons l ls ih =>
    intro g
    by_cases hp : isPathLine l = true
    · rw [List.filter_cons_of_pos hp, runLines, runLines]
      simp only [hp, if_true, mount_step]
      congr 1
      funext g1
      exact ih g1
    · rw [List.filter_cons_of_neg hp, runLines]
      simp only [hp, Bool.false_eq_true, if_false, Outcome.bind]
      exact ih g

theorem parse_wadlist_joinLines (z : Zlib) (tmp : DecompressionContext) (fs : FileSystem)
    (g g0 : List MountedWAD) (len0 : Nat) (filename : List Nat) (lines : List (List Nat))
    (hclean : ∀ l ∈ lines, 10 ∉ l ∧ 0 ∉ l)
    (hread : read_file z tmp fs g filename
      = .ret (some (joinLines lines, (joinLines lines).length))) :
    parse_file_lines z tmp fs g len0 filename (parse_wadlist_line z tmp fs) g0
      = runLines (mount_step z tmp fs) (lines.filter isPathLine) g0 := by
  rw [← runLines_filter]
  exact parse_file_lines_joinLines z tmp fs g len0 filename _ _ lines g0 hclean
    (fun l hl rest s => parse_wadlist_line_eq z tmp fs l rest s (hclean l hl).2) hread


theorem Mountable_chain (z : Zlib) (tmp : DecompressionContext) (fs : FileSystem) :
    ∀ (ps : List (List Nat)) (g g' : List MountedWAD), Mountable z tmp fs ps g g' →
      runLines (mount_step z tmp fs) ps g = .ret g' ∧
      ∃ ws, g' = ws ++ g ∧ ws.map (fun w => w.filename) = ps.reverse := by
  intro ps
  induction ps with
  | nil =>
    intro g g' h
    have hg : g' = g := h
    subst hg
    exact ⟨rfl, [], rfl, rfl⟩
  | cons p ps ih =>
    intro g g' h
    obtain ⟨g1, hm, hrest⟩ : ∃ g1, mount_wad z tmp fs g p = .ret (true, g1) ∧
      Mountable z tmp fs ps g1 g' := h
    obtain ⟨hrun, ws, hws, hnames⟩ := ih g1 g' hrest
    obtain ⟨header, len, _, hg1⟩ := mount_wad_true z tmp fs g g1 p hm
    refine ⟨?_, ws ++ [{ filename := p, header := header, len := len }], ?_, ?_⟩
    · rw [runLines, mount_step, hm]
      exact hrun
    · rw [hws, hg1]
      simp
    · simp [hnames]

theorem Resolves_append_right (ws post : List MountedWAD) (h : Nat) (w : MountedWAD)
    (e : WADEntry) (hres : Resolves ws h w e) : Resolves (ws ++ post) h w e := by
  obtain ⟨pre, post0, i, hg, hpre, hfm, he⟩ := hres
  exact ⟨pre, post0 ++ post, i, by rw [hg]; simp, hpre, hfm, he⟩

theorem Resolves_append_left (ws post : List MountedWAD) (h : Nat) (w : MountedWAD)
    (e : WADEntry) (hun : Unresolved ws h) (hres : Resolves post h w e) :
    Resolves (ws ++ post) h w e := by
  obtain ⟨pre, post0, i, hg, hpre, hfm, he⟩ := hres
  refine ⟨ws ++ pre, post0, i, by rw [hg]; simp, ?_, hfm, he⟩
  intro w' hw'
  rcases List.mem_append.1 hw' with h1 | h1
  · exact hun w' h1
  · exact hpre w' h1

/-! ## The copy run of a back-reference -/

theorem copy_loop_succ (o : Nat) :
    ∀ (n i : Nat) (st : DecompressionContext × List Nat × Nat),
      copy_loop o (n + 1) i st
        = copy_step o (i + n) (copy_loop o n i st).1 (copy_loop o n i st).2.1
            (copy_loop o n i st).2.2 := by
  intro n
  induction n with
  | zero => intro i st; rfl
  | succ n ih =>
    intro i st
    rw [copy_loop, ih (i + 1), copy_loop]
    have : i + 1 + n = i + (n + 1) := by omega
    rw [this]

/-- The state after `c` iterations of the copy loop started with the write
cursor `w` and the offset `(w - d) mod 8192`. -/
theorem copy_loop_self_ref (self : DecompressionContext) (buffer : List Nat) (L o d : Nat)
    (hw : self.lookback_buffer_write_index < 8192) (hd1 : 1 ≤ d) (hd : d ≤ 8191)
    (ho : o = (self.lookback_buffer_write_index + 8192 - d) % 8192) :
    ∀ c, ∃ e : List Nat, e.length = c ∧
      (copy_loop o c 0 (self, buffer, L)).2.1 = buffer ++ e ∧
      (copy_loop o c 0 (self, buffer, L)).1.lookback_buffer_write_index
        = (self.lookback_buffer_write_index + c) % 8192 ∧
      (∀ t, t < c → c ≤ t + 8192 →
        e[t]? = some ((copy_loop o c 0 (self, buffer, L)).1.lookback_buffer
          ((self.lookback_buffer_write_index + t) % 8192))) ∧
      (∀ x, (∀ t, t < c → x ≠ (self.lookback_buffer_write_index + t) % 8192) →
        (copy_loop o c 0 (self, buffer, L)).1.lookback_buffer x = self.lookback_buffer x) ∧
      (∀ i, i < c → i < d → e[i]? = some (self.lookback_buffer ((o + i) % 8192))) ∧
      (∀ i, i < c → d ≤ i → e[i]? = e[i - d]?) := by
  intro c
  induction c with
  | zero =>
    refine ⟨[], rfl, by simp [copy_loop], ?_, ?_, ?_, ?_, ?_⟩
    · show self.lookback_buffer_write_index = (self.lookback_buffer_write_index + 0) % 8192
      omega
    · intro t ht; omega
    · intro x _; rfl
    · intro i hi; omega
    · intro i hi; omega
  | succ c ih =>
    obtain ⟨e, hlen, hbuf, hidx, hnew, hold, hlt, hge⟩ := ih
    rw [copy_loop_succ]
    generalize copy_loop o c 0 (self, buffer, L) = st at hbuf hidx hnew hold
    obtain ⟨s, b, l⟩ := st
    simp only at hbuf hidx hnew hold
    subst hbuf
    simp only [copy_step, Nat.zero_add]
    rw [and_1fff, and_1fff, hidx]
    -- the byte read at this iteration
    have htmp : (c < d → s.lookback_buffer ((o + c) % 8192)
          = self.lookback_buffer ((o + c) % 8192)) ∧
        (d ≤ c → e[c - d]? = some (s.lookback_buffer ((o + c) % 8192))) := by
      refine ⟨?_, ?_⟩
      · intro hcd
        apply hold
        intro t ht
        rw [ho]
        omega
      · intro hdc
        have := hnew (c - d) (by omega) (by omega)
        rw [this]
        congr 2
        rw [ho]
        omega
    refine ⟨e ++ [s.lookback_buffer ((o + c) % 8192)], by simp [hlen], by simp, ?_, ?_, ?_, ?_, ?_⟩
    · show ((self.lookback_buffer_write_index + c) % 8192 + 1) % 8192 = _
      omega
    · intro t ht hct
      show _ = some (Function.update s.lookback_buffer _ _ _)
      rcases Nat.lt_or_ge t c with htc | htc
      · have hne : (self.lookback_buffer_write_index + t) % 8192
            ≠ (self.lookback_buffer_write_index + c) % 8192 := by omega
        rw [Function.update_noteq hne, List.getElem?_append_left (by omega)]
        exact hnew t htc (by omega)
      · have htc' : t = c := by omega
        subst htc'
        rw [Function.update_same, List.getElem?_append_right (by omega), hlen]
        simp
    · intro x hx
      show Function.update s.lookback_buffer _ _ x = _
      have hne : x ≠ (self.lookback_buffer_write_index + c) % 8192 := hx c (by omega)
      rw [Function.update_noteq hne]
      exact hold x (fun t ht => hx t (by omega))
    · intro i hi hid
      rcases Nat.lt_or_ge i c with hic | hic
      · rw [List.getElem?_append_left (by omega)]
        exact hlt i hic hid
      · have hic' : i = c := by omega
        subst hic'
        rw [List.getElem?_append_right (by omega), hlen, ← htmp.1 hid]
        simp
    · intro i hi hdi
      have hid : i - d < c := by omega
      have hprev : (e ++ [s.lookback_buffer ((o + c) % 8192)])[i - d]? = e[i - d]? :=
        List.getElem?_append_left (by omega)
      rw [hprev]
      rcases Nat.lt_or_ge i c with hic | hic
      · rw [List.getElem?_append_left (by omega)]
        exact hge i hic hdi
      · have hic' : i = c := by omega
        subst hic'
        rw [List.getElem?_append_right (by omega), hlen, htmp.2 hdi]
        simp

/-! ## Composition of bit reads -/

theorem readVal_add (bytes : List Nat) :
    ∀ (n m k : Nat), readVal bytes k (n + m) = readVal bytes k n * 2 ^ m + readVal bytes (k + n) m := by
  intro n
  induction n with
  | zero => intro m k; simp [readVal]
  | succ n ih =>
    intro m k
    have e1 : n + 1 + m = (n + m) + 1 := by omega
    have e2 : k + (n + 1) = k + 1 + n := by omega
    rw [e1, readVal, readVal, ih m (k + 1), e2, pow_add]
    ring

/-! ## The container layout -/

theorem load_u32_eq_le32 (image : List Nat) (off : Nat) (h : off + 4 ≤ image.length) :
    load_u32 image off = some (le32 image off) := by
  unfold load_u32 le32
  rw [if_pos h]

theorem load_entry_eq_le32 (image : List Nat) (i : Nat) (h : 8 + 16 * i + 16 ≤ image.length) :
    load_entry image i
      = some { name := le32 image (8 + 16 * i), start_offset := le32 image (12 + 16 * i),
               length := le32 image (16 + 16 * i),
               compressed_length := le32 image (20 + 16 * i) } := by
  unfold load_entry
  rw [load_u32_eq_le32 image (8 + 16 * i) (by omega),
    load_u32_eq_le32 image (8 + 16 * i + 4) (by omega),
    load_u32_eq_le32 image (8 + 16 * i + 8) (by omega),
    load_u32_eq_le32 image (8 + 16 * i + 12) (by omega)]
  have e1 : 8 + 16 * i + 4 = 12 + 16 * i := by omega
  have e2 : 8 + 16 * i + 8 = 16 + 16 * i := by omega
  have e3 : 8 + 16 * i + 12 = 20 + 16 * i := by omega
  rw [e1, e2, e3]

theorem le32_store_u32 (v : Nat) (rest : List Nat) (hv : v < 4294967296) :
    le32 (store_u32 v ++ rest) 0 = v := by
  simp only [le32, store_u32, List.cons_append, List.nil_append, List.getD_cons_zero,
    List.getD_cons_succ, Nat.zero_add]
  omega

theorem le32_append (pre rest : List Nat) (off : Nat) :
    le32 (pre ++ rest) (pre.length + off) = le32 rest off := by
  have h : ∀ j, (pre ++ rest).getD (pre.length + j) 0 = rest.getD j 0 := by
    intro j
    rw [List.getD_eq_getElem?_getD, List.getD_eq_getElem?_getD,
      List.getElem?_append_right (by omega)]
    congr 2
    omega
  have h1 := h (off + 1)
  have h2 := h (off + 2)
  have h3 := h (off + 3)
  rw [← Nat.add_assoc] at h1 h2 h3
  unfold le32
  rw [h off, h1, h2, h3]

theorem entryTable_length (es : List WADEntry) : (entryTable es).length = 16 * es.length := by
  induction es with
  | nil => rfl
  | cons e es ih =>
    simp only [entryTable, List.length_append, ih, WADEntry.bytes, store_u32, List.length_cons,
      List.length_nil]
    omega


theorem le32_entry_bytes (e : WADEntry) (rest : List Nat) (he : e.Fits) :
    le32 (e.bytes ++ rest) 0 = e.name ∧ le32 (e.bytes ++ rest) 4 = e.start_offset ∧
    le32 (e.bytes ++ rest) 8 = e.length ∧ le32 (e.bytes ++ rest) 12 = e.compressed_length := by
  obtain ⟨h1, h2, h3, h4⟩ := he
  refine ⟨?_, ?_, ?_, ?_⟩
  · have := le32_store_u32 e.name
      (store_u32 e.start_offset ++ store_u32 e.length ++ store_u32 e.compressed_length ++ rest) h1
    simpa [WADEntry.bytes, List.append_assoc] using this
  · have := le32_append (store_u32 e.name)
      (store_u32 e.start_offset ++ (store_u32 e.length ++ store_u32 e.compressed_length ++ rest)) 0
    rw [le32_store_u32 _ _ h2] at this
    simpa [WADEntry.bytes, List.append_assoc, store_u32] using this
  · have := le32_append (store_u32 e.name ++ store_u32 e.start_offset)
      (store_u32 e.length ++ (store_u32 e.compressed_length ++ rest)) 0
    rw [le32_store_u32 _ _ h3] at this
    simpa [WADEntry.bytes, List.append_assoc, store_u32] using this
  · have := le32_append (store_u32 e.name ++ store_u32 e.start_offset ++ store_u32 e.length)
      (store_u32 e.compressed_length ++ rest) 0
    rw [le32_store_u32 _ _ h4] at this
    simpa [WADEntry.bytes, List.append_assoc, store_u32] using this

theorem le32_entryTable :
    ∀ (es : List WADEntry) (rest : List Nat) (i : Nat) (e : WADEntry),
      (∀ e ∈ es, e.Fits) → es[i]? = some e →
      le32 (entryTable es ++ rest) (16 * i) = e.name ∧
      le32 (entryTable es ++ rest) (16 * i + 4) = e.start_offset ∧
      le32 (entryTable es ++ rest) (16 * i + 8) = e.length ∧
      le32 (entryTable es ++ rest) (16 * i + 12) = e.compressed_length := by
  intro es
  induction es with
  | nil => intro rest i e _ h; simp at h
  | cons e0 es ih =>
    intro rest i e hfit h
    cases i with
    | zero =>
      simp only [List.getElem?_cons_zero, Option.some.injEq] at h
      subst h
      have := le32_entry_bytes e0 (entryTable es ++ rest) (hfit e0 (List.mem_cons_self _ _))
      simpa [entryTable, List.append_assoc] using this
    | succ i =>
      simp only [List.getElem?_cons_succ] at h
      have hrec := ih rest i e (fun e' he' => hfit e' (List.mem_cons_of_mem _ he')) h
      have hb : e0.bytes.length = 16 := rfl
      have hshift : ∀ off, le32 (entryTable (e0 :: es) ++ rest) (16 * (i + 1) + off)
          = le32 (entryTable es ++ rest) (16 * i + off) := by
        intro off
        have := le32_append e0.bytes (entryTable es ++ rest) (16 * i + off)
        rw [hb] at this
        rw [← this]
        simp only [entryTable, List.append_assoc]
        congr 1
        omega
      have h0 := hshift 0
      simp only [Nat.add_zero] at h0
      rw [h0, hshift 4, hshift 8, hshift 12]
      exact hrec

theorem archiveImage_le32 (version : Nat) (entries : List WADEntry) (payload : List Nat)
    (hv : version < 4294967296) (hn : entries.length < 4294967296)
    (hfit : ∀ e ∈ entries, e.Fits) :
    le32 (archiveImage version entries payload) 0 = version ∧
    le32 (archiveImage version entries payload) 4 = entries.length ∧
    (∀ i e, entries[i]? = some e →
      le32 (archiveImage version entries payload) (8 + 16 * i) = e.name ∧
      le32 (archiveImage version entries payload) (12 + 16 * i) = e.start_offset ∧
      le32 (archiveImage version entries payload) (16 + 16 * i) = e.length ∧
      le32 (archiveImage version entries payload) (20 + 16 * i) = e.compressed_length) ∧
    (archiveImage version entries payload).drop (8 + 16 * entries.length) = payload := by
  refine ⟨?_, ?_, ?_, ?_⟩
  · have := le32_store_u32 version (store_u32 entries.length ++ entryTable entries ++ payload) hv
    simpa [archiveImage, List.append_assoc] using this
  · have := le32_append (store_u32 version)
      (store_u32 entries.length ++ (entryTable entries ++ payload)) 0
    rw [le32_store_u32 _ _ hn] at this
    simpa [archiveImage, List.append_assoc, store_u32] using this
  · intro i e hi
    have hrec := le32_entryTable entries payload i e hfit hi
    have hshift : ∀ off, le32 (archiveImage version entries payload) (8 + off)
        = le32 (entryTable entries ++ payload) off := by
      intro off
      have := le32_append (store_u32 version ++ store_u32 entries.length)
        (entryTable entries ++ payload) off
      simpa [archiveImage, List.append_assoc, store_u32] using this
    have e1 : 12 + 16 * i = 8 + (16 * i + 4) := by omega
    have e2 : 16 + 16 * i = 8 + (16 * i + 8) := by omega
    have e3 : 20 + 16 * i = 8 + (16 * i + 12) := by omega
    rw [e1, e2, e3, hshift, hshift, hshift, hshift]
    exact hrec
  · have hl : (store_u32 version ++ store_u32 entries.length ++ entryTable entries).length
        = 8 + 16 * entries.length := by
      simp only [List.length_append, entryTable_length, store_u32, List.length_cons,
        List.length_nil]
    unfold archiveImage
    rw [← hl, List.drop_left]

/-! ## Runs over a token sequence -/

theorem unpack_tokens_run (self : DecompressionContext) (buf : List Nat) (buf_len : Nat)
    (toks : List Token) (w w' : Window) (out : List Nat) (fuel : Nat)
    (hwf : ∀ t ∈ toks, t.WellFormed) (hbits : BitsAt buf 0 (tokenBits toks))
    (hin : (tokenBits toks).length ≤ 8 * buf.length) (hbuf : buf.length ≤ 4294967296)
    (hag : Agrees w (DecompressionContext_init self buf buf_len))
    (hexp : expandFrom toks w [] = some (w', out)) (hlen : out.length < 4294967296)
    (hfuel : toks.length + 1 ≤ fuel) :
    ∃ base', unpack_loop fuel (DecompressionContext_init self buf buf_len) [] out.length
        = .ret (readerAt base' (tokenBits toks).length, out) ∧ base'.buf = buf := by
  obtain ⟨base', hrun, _, hb⟩ := unpack_loop_tokens toks fuel
    (DecompressionContext_init self buf buf_len) 0 w [] w' out out.length hfuel hwf hbits
    (by show 0 + (tokenBits toks).length ≤ 8 * buf.length; omega) hbuf hag hexp (by simp) hlen
  rw [← readerAt_zero, Nat.zero_add] at hrun
  exact ⟨base', hrun, hb⟩

theorem expandCopy_total (o : Nat) :
    ∀ (n i : Nat) (w : Window) (out : List Nat), (∀ x, ∃ b, w.lookback x = some b) →
      ∃ w' out', expandCopy o n i w out = some (w', out') ∧ out'.length = out.length + n ∧
        ∀ x, ∃ b, w'.lookback x = some b := by
  intro n
  induction n with
  | zero => intro i w out h; exact ⟨w, out, rfl, rfl, h⟩
  | succ n ih =>
    intro i w out h
    obtain ⟨b, hb⟩ := h ((o + i) % 8192)
    have htot : ∀ x, ∃ b', (w.emit b).lookback x = some b' := by
      intro x
      by_cases hx : x = w.cursor
      · exact ⟨b, by simp [Window.emit, hx]⟩
      · obtain ⟨b', hb'⟩ := h x
        exact ⟨b', by simp [Window.emit, Function.update_noteq hx, hb']⟩
    obtain ⟨w', out', hrun, hl, ht⟩ := ih (i + 1) (w.emit b) (out ++ [b]) htot
    refine ⟨w', out', ?_, ?_, ht⟩
    · rw [expandCopy, hb]
      exact hrun
    · rw [hl, List.length_append, List.length_singleton]
      omega

theorem expandFrom_total :
    ∀ (toks : List Token) (w : Window) (out : List Nat), (∀ x, ∃ b, w.lookback x = some b) →
      ∃ w' out', expandFrom toks w out = some (w', out') ∧
        out'.length = out.length + tokensSize toks := by
  intro toks
  induction toks with
  | nil => intro w out _; exact ⟨w, out, rfl, rfl⟩
  | cons t ts ih =>
    intro w out h
    have hstep : ∃ w1 out1, expandToken t w out = some (w1, out1) ∧
        out1.length = out.length + t.size ∧ ∀ x, ∃ b, w1.lookback x = some b := by
      cases t with
      | literal b =>
        refine ⟨w.emit b, out ++ [b], rfl, by simp [Token.size], ?_⟩
        intro x
        by_cases hx : x = w.cursor
        · exact ⟨b, by simp [Window.emit, hx]⟩
        · obtain ⟨b', hb'⟩ := h x
          exact ⟨b', by simp [Window.emit, Function.update_noteq hx, hb']⟩
      | backref o c => exact expandCopy_total o c 0 w out h
    obtain ⟨w1, out1, h1, hl1, ht1⟩ := hstep
    obtain ⟨w', out', h2, hl2⟩ := ih w1 out1 ht1
    refine ⟨w', out', ?_, ?_⟩
    · rw [expandFrom, h1]
      exact h2
    · rw [hl2, hl1, tokensSize]
      omega

theorem tokens_bounds :
    ∀ (toks : List Token), (∀ t ∈ toks, t.WellFormed) →
      toks.length ≤ tokensSize toks ∧ (tokenBits toks).length ≤ 9 * tokensSize toks := by
  intro toks
  induction toks with
  | nil => intro _; exact ⟨Nat.le_refl _, Nat.le_refl _⟩
  | cons t ts ih =>
    intro hwf
    obtain ⟨h1, h2⟩ := ih (fun t' ht' => hwf t' (List.mem_cons_of_mem _ ht'))
    have ht := hwf t (List.mem_cons_self _ _)
    cases t with
    | literal b =>
      simp only [tokensSize, Token.size, tokenBits, Token.bits, List.length_cons,
        List.length_append, natBits_length]
      omega
    | backref o c =>
      obtain ⟨_, hc3, _⟩ : o < 8192 ∧ 3 ≤ c ∧ c ≤ 18 := ht
      simp only [tokensSize, Token.size, tokenBits, Token.bits, List.length_cons,
        List.length_append, natBits_length]
      omega

theorem unpack_loop_fuel_mono :
    ∀ (fuel : Nat) (self : DecompressionContext) (buffer : List Nat) (L : Nat)
      (r : DecompressionContext × List Nat),
      unpack_loop fuel self buffer L = .ret r →
      ∀ fuel', fuel ≤ fuel' → unpack_loop fuel' self buffer L = .ret r := by
  intro fuel
  induction fuel with
  | zero => intro self buffer L r h; cases h
  | succ fuel ih =>
    intro self buffer L r h fuel' hle
    obtain ⟨f', rfl⟩ : ∃ f', fuel' = f' + 1 := ⟨fuel' - 1, by omega⟩
    rw [unpack_loop] at h ⊢
    by_cases h0 : L = 0
    · rw [if_pos h0] at h ⊢
      exact h
    · rw [if_neg h0] at h ⊢
      obtain ⟨st, hst, hrest⟩ := (Outcome.bind_eq_ret _ _ _).1 h
      rw [hst]
      exact ih st.1 st.2.1 st.2.2 r hrest f' (by omega)

/-! ## The character table of a font -/

theorem sentinel_loop_apply :
    ∀ (n i : Nat) (char_offset : Nat → Nat) (x : Nat),
      sentinel_loop n i char_offset x
        = if i ≤ x ∧ x < i + n then 0xFFFFFFFF else char_offset x := by
  intro n
  induction n with
  | zero =>
    intro i off x
    have : ¬ (i ≤ x ∧ x < i + 0) := by omega
    rw [sentinel_loop, if_neg this]
  | succ n ih =>
    intro i off x
    rw [sentinel_loop, ih]
    by_cases h1 : i + 1 ≤ x ∧ x < i + 1 + n
    · rw [if_pos h1, if_pos (by omega)]
    · rw [if_neg h1]
      by_cases h2 : x = i
      · rw [h2, Function.update_same, if_pos (by omega)]
      · rw [Function.update_noteq h2, if_neg (by omega)]

theorem glyph_step_char_offset (e : PixelDataEntry) (font : InMemoryFont) (total c : Nat)
    (hc : e.character ≠ c) :
    (glyph_step e font total).1.char_offset c = font.char_offset c := by
  unfold glyph_step
  by_cases h : e.width ≠ font.max_char_width ∨ e.height ≠ font.max_char_height
  · simp only [if_pos h]
    exact Function.update_noteq (Ne.symm hc) _ _
  · simp only [if_neg h]
    exact Function.update_noteq (Ne.symm hc) _ _

theorem glyph_loop_char_offset (chars : List PixelDataEntry) (c : Nat) :
    ∀ (n i : Nat) (st st' : InMemoryFont × Nat),
      glyph_loop chars n i st = .ret st' →
      (∀ j e, i ≤ j → j < i + n → chars.get? j = some e → e.character ≠ c) →
      st'.1.char_offset c = st.1.char_offset c := by
  intro n
  induction n with
  | zero =>
    intro i st st' h _
    simp only [glyph_loop, Outcome.ret.injEq] at h
    rw [← h]
  | succ n ih =>
    intro i st st' h hno
    rw [glyph_loop] at h
    cases hg : chars.get? i with
    | none => rw [hg] at h; cases h
    | some e =>
      rw [hg] at h
      have := ih (i + 1) _ st' h (fun j e' h1 h2 h3 => hno j e' (by omega) (by omega) h3)
      rw [this]
      exact glyph_step_char_offset e st.1 st.2 c (hno i e (Nat.le_refl _) (by omega) hg)

theorem in_memory_font_new_char_offset (chars : List PixelDataEntry) (count : Nat)
    (encoded_pixel_data : List Nat) (codepage : Nat) (font : InMemoryFont) (c : Nat)
    (h : in_memory_font_new chars count encoded_pixel_data codepage false = .ret font)
    (hno : ∀ i e, i < count → chars.get? i = some e → e.character ≠ c) :
    font.char_offset c = if c < 255 then 0xFFFFFFFF else 0 := by
  unfold in_memory_font_new at h
  cases h0 : chars.get? 0 with
  | none => rw [h0] at h; cases h
  | some first =>
    rw [h0] at h
    dsimp only at h
    obtain ⟨st, hst, h⟩ := (Outcome.bind_eq_ret _ _ _).1 h
    obtain ⟨pixels, _, h⟩ := (Outcome.bind_eq_ret _ _ _).1 h
    simp only [Bool.false_eq_true, if_false, Outcome.ret.injEq] at h
    rw [← h]
    show st.1.char_offset c = _
    rw [glyph_loop_char_offset chars c count 0 _ st hst
      (fun j e _ h2 h3 => hno j e (by omega) h3)]
    dsimp only
    rw [sentinel_loop_apply]
    by_cases hc : c < 255
    · rw [if_pos hc, if_pos (by omega)]
    · rw [if_neg hc, if_neg (by omega)]

set_option maxRecDepth 100000 in
theorem font26_values :
    (in_memory_font_new chars26 1 pixels26 0 false).map
        (fun font => (font.char_offset 26, font.char_offset 254, font.char_offset 255))
      = .ret (0, 0xFFFFFFFF, 0) ∧
    (in_memory_font_new chars26 1 pixels26 0 false).map
        (fun font => (font.char_width 26, font.char_height 26, font.char_xspacing 26))
      = .ret (3, 5, 1) ∧
    (in_memory_font_new chars26 1 pixels26 0 false).map
        (fun font => (font.char_width 255, font.char_height 255, font.char_xspacing 255))
      = .ret (0, 0, 0) := by
  decide

/-! ## Stores of the resolver -/

theorem Kept_refl (len : Option SizePtr) (b : Nat) (m : Memory) : Kept len b m m :=
  ⟨rfl, Nat.le_refl _, fun _ _ => ⟨fun _ h => h, fun _ _ _ _ h _ => h⟩⟩

theorem Kept_trans (len : Option SizePtr) (b : Nat) (m1 m2 m3 : Memory)
    (h12 : Kept len b m1 m2) (h23 : Kept len b m2 m3) : Kept len b m1 m3 := by
  obtain ⟨g12, l12, k12⟩ := h12
  obtain ⟨g23, l23, k23⟩ := h23
  refine ⟨g23.trans g12, Nat.le_trans l12 l23, ?_⟩
  intro addr ha
  exact ⟨fun d h => (k23 addr ha).1 d ((k12 addr ha).1 d h),
    fun f h l n hw hne => (k23 addr ha).2 f h l n ((k12 addr ha).2 f h l n hw hne) hne⟩

theorem Kept_mono (len : Option SizePtr) (b b' : Nat) (m m' : Memory) (hb : b ≤ b')
    (h : Kept len b' m m') : Kept len b m m' :=
  ⟨h.1, h.2.1, fun addr ha => h.2.2 addr (Nat.lt_of_lt_of_le ha hb)⟩

theorem get?_set_ne (l : List Object) (a addr : Nat) (x : Object) (h : addr ≠ a) :
    (l.set a x).get? addr = l.get? addr := by
  simp [List.get?_eq_getElem?, List.getElem?_set_ne (Ne.symm h)]

theorem malloc_Kept (len : Option SizePtr) (b : Nat) (m : Memory) (n : Nat) :
    Kept len b m (m.malloc n).2 ∧ (m.malloc n).1 = m.objects.length ∧
      (m.malloc n).2.objects.length = m.objects.length + 1 := by
  have hget : ∀ addr obj, m.objects.get? addr = some obj →
      (m.objects ++ [Object.bytes (List.replicate n 0)]).get? addr = some obj := by
    intro addr obj h
    have hlt : addr < m.objects.length := by
      rw [List.get?_eq_getElem?] at h
      exact (List.getElem?_eq_some.1 h).1
    rw [List.get?_eq_getElem?, List.getElem?_append_left hlt, ← List.get?_eq_getElem?]
    exact h
  refine ⟨⟨rfl, ?_, ?_⟩, rfl, ?_⟩
  · show m.objects.length ≤ (m.objects ++ [_]).length
    simp
  · intro addr _
    exact ⟨fun d h => hget addr _ h, fun f h l n hw _ => hget addr _ hw⟩
  · show (m.objects ++ [_]).length = _
    simp

theorem store_bytes_Kept (len : Option SizePtr) (b : Nat) (m m' : Memory) (a : Nat)
    (data : List Nat) (hb : b ≤ a) (h : m.store_bytes a data = .ret m') :
    Kept len b m m' ∧ m'.objects.length = m.objects.length := by
  unfold Memory.store_bytes at h
  cases hobj : m.objects.get? a with
  | none => rw [hobj] at h; cases h
  | some obj =>
    rw [hobj] at h
    cases obj with
    | size_t v => cases h
    | wad f hd l n => cases h
    | bytes old =>
      dsimp only at h
      by_cases hfit : data.length ≤ old.length
      · rw [if_pos hfit] at h
        simp only [Outcome.ret.injEq] at h
        subst h
        refine ⟨⟨rfl, ?_, ?_⟩, ?_⟩
        · show m.objects.length ≤ (m.objects.set a _).length
          simp
        · intro addr ha
          have hne : addr ≠ a := by omega
          exact ⟨fun d h => by rw [← h]; exact get?_set_ne _ _ _ _ hne,
            fun f hd l n hw _ => by rw [← hw]; exact get?_set_ne _ _ _ _ hne⟩
        · show (m.objects.set a _).length = _
          simp
      · rw [if_neg hfit] at h
        cases h

theorem store_size_Kept (len : Option SizePtr) (b : Nat) (m m' : Memory) (v : Nat)
    (h : m.store_size len v = .ret m') :
    Kept len b m m' ∧ m'.objects.length = m.objects.length := by
  unfold Memory.store_size at h
  cases len with
  | none => cases h
  | some p =>
    cases p with
    | var a =>
      dsimp only at h
      cases hobj : m.objects.get? a with
      | none => rw [hobj] at h; cases h
      | some obj =>
        rw [hobj] at h
        cases obj with
        | bytes d => cases h
        | wad f hd l n => cases h
        | size_t old =>
          simp only [Outcome.ret.injEq] at h
          subst h
          refine ⟨⟨rfl, ?_, ?_⟩, ?_⟩
          · show m.objects.length ≤ (m.objects.set a _).length
            simp
          · intro addr _
            refine ⟨?_, ?_⟩
            · intro d hd
              have hne : addr ≠ a := by
                intro hc
                rw [hc, hobj] at hd
                cases hd
              rw [← hd]
              exact get?_set_ne _ _ _ _ hne
            · intro f hd l n hw _
              have hne : addr ≠ a := by
                intro hc
                rw [hc, hobj] at hw
                cases hw
              rw [← hw]
              exact get?_set_ne _ _ _ _ hne
          · show (m.objects.set a _).length = _
            simp
    | wad_len a =>
      dsimp only at h
      cases hobj : m.objects.get? a with
      | none => rw [hobj] at h; cases h
      | some obj =>
        rw [hobj] at h
        cases obj with
        | bytes d => cases h
        | size_t old => cases h
        | wad f0 h0 l0 n0 =>
          simp only [Outcome.ret.injEq] at h
          subst h
          refine ⟨⟨rfl, ?_, ?_⟩, ?_⟩
          · show m.objects.length ≤ (m.objects.set a _).length
            simp
          · intro addr _
            refine ⟨?_, ?_⟩
            · intro d hd
              have hne : addr ≠ a := by
                intro hc
                rw [hc, hobj] at hd
                cases hd
              rw [← hd]
              exact get?_set_ne _ _ _ _ hne
            · intro f hd l n hw hlen
              have hne : addr ≠ a := by
                intro hc
                exact hlen (by rw [hc])
              rw [← hw]
              exact get?_set_ne _ _ _ _ hne
          · show (m.objects.set a _).length = _
            simp


theorem read_wad_entry_mem_Kept (z : Zlib) (tmp : DecompressionContext) (m m' : Memory)
    (image : List Nat) (entry : WADEntry) (len : Option SizePtr) (p : Nat)
    (h : read_wad_entry_mem z tmp m image entry len = .ret (p, m')) :
    Kept len m.objects.length m m' := by
  unfold read_wad_entry_mem at h
  dsimp only at h
  by_cases hne : entry.length ≠ entry.compressed_length
  · rw [if_pos hne] at h
    by_cases hflag : entry.length &&& 0x80000000 ≠ 0
    · rw [if_pos hflag] at h
      obtain ⟨m1, h1, h⟩ := (Outcome.bind_eq_ret _ _ _).1 h
      obtain ⟨m2, h2, h⟩ := (Outcome.bind_eq_ret _ _ _).1 h
      obtain ⟨k1, l1⟩ := store_size_Kept len m.objects.length m m1 _ h1
      obtain ⟨k2, l2⟩ := store_size_Kept len m.objects.length m1 m2 _ h2
      cases hfirst : (image.drop entry.start_offset).get? 0 with
      | none => rw [hfirst] at h; cases h
      | some first =>
        rw [hfirst] at h
        dsimp only at h
        by_cases h78 : first ≠ 0x78
        · rw [if_pos h78] at h; cases h
        rw [if_neg h78] at h
        by_cases hinit : z.inflateInit ≠ 0
        · rw [if_pos hinit] at h; cases h
        rw [if_neg hinit] at h
        obtain ⟨m3, h3, h⟩ := (Outcome.bind_eq_ret _ _ _).1 h
        obtain ⟨ka, ha, _⟩ := malloc_Kept len m.objects.length m2 (entry.length &&& 0x7FFFFFFF)
        obtain ⟨k3, _⟩ := store_bytes_Kept len m.objects.length _ m3 _ _
          (by rw [ha, l2, l1]) h3
        by_cases hbad : (z.inflate (image.drop entry.start_offset) entry.compressed_length
            (entry.length &&& 0x7FFFFFFF)).res ≠ 1
            ∨ (z.inflate (image.drop entry.start_offset) entry.compressed_length
              (entry.length &&& 0x7FFFFFFF)).total_out ≠ entry.length &&& 0x7FFFFFFF
        · rw [if_pos hbad] at h; cases h
        · rw [if_neg hbad] at h
          simp only [Outcome.ret.injEq, Prod.mk.injEq] at h
          rw [← h.2]
          exact Kept_trans _ _ _ _ _ (Kept_trans _ _ _ _ _ (Kept_trans _ _ _ _ _ k1 k2) ka) k3
    · rw [if_neg hflag] at h
      obtain ⟨m1, h1, h⟩ := (Outcome.bind_eq_ret _ _ _).1 h
      obtain ⟨r, _, h⟩ := (Outcome.bind_eq_ret _ _ _).1 h
      obtain ⟨m2, h2, h⟩ := (Outcome.bind_eq_ret _ _ _).1 h
      obtain ⟨ka, ha, _⟩ := malloc_Kept len m.objects.length m entry.length
      obtain ⟨k1, l1⟩ := store_size_Kept len m.objects.length _ m1 _ h1
      obtain ⟨k2, _⟩ := store_bytes_Kept len m.objects.length m1 m2 _ _ (by rw [ha]) h2
      simp only [Outcome.ret.injEq, Prod.mk.injEq] at h
      rw [← h.2]
      exact Kept_trans _ _ _ _ _ (Kept_trans _ _ _ _ _ ka k1) k2
  · rw [if_neg hne] at h
    obtain ⟨m1, h1, h⟩ := (Outcome.bind_eq_ret _ _ _).1 h
    obtain ⟨ka, ha, _⟩ := malloc_Kept len m.objects.length m entry.length
    obtain ⟨k1, l1⟩ := store_size_Kept len m.objects.length _ m1 _ h1
    by_cases hin : entry.length = 0 ∨ entry.start_offset + entry.length ≤ image.length
    · rw [if_pos hin] at h
      obtain ⟨m2, h2, h⟩ := (Outcome.bind_eq_ret _ _ _).1 h
      obtain ⟨k2, _⟩ := store_bytes_Kept len m.objects.length m1 m2 _ _ (by rw [ha]) h2
      simp only [Outcome.ret.injEq, Prod.mk.injEq] at h
      rw [← h.2]
      exact Kept_trans _ _ _ _ _ (Kept_trans _ _ _ _ _ ka k1) k2
    · rw [if_neg hin] at h
      cases h

theorem scan_entries_mem_Kept (z : Zlib) (tmp : DecompressionContext) (m : Memory)
    (image : List Nat) (name : Nat) (len : Option SizePtr) :
    ∀ (n i : Nat) (r : Option Nat × Memory),
      scan_entries_mem z tmp m image name len n i = .ret r →
      Kept len m.objects.length m r.2 := by
  intro n
  induction n with
  | zero =>
    intro i r h
    simp only [scan_entries_mem, Outcome.ret.injEq] at h
    rw [← h]
    exact Kept_refl _ _ _
  | succ n ih =>
    intro i r h
    rw [scan_entries_mem] at h
    cases hname : load_u32 image (8 + 16 * i) with
    | none => rw [hname] at h; cases h
    | some entry_name =>
      rw [hname] at h
      dsimp only at h
      by_cases heq : entry_name = name
      · rw [if_pos heq] at h
        cases hentry : load_entry image i with
        | none => rw [hentry] at h; cases h
        | some entry =>
          rw [hentry] at h
          dsimp only at h
          obtain ⟨r1, h1, h⟩ := (Outcome.bind_eq_ret _ _ _).1 h
          simp only [Outcome.ret.injEq] at h
          rw [← h]
          exact read_wad_entry_mem_Kept z tmp m r1.2 image entry len r1.1 h1
      · rw [if_neg heq] at h
        exact ih (i + 1) r h

theorem read_wad_chain_mem_Kept (z : Zlib) (tmp : DecompressionContext) (name : Nat)
    (len : Option SizePtr) :
    ∀ (fuel : Nat) (m : Memory) (wad : Option Nat) (r : Option Nat × Memory),
      read_wad_chain_mem z tmp name len fuel m wad = .ret r →
      Kept len m.objects.length m r.2 := by
  intro fuel
  induction fuel with
  | zero => intro m wad r h; cases h
  | succ fuel ih =>
    intro m wad r h
    cases wad with
    | none =>
      simp only [read_wad_chain_mem, Outcome.ret.injEq] at h
      rw [← h]
      exact Kept_refl _ _ _
    | some wad =>
      rw [read_wad_chain_mem] at h
      cases hnode : m.objects.get? wad with
      | none => rw [hnode] at h; cases h
      | some obj =>
        rw [hnode] at h
        cases obj with
        | bytes d => cases h
        | size_t v => cases h
        | wad filename header wlen next =>
          dsimp only at h
          cases himg : m.objects.get? header with
          | none => rw [himg] at h; cases h
          | some obj2 =>
            rw [himg] at h
            cases obj2 with
            | size_t v => cases h
            | wad f2 h2 l2 n2 => cases h
            | bytes image =>
              dsimp only at h
              cases hn : load_u32 image 4 with
              | none => rw [hn] at h; cases h
              | some nfiles =>
                rw [hn] at h
                dsimp only at h
                obtain ⟨r1, h1, h⟩ := (Outcome.bind_eq_ret _ _ _).1 h
                have k1 := scan_entries_mem_Kept z tmp m image name len nfiles 0 r1 h1
                cases hres : r1.1 with
                | some result =>
                  rw [hres] at h
                  simp only [Outcome.ret.injEq] at h
                  rw [← h]
                  exact k1
                | none =>
                  rw [hres] at h
                  have k2 := ih r1.2 next r h
                  exact Kept_trans _ _ _ _ _ k1 (Kept_mono _ _ _ _ _ k1.2.1 k2)

theorem read_wad_file_mem_Kept (z : Zlib) (tmp : DecompressionContext) (m : Memory)
    (filename : List Nat) (len : Option SizePtr) (r : Option Nat × Memory)
    (h : read_wad_file_mem z tmp m filename len = .ret r) :
    Kept len m.objects.length m r.2 :=
  read_wad_chain_mem_Kept z tmp _ len _ m _ r h

theorem read_file_mem_Kept (z : Zlib) (tmp : DecompressionContext) (fs : FileSystem)
    (m : Memory) (filename : List Nat) (len : Option SizePtr) (r : Option Nat × Memory)
    (h : read_file_mem z tmp fs m filename len = .ret r) :
    Kept len m.objects.length m r.2 := by
  unfold read_file_mem at h
  obtain ⟨r1, h1, h⟩ := (Outcome.bind_eq_ret _ _ _).1 h
  have k1 := read_wad_file_mem_Kept z tmp m filename len r1 h1
  cases hres : r1.1 with
  | some buf =>
    rw [hres] at h
    simp only [Outcome.ret.injEq] at h
    rw [← h]
    exact k1
  | none =>
    rw [hres] at h
    dsimp only at h
    cases hf : fs.fopen filename with
    | none =>
      rw [hf] at h
      simp only [Outcome.ret.injEq] at h
      rw [← h]
      exact k1
    | some contents =>
      rw [hf] at h
      dsimp only at h
      obtain ⟨m1, hs, h⟩ := (Outcome.bind_eq_ret _ _ _).1 h
      obtain ⟨ka, ha, _⟩ := malloc_Kept len m.objects.length r1.2
        (contents.length + fs.unread filename)
      obtain ⟨k2, _⟩ := store_bytes_Kept len m.objects.length _ m1 _ _
        (by rw [ha]; exact k1.2.1) hs
      have k12 := Kept_trans _ _ _ _ _ (Kept_trans _ _ _ _ _ k1 ka) k2
      by_cases hshort : (contents.take (contents.length + fs.unread filename)).length
          ≠ contents.length + fs.unread filename
      · rw [if_pos hshort] at h; cases h
      · rw [if_neg hshort] at h
        cases len with
        | none =>
          simp only [Outcome.ret.injEq] at h
          rw [← h]
          exact k12
        | some p =>
          dsimp only at h
          obtain ⟨m2, h2, h⟩ := (Outcome.bind_eq_ret _ _ _).1 h
          obtain ⟨k3, _⟩ := store_size_Kept (some p) m.objects.length m1 m2 _ h2
          simp only [Outcome.ret.injEq] at h
          rw [← h]
          exact Kept_trans _ _ _ _ _ k12 k3

theorem chain_view_Kept (len : Option SizePtr) (m m' : Memory)
    (hk : Kept len m.objects.length m m') :
    ∀ (fuel : Nat) (wad : Option Nat) (chain : List (Nat × MountedWAD)),
      chain_view fuel m wad = some chain →
      (∀ addr, len = some (.wad_len addr) → addr ∉ chain.map Prod.fst) →
      chain_view fuel m' wad = some chain := by
  have hlt : ∀ addr obj, m.objects.get? addr = some obj → addr < m.objects.length := by
    intro addr obj h
    rw [List.get?_eq_getElem?] at h
    exact (List.getElem?_eq_some.1 h).1
  intro fuel
  induction fuel with
  | zero => intro wad chain h; cases h
  | succ fuel ih =>
    intro wad chain h hlen
    cases wad with
    | none =>
      simp only [chain_view] at h ⊢
      exact h
    | some wad =>
      rw [chain_view] at h ⊢
      cases hnode : m.objects.get? wad with
      | none => rw [hnode] at h; cases h
      | some obj =>
        rw [hnode] at h
        cases obj with
        | bytes d => cases h
        | size_t v => cases h
        | wad filename header wlen next =>
          dsimp only at h
          cases hname : m.objects.get? filename with
          | none => rw [hname] at h; cases h
          | some o1 =>
            cases himg : m.objects.get? header with
            | none => rw [hname, himg] at h; cases o1 <;> cases h
            | some o2 =>
              rw [hname, himg] at h
              cases o1 with
              | size_t v => cases h
              | wad f2 h2 l2 n2 => cases h
              | bytes name =>
                cases o2 with
                | size_t v => cases h
                | wad f2 h2 l2 n2 => cases h
                | bytes image =>
                  dsimp only at h
                  cases hrest : chain_view fuel m next with
                  | none => rw [hrest] at h; cases h
                  | some rest =>
                    rw [hrest] at h
                    simp only [Option.map_some', Option.some.injEq] at h
                    subst h
                    have hnode' : m'.objects.get? wad = some (.wad filename header wlen next) :=
                      (hk.2.2 wad (hlt _ _ hnode)).2 _ _ _ _ hnode
                        (fun hc => hlen wad hc (by simp))
                    have hname' := (hk.2.2 filename (hlt _ _ hname)).1 _ hname
                    have himg' := (hk.2.2 header (hlt _ _ himg)).1 _ himg
                    have hrest' := ih next rest hrest
                      (fun addr hc hm => hlen addr hc (by
                        simp only [List.map_cons, List.mem_cons]
                        exact Or.inr hm))
                    rw [hnode']
                    dsimp only
                    rw [hname', himg']
                    dsimp only
                    rw [hrest']
                    rfl

set_option maxRecDepth 100000 in
/-- A read whose `len` is the field `len` of a node of the chain stores the
length of the result there: the memory can express a store into the chain. -/
theorem read_wad_file_mem_len_alias :
    (read_wad_file_mem zlibRef DecompressionContext.zero memA name_a_txt
        (some (.wad_len 2))).map (fun r => r.2.objects.get? 2)
      = .ret (some (.wad 0 1 5 none)) ∧
    memA.objects.get? 2 = some (.wad 0 1 50 none) := by
  decide

/-! ## Claims -/

/-- C1. LZ round trip: for every sequence of well-formed tokens (literal bytes;
back-references with offset below 8192 and count in 3..18) whose
back-references read only lookback slots written earlier in the same decode,
if `s` is the documented expansion and the stream is the MSB-first
serialisation padded to whole bytes, then `DecompressionContext_unpack` run on
a context from `DecompressionContext_init` over that stream with
`length = |s|` writes exactly `s`. The sizes are those the 32-bit fields of the
decoder can hold: `|s|` fits the `uint32_t length` and the stream is at most
`2^32` bytes, the range of `current_byte_read_pos`. The initial contents of
the lookback buffer and the padding bits are arbitrary. -/
theorem lz_round_trip (toks : List Token) (s : List Nat) (pad : List Bool)
    (self : DecompressionContext)
    (hwf : ∀ t ∈ toks, t.WellFormed) (hs : expandTokens toks = some s)
    (hlen : s.length < 4294967296) (hstream : (serialise toks pad).length ≤ 4294967296) :
    (DecompressionContext_unpack
        (DecompressionContext_init self (serialise toks pad) (serialise toks pad).length)
        s.length).written = .ret s := by
  unfold expandTokens at hs
  cases hexp : expandFrom toks Window.initial [] with
  | none => simp [hexp] at hs
  | some st =>
    obtain ⟨w', out⟩ := st
    simp only [hexp, Option.map_some', Option.some.injEq] at hs
    subst hs
    have hbits : BitsAt (serialise toks pad) 0 (tokenBits toks) :=
      ((BitsAt_append _ _ _ 0).1 (BitsAt_packBits (tokenBits toks ++ pad))).1
    have hslen : (serialise toks pad).length = ((tokenBits toks).length + pad.length + 7) / 8 := by
      simp [serialise, packBits_length]
    have h9 := tokenBits_length_ge toks
    obtain ⟨base', hrun, _, _⟩ := unpack_loop_tokens toks ((serialise toks pad).length + 1)
      (DecompressionContext_init self (serialise toks pad) (serialise toks pad).length) 0
      Window.initial [] w' out out.length
      (by rw [hslen]; omega) hwf hbits
      (by show 0 + (tokenBits toks).length ≤ 8 * (serialise toks pad).length; rw [hslen]; omega)
      hstream (Agrees_initial _ _ _) hexp (by simp) hlen
    rw [← readerAt_zero] at hrun
    unfold DecompressionContext_unpack
    show (unpack_loop ((serialise toks pad).length + 1) _ [] out.length).written = _
    rw [hrun]
    rfl

/-- Witness of C1: literal 'a', literal 'b', back-reference (offset 1, count 3). -/
theorem lz_round_trip_witness :
    (DecompressionContext_unpack
        (DecompressionContext_init DecompressionContext.zero
          (serialise [.literal 97, .literal 98, .backref 1 3] [])
          (serialise [.literal 97, .literal 98, .backref 1 3] []).length)
        [97, 98, 97, 98, 97].length).written = .ret [97, 98, 97, 98, 97] :=
  lz_round_trip [.literal 97, .literal 98, .backref 1 3] [97, 98, 97, 98, 97] []
    DecompressionContext.zero (by decide) (by decide) (by decide) (by decide)

/-- C2, evaluated on a failing input. The stream `B0 80 02 00` holds the
literal 'a' and a back-reference (offset 1, count 3); it is decoded with
`length = 2`. The second iteration of the outer loop runs its whole copy run:
after it four bytes have been written (output positions 0..3, two of them
past `length`), `length` has wrapped to `2^32 - 2`, the loop goes on and the
decoder leaves the input; it does not return with exactly two bytes written. -/
theorem unpack_writes_past_length :
    ((unpack_step (DecompressionContext_init DecompressionContext.zero [0xB0, 0x80, 0x02, 0x00] 4)
        [] 2).bind fun st =>
      (unpack_step st.1 st.2.1 st.2.2).map fun st' => (st'.2.1, st'.2.2))
      = .ret ([97, 97, 97, 97], 4294967294)
    ∧ (DecompressionContext_unpack
        (DecompressionContext_init DecompressionContext.zero [0xB0, 0x80, 0x02, 0x00] 4)
        2).written = .oob := by
  decide

set_option maxRecDepth 100000 in
/-- C3, counterexample. In the file system `fsDir` the path `data` can be
opened (it is a directory) and is in no mounted archive, yet `read_file` does
not return its contents: `fread` delivers fewer bytes than the size `ftell`
reports and the call ends in `fail`. -/
theorem read_file_unreadable :
    fsDir.fopen name_data = some [] ∧
    read_wad_file zlibRef DecompressionContext.zero [wadA] name_data = .ret none ∧
    read_file zlibRef DecompressionContext.zero fsDir [wadA] name_data
      = .fatal "Could not read %zu bytes from %s" := by
  decide

/-- C3, amended. `read_file` is a three-way resolution. (1) If the name
resolves in the mounted containers (some container has an entry whose name
hash is the hash of the name; `w` is the first such container and `e` its
first such entry), the result is the decoding of that entry, whatever the file
system holds. (2) If no mounted container has such an entry and the file can
be opened: when `fread` delivers all the bytes of the size `ftell` reports, the
result is its whole contents, with length equal to its size; when it delivers
fewer, the call ends in `fail("Could not read ...")`. (3) If no mounted
container has such an entry and the file cannot be opened, the result is
`NULL`. -/
theorem read_file_three_way (z : Zlib) (tmp : DecompressionContext) (fs : FileSystem)
    (g : List MountedWAD) (filename : List Nat) :
    (∀ w e, Resolves g (name_hash z filename) w e →
        ∀ fs', read_file z tmp fs' g filename = (read_wad_entry z tmp w e).map some) ∧
    (Unresolved g (name_hash z filename) → ∀ contents, fs.fopen filename = some contents →
        fs.unread filename = 0 →
        read_file z tmp fs g filename = .ret (some (contents, contents.length))) ∧
    (Unresolved g (name_hash z filename) → ∀ contents, fs.fopen filename = some contents →
        fs.unread filename ≠ 0 →
        read_file z tmp fs g filename = .fatal "Could not read %zu bytes from %s") ∧
    (Unresolved g (name_hash z filename) → fs.fopen filename = none →
        read_file z tmp fs g filename = .ret none) := by
  refine ⟨?_, ?_, ?_, ?_⟩
  · intro w e hres fs'
    exact read_file_of_found z tmp fs' g filename _ (read_wad_file_resolves z tmp g filename w e hres)
  · intro hun contents hc hu
    rw [read_file_of_not_found z tmp fs g filename (read_wad_file_unresolved z tmp g filename hun),
      hc]
    exact if_neg (fun h => h hu)
  · intro hun contents hc hu
    rw [read_file_of_not_found z tmp fs g filename (read_wad_file_unresolved z tmp g filename hun),
      hc]
    exact if_pos hu
  · intro hun hc
    rw [read_file_of_not_found z tmp fs g filename (read_wad_file_unresolved z tmp g filename hun),
      hc]

/-- Witness of C3 on the chain `[wadA]` and the file system `fsAB`: `a.txt`
comes from the archive ("hello") although a loose `a.txt` holds "xyz";
`b.txt` is in no archive and comes from the loose file; `plumless` is
nowhere. -/
theorem read_file_three_way_witness :
    read_file zlibRef DecompressionContext.zero fsAB [wadA] name_a_txt
        = .ret (some ([104, 101, 108, 108, 111], 5)) ∧
    read_file zlibRef DecompressionContext.zero fsAB [wadA] name_b_txt
        = .ret (some ([97, 98, 99], 3)) ∧
    read_file zlibRef DecompressionContext.zero fsAB [wadA] name_plumless = .ret none :=
  ⟨((read_file_three_way zlibRef DecompressionContext.zero fsAB [wadA] name_a_txt).1 wadA
      { name := 4164353880, start_offset := 40, length := 5, compressed_length := 5 }
      (Resolves_head wadA [] _ 0 _ (imageA_first _ name_hash_a_txt) rfl) fsAB).trans (by decide),
   (read_file_three_way zlibRef DecompressionContext.zero fsAB [wadA] name_b_txt).2.1
      (fun w hw => by
        rw [List.mem_singleton.1 hw]
        exact imageA_none _ (by rw [name_hash_b_txt]; decide))
      [97, 98, 99] rfl rfl,
   (read_file_three_way zlibRef DecompressionContext.zero fsAB [wadA] name_plumless).2.2.2
      (fun w hw => by
        rw [List.mem_singleton.1 hw]
        exact imageA_none _ (by rw [name_hash_plumless]; decide))
      rfl⟩

/-- C4. Raw path: when the name resolves to an entry with
`stored_length == compressed_length` whose bytes
`[start_offset, start_offset + stored_length)` lie inside the image,
`read_wad_file` returns a buffer of `stored_length` bytes, byte-identical to
the image at those offsets, and reports the length `stored_length`. -/
theorem read_wad_file_raw (z : Zlib) (tmp : DecompressionContext) (g : List MountedWAD)
    (filename : List Nat) (w : MountedWAD) (e : WADEntry)
    (hres : Resolves g (name_hash z filename) w e)
    (hraw : e.length = e.compressed_length)
    (hin : e.start_offset + e.length ≤ w.header.length) :
    read_wad_file z tmp g filename
        = .ret (some ((w.header.drop e.start_offset).take e.length, e.length)) ∧
      ((w.header.drop e.start_offset).take e.length).length = e.length ∧
      ∀ k, k < e.length →
        ((w.header.drop e.start_offset).take e.length)[k]? = w.header[e.start_offset + k]? := by
  refine ⟨?_, ?_, ?_⟩
  · rw [read_wad_file_resolves z tmp g filename w e hres]
    unfold read_wad_entry
    simp only [hraw, ne_eq, not_true_eq_false, if_false]
    rw [hraw] at hin
    simp only [hin, or_true, if_true]
    rfl
  · rw [List.length_take, List.length_drop]
    omega
  · intro k hk
    rw [List.getElem?_take_of_lt hk, List.getElem?_drop]

/-- Witness of C4: `a.txt` in `[wadA]` is the raw entry at offset 40, "hello". -/
theorem read_wad_file_raw_witness :
    read_wad_file zlibRef DecompressionContext.zero [wadA] name_a_txt
      = .ret (some ([104, 101, 108, 108, 111], 5)) :=
  (read_wad_file_raw zlibRef DecompressionContext.zero [wadA] name_a_txt wadA
    { name := 4164353880, start_offset := 40, length := 5, compressed_length := 5 }
    (Resolves_head wadA [] _ 0 _ (imageA_first _ name_hash_a_txt) rfl) rfl (by decide)).1

/-- C5. First-match lookup: within the container searched first,
`read_wad_file` decodes the entry with the smallest table index `i` such that
`entries[i].name` equals the hash of the name, the hash being
`crc32(0xFFFFFFFF, name)` as a `uint32_t`; entries after it are not used,
whatever their name hash. Any other name with the same hash resolves to the
same entry. -/
theorem first_match_lookup (z : Zlib) (tmp : DecompressionContext) (w : MountedWAD)
    (rest : List MountedWAD) (filename : List Nat) (i : Nat) (e : WADEntry)
    (hfm : FirstMatch w.header (name_hash z filename) i)
    (he : load_entry w.header i = some e) :
    name_hash z filename = z.crc32 0xFFFFFFFF filename % 4294967296 ∧
    read_wad_file z tmp (w :: rest) filename = (read_wad_entry z tmp w e).map some ∧
    ∀ other, name_hash z other = name_hash z filename →
      read_wad_file z tmp (w :: rest) other = (read_wad_entry z tmp w e).map some := by
  refine ⟨rfl, ?_, ?_⟩
  · exact read_wad_file_resolves z tmp _ filename w e (Resolves_head w rest _ i e hfm he)
  · intro other ho
    exact read_wad_file_resolves z tmp _ other w e
      (Resolves_head w rest _ i e (by rw [ho]; exact hfm) he)

/-- Witness of C5: `imageC` has two entries with the hash shared by `plumless`
and `buckeroo`; both names give the first one, "hello", never "world". -/
theorem first_match_lookup_witness :
    read_wad_file zlibRef DecompressionContext.zero [wadC] name_plumless
        = .ret (some ([104, 101, 108, 108, 111], 5)) ∧
    read_wad_file zlibRef DecompressionContext.zero [wadC] name_buckeroo
        = .ret (some ([104, 101, 108, 108, 111], 5)) :=
  have h := first_match_lookup zlibRef DecompressionContext.zero wadC [] name_plumless 0
    { name := 3607506099, start_offset := 40, length := 5, compressed_length := 5 }
    (imageC_first _ name_hash_plumless) rfl
  ⟨h.2.1.trans (by decide),
   (h.2.2 name_buckeroo (name_hash_buckeroo.trans name_hash_plumless.symm)).trans (by decide)⟩

/-- C6. Mount priority: after `mount_wad(A)` succeeds and then `mount_wad(B)`
succeeds, the chain is B's container, A's container, then the earlier chain,
and a name for which B's container has an entry is read from B: the result
of `read_wad_file` is the decoding of B's first entry with the hash of the
name, whatever A's container holds for that name. -/
theorem mount_priority (z : Zlib) (tmp : DecompressionContext) (fs : FileSystem)
    (g0 g1 g2 : List MountedWAD) (pathA pathB filename : List Nat)
    (hA : mount_wad z tmp fs g0 pathA = .ret (true, g1))
    (hB : mount_wad z tmp fs g1 pathB = .ret (true, g2)) :
    ∃ A B, g2 = B :: A :: g0 ∧ A.filename = pathA ∧ B.filename = pathB ∧
      ∀ i eB, FirstMatch B.header (name_hash z filename) i → load_entry B.header i = some eB →
        read_wad_file z tmp g2 filename = (read_wad_entry z tmp B eB).map some := by
  obtain ⟨headerA, lenA, _, rfl⟩ := mount_wad_true z tmp fs g0 g1 pathA hA
  obtain ⟨headerB, lenB, _, rfl⟩ := mount_wad_true z tmp fs _ g2 pathB hB
  refine ⟨_, _, rfl, rfl, rfl, ?_⟩
  intro i eB hfm he
  exact read_wad_file_resolves z tmp _ filename _ eB (Resolves_head _ _ _ i eB hfm he)

set_option maxRecDepth 100000 in
/-- Witness of C6: `a.wad` and `b.wad` both hold `a.txt` ("hello" and "abc");
after mounting `a.wad` and then `b.wad`, `a.txt` reads as "abc". -/
theorem mount_priority_witness :
    mount_wad zlibRef DecompressionContext.zero fsAB [] name_a_wad = .ret (true, [wadA]) ∧
    mount_wad zlibRef DecompressionContext.zero fsAB [wadA] name_b_wad
        = .ret (true, [wadB, wadA]) ∧
    read_wad_file zlibRef DecompressionContext.zero [wadA] name_a_txt
        = .ret (some ([104, 101, 108, 108, 111], 5)) ∧
    read_wad_file zlibRef DecompressionContext.zero [wadB, wadA] name_a_txt
        = .ret (some ([97, 98, 99], 3)) := by
  have hA : mount_wad zlibRef DecompressionContext.zero fsAB [] name_a_wad
      = .ret (true, [wadA]) := by decide
  have hB : mount_wad zlibRef DecompressionContext.zero fsAB [wadA] name_b_wad
      = .ret (true, [wadB, wadA]) := by decide
  refine ⟨hA, hB, by decide, ?_⟩
  obtain ⟨A, B, hg, _, _, hread⟩ := mount_priority zlibRef DecompressionContext.zero fsAB
    [] [wadA] [wadB, wadA] name_a_wad name_b_wad name_a_txt hA hB
  simp only [List.cons.injEq, and_true] at hg
  obtain ⟨rfl, rfl⟩ := hg
  rw [hread 0 { name := 4164353880, start_offset := 24, length := 3, compressed_length := 3 }
    (imageB_first _ name_hash_a_txt) rfl]
  decide

/-- C7. A successful `mount_wad(path)` (one that returns `true`) pushes exactly
one new container to the front of the mount chain: the new chain is the new
container, which is named after `path` and holds what `read_file(path)`
returned, followed by the old chain, unchanged and in the same order. -/
theorem mount_wad_pushes_front (z : Zlib) (tmp : DecompressionContext) (fs : FileSystem)
    (g g' : List MountedWAD) (path : List Nat)
    (h : mount_wad z tmp fs g path = .ret (true, g')) :
    ∃ wad, g' = wad :: g ∧ wad.filename = path ∧
      read_file z tmp fs g path = .ret (some (wad.header, wad.len)) := by
  obtain ⟨header, len, hr, rfl⟩ := mount_wad_true z tmp fs g g' path h
  exact ⟨_, rfl, rfl, hr⟩

set_option maxRecDepth 100000 in
/-- Witness of C7: mounting `b.wad` on top of `[wadA]`. -/
theorem mount_wad_pushes_front_witness :
    ∃ wad, [wadB, wadA] = wad :: [wadA] ∧ wad.filename = name_b_wad ∧
      read_file zlibRef DecompressionContext.zero fsAB [wadA] name_b_wad
        = .ret (some (wad.header, wad.len)) :=
  mount_wad_pushes_front zlibRef DecompressionContext.zero fsAB [wadA] [wadB, wadA] name_b_wad
    (by decide)

set_option maxRecDepth 100000 in
/-- C8, counterexample. In the file system `fsDir` the path `data` cannot be
read (it opens, and `fread` delivers none of the 4096 bytes `ftell` reports):
`mount_wad("data")` does not return `false`, the call ends in `fail`. -/
theorem mount_wad_unreadable :
    fsDir.fopen name_data = some [] ∧ fsDir.unread name_data = 4096 ∧
    mount_wad zlibRef DecompressionContext.zero fsDir [wadA] name_data
      = .fatal "Could not read %zu bytes from %s" ∧
    mount_wad zlibRef DecompressionContext.zero fsDir [wadA] name_data ≠ .ret (false, [wadA]) := by
  have h : mount_wad zlibRef DecompressionContext.zero fsDir [wadA] name_data
      = .fatal "Could not read %zu bytes from %s" := by decide
  refine ⟨rfl, rfl, h, ?_⟩
  rw [h]
  exact fun hc => Outcome.noConfusion hc

/-- C8, amended. Mount failure is atomic when the archive file cannot be
opened: over a chain in which no container has an entry of the name hash of
the path, when `fopen` fails `mount_wad` returns `false` and the mount chain
is what it was before the call; and whenever `mount_wad` returns `false` the
chain is what it was and `read_file(path)` returned `NULL`. A file that opens
but is not read in full is not reported to the caller: the call ends in
`fail("Could not read ...")`. -/
theorem mount_wad_failure (z : Zlib) (tmp : DecompressionContext) (fs : FileSystem)
    (g : List MountedWAD) (path : List Nat)
    (hun : Unresolved g (name_hash z path)) :
    (fs.fopen path = none → mount_wad z tmp fs g path = .ret (false, g)) ∧
    (∀ contents, fs.fopen path = some contents → fs.unread path ≠ 0 →
        mount_wad z tmp fs g path = .fatal "Could not read %zu bytes from %s") ∧
    (∀ contents, fs.fopen path = some contents → fs.unread path = 0 →
        mount_wad z tmp fs g path
          = .ret (true, { filename := path, header := contents, len := contents.length } :: g)) ∧
    (∀ g', mount_wad z tmp fs g path = .ret (false, g') →
        g' = g ∧ fs.fopen path = none ∧ read_file z tmp fs g path = .ret none) := by
  have hread := read_file_of_not_found z tmp fs g path (read_wad_file_unresolved z tmp g path hun)
  refine ⟨?_, ?_, ?_, ?_⟩
  · intro hf
    rw [hf] at hread
    dsimp only at hread
    unfold mount_wad
    rw [hread]
    rfl
  · intro contents hf hu
    rw [hf] at hread
    dsimp only at hread
    unfold mount_wad
    rw [hread, if_pos hu]
    rfl
  · intro contents hf hu
    rw [hf] at hread
    dsimp only at hread
    unfold mount_wad
    rw [hread, if_neg (fun h => h hu)]
    rfl
  · intro g' h
    cases hf : fs.fopen path with
    | none =>
      rw [hf] at hread
      dsimp only at hread
      unfold mount_wad at h
      rw [hread] at h
      simp only [Outcome.bind, Outcome.ret.injEq, Prod.mk.injEq, true_and] at h
      exact ⟨h.symm, rfl, hread⟩
    | some contents =>
      rw [hf] at hread
      dsimp only at hread
      unfold mount_wad at h
      rw [hread] at h
      by_cases hu : fs.unread path ≠ 0
      · rw [if_pos hu] at h
        cases h
      · rw [if_neg hu] at h
        simp only [Outcome.bind, Outcome.ret.injEq, Prod.mk.injEq, Bool.true_eq_false,
          false_and] at h

set_option maxRecDepth 100000 in
/-- Witness of C8 (amended): `plumless` is neither in `[wadA]` nor in the file
system `fsAB`. -/
theorem mount_wad_failure_witness :
    mount_wad zlibRef DecompressionContext.zero fsAB [wadA] name_plumless
      = .ret (false, [wadA]) :=
  (mount_wad_failure zlibRef DecompressionContext.zero fsAB [wadA] name_plumless
    (fun w hw => by
      rw [List.mem_singleton.1 hw]
      exact imageA_none _ (by rw [name_hash_plumless]; decide))).1 rfl

/-- C9. Over a chain of containers that hold their entry tables,
`read_wad_file(name)` returns `NULL` if and only if no entry of any container
has a name hash equal to the hash of the name; and when the containers at the
front of the chain have no such entry but a later one has, the first such
entry of that later container is decoded and returned. -/
theorem read_wad_file_not_found_iff (z : Zlib) (tmp : DecompressionContext)
    (g : List MountedWAD) (filename : List Nat)
    (hwf : ∀ w ∈ g, TableInBounds w.header) :
    (read_wad_file z tmp g filename = .ret none
        ↔ ∀ w ∈ g, NoEntry w.header (name_hash z filename)) ∧
    (∀ pre w post i e, g = pre ++ w :: post →
        (∀ w' ∈ pre, NoEntry w'.header (name_hash z filename)) →
        FirstMatch w.header (name_hash z filename) i → load_entry w.header i = some e →
        read_wad_file z tmp g filename = (read_wad_entry z tmp w e).map some) := by
  refine ⟨⟨?_, ?_⟩, ?_⟩
  · exact read_wad_chain_ret_none z tmp _ g
  · intro hno
    exact read_wad_file_unresolved z tmp g filename (fun w hw => ⟨hwf w hw, hno w hw⟩)
  · intro pre w post i e hg hpre hfm he
    refine read_wad_file_resolves z tmp g filename w e ⟨pre, post, i, hg, ?_, hfm, he⟩
    intro w' hw'
    exact ⟨hwf w' (by rw [hg]; exact List.mem_append_left _ hw'), hpre w' hw'⟩

/-- Witness of C9 on the chain `[wadC, wadA]`: `b.txt` is in neither container
and is not found; `a.txt` is not in `wadC` but in `wadA`, and is read from
`wadA`. -/
theorem read_wad_file_not_found_iff_witness :
    read_wad_file zlibRef DecompressionContext.zero [wadC, wadA] name_b_txt = .ret none ∧
    read_wad_file zlibRef DecompressionContext.zero [wadC, wadA] name_a_txt
      = .ret (some ([104, 101, 108, 108, 111], 5)) :=
  have hwf : ∀ w ∈ [wadC, wadA], TableInBounds w.header := by
    intro w hw
    simp only [List.mem_cons, List.mem_singleton, List.not_mem_nil, or_false] at hw
    rcases hw with rfl | rfl
    · exact ⟨2, rfl, by decide⟩
    · exact ⟨2, rfl, by decide⟩
  ⟨(read_wad_file_not_found_iff zlibRef DecompressionContext.zero [wadC, wadA] name_b_txt
      hwf).1.2 (by
        intro w hw
        simp only [List.mem_cons, List.mem_singleton, List.not_mem_nil, or_false] at hw
        rcases hw with rfl | rfl
        · exact (imageC_none _ (by rw [name_hash_b_txt]; decide)).2
        · exact (imageA_none _ (by rw [name_hash_b_txt]; decide)).2),
   ((read_wad_file_not_found_iff zlibRef DecompressionContext.zero [wadC, wadA] name_a_txt
      hwf).2 [wadC] wadA [] 0
      { name := 4164353880, start_offset := 40, length := 5, compressed_length := 5 } rfl
      (by
        intro w hw
        rw [List.mem_singleton.1 hw]
        exact (imageC_none _ (by rw [name_hash_a_txt]; decide)).2)
      (imageA_first _ name_hash_a_txt) rfl).trans (by decide)⟩

/-- C10. Zlib header check: when the name resolves to an entry with
`stored_length != compressed_length` and the high bit of `stored_length` set,
and the first payload byte (the image byte at `start_offset`) is not `0x78`,
the read calls `fail("Invalid zlib header")` and returns no buffer, whatever
the rest of the payload and whatever zlib would make of it; this holds for
`read_wad_file` and for `read_file` over any file system. -/
theorem zlib_header_check (z : Zlib) (tmp : DecompressionContext) (g : List MountedWAD)
    (filename : List Nat) (w : MountedWAD) (e : WADEntry) (first : Nat)
    (hres : Resolves g (name_hash z filename) w e)
    (hne : e.length ≠ e.compressed_length)
    (hflag : e.length &&& 0x80000000 ≠ 0)
    (hfirst : w.header.get? e.start_offset = some first)
    (hbad : first ≠ 0x78) :
    read_wad_file z tmp g filename = .fatal "Invalid zlib header" ∧
    ∀ fs, read_file z tmp fs g filename = .fatal "Invalid zlib header" := by
  have hentry : read_wad_entry z tmp w e = .fatal "Invalid zlib header" := by
    unfold read_wad_entry
    simp only [ne_eq, hne, not_false_eq_true, if_true, hflag, drop_get?_zero, hfirst, hbad]
  have hread := read_wad_file_resolves z tmp g filename w e hres
  rw [hentry] at hread
  refine ⟨hread, ?_⟩
  intro fs
  exact read_file_of_found z tmp fs g filename _ hread

/-- Witness of C10: the zlib-flagged entry of `imageZ` starts with `0x79`. -/
theorem zlib_header_check_witness :
    read_wad_file zlibRef DecompressionContext.zero [wadZ] name_a_txt
        = .fatal "Invalid zlib header" ∧
    ∀ fs, read_file zlibRef DecompressionContext.zero fs [wadZ] name_a_txt
        = .fatal "Invalid zlib header" :=
  zlib_header_check zlibRef DecompressionContext.zero [wadZ] name_a_txt wadZ
    { name := 4164353880, start_offset := 24, length := 0x80000005, compressed_length := 9 }
    0x79 (Resolves_head wadZ [] _ 0 _ (imageZ_first _ name_hash_a_txt) rfl)
    (by decide) (by decide) rfl (by decide)

/-- C11. Zlib path result: when the name resolves to a zlib-flagged entry
(`stored_length != compressed_length`, high bit of `stored_length` set) whose
payload starts with `0x78`, the read either returns the bytes `inflate` wrote
for the `compressed_length` payload bytes, with the reported length
`stored_length & 0x7FFFFFFF`, or fails. It returns them when zlib initialises,
`inflate` reaches the end of the stream and its total output is the masked
length; it fails whenever `inflate` does not reach the end of the stream or
its total output differs from the masked length; and a buffer it returns is
never truncated: its length is the masked length (zlib's `total_out` being
the number of bytes it wrote). -/
theorem zlib_path_result (z : Zlib) (tmp : DecompressionContext) (g : List MountedWAD)
    (filename : List Nat) (w : MountedWAD) (e : WADEntry)
    (hres : Resolves g (name_hash z filename) w e)
    (hne : e.length ≠ e.compressed_length)
    (hflag : e.length &&& 0x80000000 ≠ 0)
    (hfirst : w.header.get? e.start_offset = some 0x78) :
    (z.inflateInit = 0 → (inflate_entry z w e).res = 1 →
        (inflate_entry z w e).total_out = e.length &&& 0x7FFFFFFF →
        read_wad_file z tmp g filename
          = .ret (some ((inflate_entry z w e).out, e.length &&& 0x7FFFFFFF))) ∧
    ((inflate_entry z w e).res ≠ 1 ∨ (inflate_entry z w e).total_out ≠ e.length &&& 0x7FFFFFFF →
        ∃ msg, read_wad_file z tmp g filename = .fatal msg) ∧
    (∀ buf n, read_wad_file z tmp g filename = .ret (some (buf, n)) →
        n = e.length &&& 0x7FFFFFFF ∧ buf = (inflate_entry z w e).out ∧
        (inflate_entry z w e).res = 1 ∧
        ((inflate_entry z w e).out.length = (inflate_entry z w e).total_out → buf.length = n)) := by
  have hread := read_wad_file_resolves z tmp g filename w e hres
  rw [read_wad_entry_zlib z tmp w e 0x78 hne hflag hfirst] at hread
  simp only [ne_eq, not_true_eq_false, if_false] at hread
  refine ⟨?_, ?_, ?_⟩
  · intro hinit hres1 htot
    rw [hread]
    simp only [hinit, not_true_eq_false, if_false, hres1, htot, or_self]
    rfl
  · intro hbad
    rw [hread]
    by_cases hinit : z.inflateInit = 0
    · refine ⟨"%s: zlib error for %s", ?_⟩
      simp only [hinit, not_true_eq_false, if_false]
      rw [if_pos hbad]
      rfl
    · refine ⟨"Failed to init zlib", ?_⟩
      rw [if_pos hinit]
      rfl
  · intro buf n hret
    rw [hread] at hret
    by_cases hinit : z.inflateInit = 0
    · by_cases hbad : (inflate_entry z w e).res = 1
          ∧ (inflate_entry z w e).total_out = e.length &&& 0x7FFFFFFF
      · have hnb : ¬ (¬ (inflate_entry z w e).res = 1
            ∨ ¬ (inflate_entry z w e).total_out = e.length &&& 0x7FFFFFFF) := by
          intro h; rcases h with h | h
          · exact h hbad.1
          · exact h hbad.2
        simp only [hinit, not_true_eq_false, if_false, hnb] at hret
        have := (Outcome.map_some_eq_ret _ _).1 hret
        simp only [Outcome.ret.injEq, Prod.mk.injEq] at this
        obtain ⟨h1, h2⟩ := this
        refine ⟨h2.symm, h1.symm, hbad.1, ?_⟩
        intro hc
        rw [← h1, hc, hbad.2, h2]
      · have hb : ¬ (inflate_entry z w e).res = 1
            ∨ ¬ (inflate_entry z w e).total_out = e.length &&& 0x7FFFFFFF := by
          by_contra hc
          push_neg at hc
          exact hbad hc
        simp only [hinit, not_true_eq_false, if_false, hb, if_true] at hret
        cases hret
    · simp only [hinit, not_false_eq_true, if_true] at hret
      cases hret

/-- Witness of C11: the entry of `imageZok` holds the zlib stream of "hello"
(one stored block); with `inflate_stored` the read returns "hello". -/
theorem zlib_path_result_witness :
    read_wad_file zlibStored DecompressionContext.zero [wadOf imageZok] name_a_txt
      = .ret (some ([104, 101, 108, 108, 111], 5)) :=
  ((zlib_path_result zlibStored DecompressionContext.zero [wadOf imageZok] name_a_txt
      (wadOf imageZok)
      { name := 4164353880, start_offset := 24, length := 0x80000005, compressed_length := 16 }
      (Resolves_wadOf imageZok _ 1 _ rfl (by decide) rfl name_hash_stored_a_txt.symm)
      (by decide) (by decide) rfl).1 rfl (by decide) (by decide)).trans (by decide)

/-- C12. Custom LZ path: when the name resolves to an entry with
`stored_length != compressed_length` and the high bit of `stored_length`
clear, the read is the run of the LZ decoder initialised on the payload at
`start_offset` with `buf_len = compressed_length` and run with output length
`stored_length`: when the decoder returns with its output inside the
`stored_length` bytes of the result buffer, the read returns that output and
reports the length `stored_length`; when the decoder does not return, neither
does the read. -/
theorem lz_path (z : Zlib) (tmp : DecompressionContext) (g : List MountedWAD)
    (filename : List Nat) (w : MountedWAD) (e : WADEntry)
    (hres : Resolves g (name_hash z filename) w e)
    (hne : e.length ≠ e.compressed_length)
    (hclear : e.length &&& 0x80000000 = 0) :
    unpack_entry tmp w e
      = DecompressionContext_unpack
          (DecompressionContext_init tmp (w.header.drop e.start_offset) e.compressed_length)
          e.length ∧
    (∀ ctx out, unpack_entry tmp w e = .ret (ctx, out) → out.length ≤ e.length →
        read_wad_file z tmp g filename = .ret (some (out, e.length))) ∧
    (∀ buf n, read_wad_file z tmp g filename = .ret (some (buf, n)) →
        n = e.length ∧ ∃ ctx, unpack_entry tmp w e = .ret (ctx, buf)) := by
  have hread := read_wad_file_resolves z tmp g filename w e hres
  rw [read_wad_entry_lz z tmp w e hne hclear] at hread
  refine ⟨rfl, ?_, ?_⟩
  · intro ctx out hrun hfit
    rw [hread, hrun]
    simp only [Outcome.bind, Nat.not_lt.2 hfit, if_false]
    rfl
  · intro buf n hret
    rw [hread] at hret
    have h1 := (Outcome.map_some_eq_ret _ _).1 hret
    obtain ⟨r, hr, h2⟩ := (Outcome.bind_eq_ret _ _ _).1 h1
    by_cases hover : e.length < r.2.length
    · rw [if_pos hover] at h2
      cases h2
    · rw [if_neg hover] at h2
      simp only [Outcome.ret.injEq, Prod.mk.injEq] at h2
      exact ⟨h2.2.symm, r.1, by rw [hr, ← h2.1]⟩

/-- Witness of C12: the LZ entry of `imageL` (5 bytes stored, 6 compressed)
decodes to "ababa". -/
theorem lz_path_witness :
    read_wad_file zlibRef DecompressionContext.zero [wadOf imageL] name_a_txt
      = .ret (some ([97, 98, 97, 98, 97], 5)) := by
  have h := (lz_path zlibRef DecompressionContext.zero [wadOf imageL] name_a_txt (wadOf imageL)
    { name := 4164353880, start_offset := 24, length := 5, compressed_length := 6 }
    (Resolves_wadOf imageL _ 1 _ rfl (by decide) rfl name_hash_a_txt.symm)
    (by decide) (by decide)).2.1
  have hrun : (unpack_entry DecompressionContext.zero (wadOf imageL)
      { name := 4164353880, start_offset := 24, length := 5, compressed_length := 6 }).written
      = .ret [97, 98, 97, 98, 97] := by decide
  cases hu : unpack_entry DecompressionContext.zero (wadOf imageL)
      { name := 4164353880, start_offset := 24, length := 5, compressed_length := 6 } with
  | ret r =>
    rw [hu] at hrun
    simp only [Outcome.written, Outcome.bind, Outcome.ret.injEq] at hrun
    have := h r.1 r.2 hu (by rw [hrun]; decide)
    rw [hrun] at this
    exact this
  | fatal m => rw [hu] at hrun; cases hrun
  | oob => rw [hu] at hrun; cases hrun
  | timeout => rw [hu] at hrun; cases hrun

set_option maxRecDepth 100000 in
/-- C13, counterexample. The entry of `imageR` has
`stored_length == compressed_length == 0x80000005`, so it takes the raw path,
which uses `stored_length` with its high bit: the copy of `0x80000005` bytes
leaves the image, although the `0x80000005 & 0x7FFFFFFF = 5` bytes "hello" are
in the image at `start_offset`; the read does not return those 5 bytes. -/
theorem raw_path_keeps_high_bit :
    load_entry imageR 0
      = some { name := 4164353880, start_offset := 24, length := 0x80000005,
               compressed_length := 0x80000005 } ∧
    24 + (0x80000005 &&& 0x7FFFFFFF) ≤ imageR.length ∧
    read_wad_file zlibRef DecompressionContext.zero [wadOf imageR] name_a_txt = .oob ∧
    read_wad_file zlibRef DecompressionContext.zero [wadOf imageR] name_a_txt
      ≠ .ret (some ([104, 101, 108, 108, 111], 5)) := by
  have hoob : read_wad_file zlibRef DecompressionContext.zero [wadOf imageR] name_a_txt
      = .oob := by decide
  refine ⟨rfl, by decide, hoob, ?_⟩
  rw [hoob]
  exact fun h => Outcome.noConfusion h

/-- C13, amended. For every entry the read resolves and returns a buffer for:
on the zlib path, on the LZ path, and on the raw path when the high bit of
`stored_length` is clear, the reported length is `stored_length & 0x7FFFFFFF`,
which is below `2^31`; on the raw path (`stored_length == compressed_length`)
the reported length is `stored_length` as stored, high bit included. On every
path the returned buffer has the reported length (on the zlib path: zlib's
`total_out` being the number of bytes it wrote). -/
theorem result_length (z : Zlib) (tmp : DecompressionContext) (g : List MountedWAD)
    (filename : List Nat) (w : MountedWAD) (e : WADEntry) (buf : List Nat) (n : Nat)
    (hres : Resolves g (name_hash z filename) w e)
    (h32 : e.length < 4294967296)
    (hread : read_wad_file z tmp g filename = .ret (some (buf, n))) :
    (e.length ≠ e.compressed_length ∨ e.length &&& 0x80000000 = 0 →
        n = e.length &&& 0x7FFFFFFF ∧ n < 2147483648) ∧
    (e.length = e.compressed_length → n = e.length) ∧
    ((inflate_entry z w e).out.length = (inflate_entry z w e).total_out → buf.length = n) := by
  have hr := read_wad_file_resolves z tmp g filename w e hres
  rw [hread] at hr
  have hentry : read_wad_entry z tmp w e = .ret (buf, n) :=
    (Outcome.map_some_eq_ret _ _).1 hr.symm
  by_cases hraw : e.length = e.compressed_length
  · -- raw path
    rw [read_wad_entry_raw z tmp w e hraw] at hentry
    by_cases hin : e.length = 0 ∨ e.start_offset + e.length ≤ w.header.length
    · rw [if_pos hin] at hentry
      simp only [Outcome.ret.injEq, Prod.mk.injEq] at hentry
      obtain ⟨hb, hn⟩ := hentry
      refine ⟨?_, fun _ => hn.symm, ?_⟩
      · intro hor
        rcases hor with h | h
        · exact absurd hraw h
        · rw [← hn, and_7fffffff_of_clear _ h32 h]
          exact ⟨rfl, by rw [← and_7fffffff_of_clear _ h32 h]; exact and_7fffffff_lt _⟩
      · intro _
        rw [← hb, ← hn, List.length_take, List.length_drop]
        omega
    · rw [if_neg hin] at hentry
      cases hentry
  · by_cases hclear : e.length &&& 0x80000000 = 0
    · -- LZ path
      rw [read_wad_entry_lz z tmp w e hraw hclear] at hentry
      obtain ⟨r, hrun, h2⟩ := (Outcome.bind_eq_ret _ _ _).1 hentry
      by_cases hover : e.length < r.2.length
      · rw [if_pos hover] at h2
        cases h2
      · rw [if_neg hover] at h2
        simp only [Outcome.ret.injEq, Prod.mk.injEq] at h2
        obtain ⟨hb, hn⟩ := h2
        have hwr := unpack_loop_written _ _ [] e.length r h32 hrun
        simp only [List.length_nil, Nat.zero_add] at hwr
        refine ⟨fun _ => ?_, fun h => absurd h hraw, fun _ => ?_⟩
        · rw [← hn, and_7fffffff_of_clear _ h32 hclear]
          exact ⟨rfl, by rw [← and_7fffffff_of_clear _ h32 hclear]; exact and_7fffffff_lt _⟩
        · rw [← hb, ← hn]
          omega
    · -- zlib path
      cases hfirst : w.header.get? e.start_offset with
      | none =>
        rw [read_wad_entry_zlib_oob z tmp w e hraw hclear hfirst] at hentry
        cases hentry
      | some first =>
        rw [read_wad_entry_zlib z tmp w e first hraw hclear hfirst] at hentry
        by_cases h78 : first ≠ 0x78
        · rw [if_pos h78] at hentry; cases hentry
        rw [if_neg h78] at hentry
        by_cases hinit : z.inflateInit ≠ 0
        · rw [if_pos hinit] at hentry; cases hentry
        rw [if_neg hinit] at hentry
        by_cases hbad : (inflate_entry z w e).res ≠ 1
            ∨ (inflate_entry z w e).total_out ≠ e.length &&& 0x7FFFFFFF
        · rw [if_pos hbad] at hentry; cases hentry
        rw [if_neg hbad] at hentry
        simp only [Outcome.ret.injEq, Prod.mk.injEq] at hentry
        obtain ⟨hb, hn⟩ := hentry
        push_neg at hbad
        refine ⟨fun _ => ⟨hn.symm, by rw [← hn]; exact and_7fffffff_lt _⟩,
          fun h => absurd h hraw, fun hc => ?_⟩
        rw [← hb, hc, hbad.2, hn]

/-- Witness of C13 (amended): the zlib entry of `imageZok` has the stored
length `0x80000005` and is returned with the reported length 5. -/
theorem result_length_witness :
    read_wad_file zlibStored DecompressionContext.zero [wadOf imageZok] name_a_txt
        = .ret (some ([104, 101, 108, 108, 111], 5)) ∧
      5 = 0x80000005 &&& 0x7FFFFFFF ∧ 5 < 2147483648 :=
  ⟨by decide,
   (result_length zlibStored DecompressionContext.zero [wadOf imageZok] name_a_txt
      (wadOf imageZok)
      { name := 4164353880, start_offset := 24, length := 0x80000005, compressed_length := 16 }
      [104, 101, 108, 108, 111] 5
      (Resolves_wadOf imageZok _ 1 _ rfl (by decide) rfl name_hash_stored_a_txt.symm)
      (by decide) (by decide)).1 (Or.inl (by decide))⟩

/-- C14. For every buffer of fewer than `2^32` bytes (the range of the read
position), every reader state reached from `DecompressionContext_init` after
`k` bits have been read, and every `n` with `1 ≤ n ≤ 32` and
`k + n ≤ 8 * buf_len` (the buffer holding its `buf_len` bytes),
`DecompressionContext_read_bits(n)` returns
`sum over i < n of bit (k + i) * 2 ^ (n - 1 - i)` with
`bit j = (buf[j / 8] >> (7 - j mod 8)) & 1`; the result is below `2 ^ n`, its
most significant bit (bit `n - 1`) is the first bit read, and the state left
is one reached after `k + n` bits. -/
theorem read_bits_value (self : DecompressionContext) (buf : List Nat) (buf_len k n : Nat)
    (s : DecompressionContext)
    (hlen : buf.length < 4294967296) (hbl : buf_len ≤ buf.length)
    (hreach : ReachedAfter (DecompressionContext_init self buf buf_len) k s)
    (h1 : 1 ≤ n) (h32 : n ≤ 32) (hk : k + n ≤ 8 * buf_len) :
    ∃ v s', DecompressionContext_read_bits s n = .ret (v, s') ∧
      v = ∑ i in Finset.range n, bitNat buf (k + i) * 2 ^ (n - 1 - i) ∧
      v < 2 ^ n ∧ v / 2 ^ (n - 1) = bitNat buf k ∧
      ReachedAfter (DecompressionContext_init self buf buf_len) (k + n) s' := by
  obtain ⟨_, lb, w, hs⟩ := ReachedAfter_readerAt self buf buf_len hlen k s hreach
  have hread : DecompressionContext_read_bits s n
      = .ret (readVal buf k n, readerAt
          { DecompressionContext_init self buf buf_len with
            lookback_buffer := lb, lookback_buffer_write_index := w } (k + n)) := by
    rw [hs]
    exact read_bits_at _ k n (Nat.le_of_lt hlen) h1 h32 (by
      show k + n ≤ 8 * buf.length
      omega)
  obtain ⟨m, rfl⟩ : ∃ m, n = m + 1 := ⟨n - 1, by omega⟩
  exact ⟨_, _, hread, readVal_eq_sum buf (m + 1) k, readVal_lt buf (m + 1) k,
    readVal_msb buf m k, ReachedAfter.read k (m + 1) _ s _ hreach h1 h32 hread⟩

/-- Witness of C14: over the buffer `AB CD`, after 4 bits have been read, a
read of 8 bits returns `0xBC`. -/
theorem read_bits_value_witness :
    ∃ v s', DecompressionContext_read_bits
        (readerAt (DecompressionContext_init DecompressionContext.zero [0xAB, 0xCD] 2) 4) 8
          = .ret (v, s') ∧
      v = ∑ i in Finset.range 8, bitNat [0xAB, 0xCD] (4 + i) * 2 ^ (8 - 1 - i) ∧
      v < 2 ^ 8 ∧ v / 2 ^ (8 - 1) = bitNat [0xAB, 0xCD] 4 ∧
      ReachedAfter (DecompressionContext_init DecompressionContext.zero [0xAB, 0xCD] 2) (4 + 8) s' :=
  read_bits_value DecompressionContext.zero [0xAB, 0xCD] 2 4 8 _ (by decide) (by decide)
    (ReachedAfter.read 0 4 _ _ _ ReachedAfter.start (by decide) (by decide)
      (by
        rw [readerAt_zero]
        exact read_bits_at _ 0 4 (by decide) (by decide) (by decide) (by decide)))
    (by decide) (by decide) (by decide)

set_option maxRecDepth 100000 in
/-- C15, counterexample. With `buf_len = 1` and two bytes `AB CD` in memory, a
read of 16 bits from the start (`k + n = 16 > 8 * buf_len`) returns `0xABCD`:
no error, and the byte at index 1 is read. A decode of the 5-byte stream of
"ababa" declared with `buf_len = 2` returns the 5 bytes, and so does the read
of the archive entry of `imageLshort`, whose `compressed_length` is 2. -/
theorem read_bits_past_buf_len :
    (DecompressionContext_read_bits
        (DecompressionContext_init DecompressionContext.zero [0xAB, 0xCD] 1) 16).map Prod.fst
      = .ret 0xABCD ∧
    (DecompressionContext_unpack
        (DecompressionContext_init DecompressionContext.zero [0xB0, 0xD8, 0x80, 0x01, 0x00] 2)
        5).written = .ret [97, 98, 97, 98, 97] ∧
    read_wad_file zlibRef DecompressionContext.zero [wadOf imageLshort] name_a_txt
      = .ret (some ([97, 98, 97, 98, 97], 5)) := by
  decide

/-- C15, amended. `DecompressionContext_read_bits` raises no end-of-stream
error and does not consult `buf_len`. Over a memory of fewer than `2^32` bytes
behind `buf`, in a state reached after `k` bits: when the `n` bits lie in that
memory it returns their value, also when `k + n > 8 * buf_len`; when fewer
than `n` bits remain in that memory it reads the byte just past it (an access
outside the object) and does not return. Consequently a decode never returns
with fewer bytes written than the declared output length, raises no error, and
writes the same bytes whatever `buf_len` is. -/
theorem read_bits_end_of_memory (self : DecompressionContext) (buf : List Nat)
    (buf_len k n : Nat) (s : DecompressionContext)
    (hlen : buf.length < 4294967296)
    (hreach : ReachedAfter (DecompressionContext_init self buf buf_len) k s)
    (h1 : 1 ≤ n) (h32 : n ≤ 32) :
    (k + n ≤ 8 * buf.length →
        ∃ s', DecompressionContext_read_bits s n = .ret (readVal buf k n, s')) ∧
    (8 * buf.length < k + n → DecompressionContext_read_bits s n = .oob) ∧
    (∀ m, DecompressionContext_read_bits s n ≠ .fatal m) ∧
    (∀ L, L < 4294967296 →
      (∀ ctx out,
          DecompressionContext_unpack (DecompressionContext_init self buf buf_len) L
            = .ret (ctx, out) → L ≤ out.length) ∧
      (∀ m, DecompressionContext_unpack (DecompressionContext_init self buf buf_len) L
          ≠ .fatal m) ∧
      (∀ x, (DecompressionContext_unpack (DecompressionContext_init self buf x) L).written
          = (DecompressionContext_unpack
              (DecompressionContext_init self buf buf_len) L).written)) := by
  obtain ⟨hk, lb, w, hs⟩ := ReachedAfter_readerAt self buf buf_len hlen k s hreach
  refine ⟨?_, ?_, fun m => read_bits_ne_fatal s n m, ?_⟩
  · intro hin
    rw [hs]
    exact ⟨_, read_bits_at _ k n (Nat.le_of_lt hlen) h1 h32 hin⟩
  · intro hout
    rw [hs]
    exact read_bits_end _ k n hlen h1 h32 hk hout
  · intro L hL
    refine ⟨?_, fun m => unpack_ne_fatal _ L m, fun x => unpack_written_buf_len self buf x buf_len L⟩
    intro ctx out hrun
    have := unpack_loop_written _ _ [] L (ctx, out) hL hrun
    simpa using this

/-- Witness of C15 (amended): `buf_len = 1`, two bytes in memory, 16 bits read
from the start. -/
theorem read_bits_end_of_memory_witness :
    ∃ s', DecompressionContext_read_bits
        (DecompressionContext_init DecompressionContext.zero [0xAB, 0xCD] 1) 16
      = .ret (readVal [0xAB, 0xCD] 0 16, s') :=
  (read_bits_end_of_memory DecompressionContext.zero [0xAB, 0xCD] 1 0 16 _ (by decide)
    ReachedAfter.start (by decide) (by decide)).1 (by decide)

set_option maxRecDepth 100000 in
/-- C16, counterexample. The LZ entry of `imageLlong` declares 100 compressed
bytes at offset 24 of an image of 30 bytes: the read raises no error and
returns the 5 decoded bytes. The raw entry of `imageT` declares 9 bytes at
offset 24 of an image of 29 bytes: the read copies from beyond the end of the
image. -/
theorem no_corrupt_archive_error :
    imageLlong.length < 24 + 100 ∧
    read_wad_file zlibRef DecompressionContext.zero [wadOf imageLlong] name_a_txt
      = .ret (some ([97, 98, 97, 98, 97], 5)) ∧
    imageT.length < 24 + 9 ∧
    read_wad_file zlibRef DecompressionContext.zero [wadOf imageT] name_a_txt = .oob := by
  decide

/-- C16, amended. `read_wad_file` compares no offset or length with the image
length and raises no corrupt-archive error: its only errors are the three
zlib failures, raised on the zlib path. For an entry the name resolves to
with `start_offset + compressed_length` greater than the image length: a raw
entry of one byte or more is copied from beyond the end of the image (an
access outside the image), a raw entry of 0 bytes is returned as the empty
buffer (the copy of 0 bytes reads nothing), and an LZ entry is decoded from
the bytes the image holds from `start_offset` on, with the same result
whatever `compressed_length` is. -/
theorem read_beyond_image (z : Zlib) (tmp : DecompressionContext) (g : List MountedWAD)
    (filename : List Nat) (w : MountedWAD) (e : WADEntry)
    (hres : Resolves g (name_hash z filename) w e)
    (hbeyond : w.header.length < e.start_offset + e.compressed_length) :
    (e.length = e.compressed_length → e.length ≠ 0 →
        read_wad_file z tmp g filename = .oob) ∧
    (e.length = e.compressed_length → e.length = 0 →
        read_wad_file z tmp g filename = .ret (some ([], 0))) ∧
    (∀ msg, read_wad_file z tmp g filename = .fatal msg →
        (e.length ≠ e.compressed_length ∧ e.length &&& 0x80000000 ≠ 0) ∧
        (msg = "Invalid zlib header" ∨ msg = "Failed to init zlib"
          ∨ msg = "%s: zlib error for %s")) ∧
    (e.length ≠ e.compressed_length → e.length &&& 0x80000000 = 0 →
        ∀ c, c ≠ e.length →
          read_wad_entry z tmp w { e with compressed_length := c } = read_wad_entry z tmp w e) := by
  have hr := read_wad_file_resolves z tmp g filename w e hres
  refine ⟨?_, ?_, ?_, ?_⟩
  · intro hraw hpos
    rw [hr, read_wad_entry_raw z tmp w e hraw]
    rw [← hraw] at hbeyond
    rw [if_neg (by omega)]
    rfl
  · intro hraw hzero
    rw [hr, read_wad_entry_raw z tmp w e hraw, if_pos (Or.inl hzero), hzero]
    rfl
  · intro msg hmsg
    rw [hr] at hmsg
    have hentry := (Outcome.map_eq_fatal _ _ _).1 hmsg
    by_cases hraw : e.length = e.compressed_length
    · rw [read_wad_entry_raw z tmp w e hraw] at hentry
      by_cases hin : e.length = 0 ∨ e.start_offset + e.length ≤ w.header.length
      · rw [if_pos hin] at hentry; cases hentry
      · rw [if_neg hin] at hentry; cases hentry
    · by_cases hclear : e.length &&& 0x80000000 = 0
      · rw [read_wad_entry_lz z tmp w e hraw hclear] at hentry
        rcases (Outcome.bind_eq_fatal _ _ _).1 hentry with h | ⟨r, _, h⟩
        · exact absurd h (unpack_ne_fatal _ _ _)
        · by_cases hover : e.length < r.2.length
          · rw [if_pos hover] at h; cases h
          · rw [if_neg hover] at h; cases h
      · refine ⟨⟨hraw, hclear⟩, ?_⟩
        cases hfirst : w.header.get? e.start_offset with
        | none =>
          rw [read_wad_entry_zlib_oob z tmp w e hraw hclear hfirst] at hentry
          cases hentry
        | some first =>
          rw [read_wad_entry_zlib z tmp w e first hraw hclear hfirst] at hentry
          by_cases h78 : first ≠ 0x78
          · rw [if_pos h78] at hentry
            simp only [Outcome.fatal.injEq] at hentry
            exact Or.inl hentry.symm
          rw [if_neg h78] at hentry
          by_cases hinit : z.inflateInit ≠ 0
          · rw [if_pos hinit] at hentry
            simp only [Outcome.fatal.injEq] at hentry
            exact Or.inr (Or.inl hentry.symm)
          rw [if_neg hinit] at hentry
          by_cases hbad : (inflate_entry z w e).res ≠ 1
              ∨ (inflate_entry z w e).total_out ≠ e.length &&& 0x7FFFFFFF
          · rw [if_pos hbad] at hentry
            simp only [Outcome.fatal.injEq] at hentry
            exact Or.inr (Or.inr hentry.symm)
          · rw [if_neg hbad] at hentry; cases hentry
  · intro hne hclear c hc
    have hne' : ({ e with compressed_length := c } : WADEntry).length
        ≠ ({ e with compressed_length := c } : WADEntry).compressed_length := fun h => hc h.symm
    rw [read_wad_entry_lz z tmp w e hne hclear,
      read_wad_entry_lz z tmp w { e with compressed_length := c } hne' hclear]
    show (DecompressionContext_unpack
        (DecompressionContext_init tmp (w.header.drop e.start_offset) c) e.length).bind _
      = (DecompressionContext_unpack (DecompressionContext_init tmp (w.header.drop e.start_offset)
          e.compressed_length) e.length).bind _
    rw [unpack_init_buf_len tmp _ c e.compressed_length]
    cases DecompressionContext_unpack
      (DecompressionContext_init tmp (w.header.drop e.start_offset) e.compressed_length)
      e.length <;> rfl

set_option maxRecDepth 100000 in
/-- Witness of C16 (amended): the raw entry of `imageT` ends past the image. -/
theorem read_beyond_image_witness :
    read_wad_file zlibRef DecompressionContext.zero [wadOf imageT] name_a_txt = .oob :=
  (read_beyond_image zlibRef DecompressionContext.zero [wadOf imageT] name_a_txt (wadOf imageT)
    { name := 4164353880, start_offset := 24, length := 9, compressed_length := 9 }
    (Resolves_wadOf imageT _ 1 _ rfl (by decide) rfl name_hash_a_txt.symm)
    (by decide)).1 rfl (by decide)

/-- C17. Lookback window invariant with wraparound. At every point of
`DecompressionContext_unpack` where `N` bytes have been emitted (`N` may
exceed 8192) the write cursor equals `(1 + N) mod 8192` and for every
`j < min N 8192` the lookback buffer holds
`lookback[(N - j) mod 8192] = out[N - 1 - j]` (this is `WindowInv`): it holds
after `DecompressionContext_init`, every iteration of the copy loop keeps it,
every iteration of the outer loop keeps it, and it holds for the final
context and output of every run that returns. So the buffer is the last
`min N 8192` emitted bytes, and a back-reference read at slot
`(N - j) mod 8192` gets the byte emitted `j + 1` positions earlier, across the
wrap boundary as well. -/
theorem window_invariant (self : DecompressionContext) (buf : List Nat) (buf_len : Nat) :
    WindowInv (DecompressionContext_init self buf buf_len) [] ∧
    (∀ o i ctx out L, WindowInv ctx out →
        WindowInv (copy_step o i ctx out L).1 (copy_step o i ctx out L).2.1) ∧
    (∀ ctx out L st, WindowInv ctx out → unpack_step ctx out L = .ret st →
        WindowInv st.1 st.2.1) ∧
    (∀ L ctx out,
        DecompressionContext_unpack (DecompressionContext_init self buf buf_len) L
          = .ret (ctx, out) →
        ctx.lookback_buffer_write_index = (1 + out.length) % 8192 ∧
        ∀ j, j < min out.length 8192 →
          out[out.length - 1 - j]? = some (ctx.lookback_buffer ((out.length - j) % 8192))) := by
  refine ⟨WindowInv_init self buf buf_len, ?_, ?_, ?_⟩
  · intro o i ctx out L h
    exact copy_step_WindowInv o i ctx out L h
  · intro ctx out L st h hstep
    exact unpack_step_WindowInv ctx out L st h hstep
  · intro L ctx out hrun
    exact unpack_loop_WindowInv _ _ [] L (ctx, out) (WindowInv_init self buf buf_len) hrun

/-- C18. Concrete LZ scenario: the bits
`1 01100001 1 01100010 0 0000000000001 0000` (literal 'a', literal 'b',
back-reference with offset 1 and count 3) pack into the bytes
`B0 D8 80 01 00`; decoding them from a freshly initialised context (write
cursor 1, any earlier contents of the lookback buffer) with output length 5
returns with the 5 bytes "ababa" written: "ab", then the three bytes read from
the lookback slots 1, 2 and 3, which hold 'a', 'b' and 'a'. -/
theorem lz_scenario (self : DecompressionContext) (buf_len : Nat) :
    packBits
      [true, false, true, true, false, false, false, false, true, true, false, true,
       true, false, false, false, true, false, false, false, false, false, false, false,
       false, false, false, false, false, false, false, true, false, false, false,
       false]
      = [0xB0, 0xD8, 0x80, 0x01, 0x00] ∧
    (DecompressionContext_init self [0xB0, 0xD8, 0x80, 0x01, 0x00]
      buf_len).lookback_buffer_write_index = 1 ∧
    ∃ ctx, DecompressionContext_unpack
        (DecompressionContext_init self [0xB0, 0xD8, 0x80, 0x01, 0x00] buf_len) 5
          = .ret (ctx, [97, 98, 97, 98, 97]) ∧
      ctx.lookback_buffer 1 = 97 ∧ ctx.lookback_buffer 2 = 98 ∧ ctx.lookback_buffer 3 = 97 := by
  refine ⟨by decide, rfl, ?_⟩
  have hser : serialise [.literal 97, .literal 98, .backref 1 3] []
      = [0xB0, 0xD8, 0x80, 0x01, 0x00] := by decide
  have hbits : BitsAt [0xB0, 0xD8, 0x80, 0x01, 0x00] 0
      (tokenBits [.literal 97, .literal 98, .backref 1 3]) := by
    rw [← hser]
    exact ((BitsAt_append _ _ _ 0).1
      (BitsAt_packBits (tokenBits [.literal 97, .literal 98, .backref 1 3] ++ []))).1
  have hout : (expandFrom [.literal 97, .literal 98, .backref 1 3] Window.initial []).map
      (fun st => (st.2, st.1.lookback 1, st.1.lookback 2, st.1.lookback 3))
      = some ([97, 98, 97, 98, 97], some 97, some 98, some 97) := by decide
  cases hexp : expandFrom [.literal 97, .literal 98, .backref 1 3] Window.initial [] with
  | none => rw [hexp] at hout; cases hout
  | some st =>
    obtain ⟨w', out⟩ := st
    rw [hexp] at hout
    simp only [Option.map_some', Option.some.injEq, Prod.mk.injEq] at hout
    obtain ⟨hout, hl1, hl2, hl3⟩ := hout
    subst hout
    obtain ⟨base', hrun, hag, _⟩ := unpack_loop_tokens [.literal 97, .literal 98, .backref 1 3] 6
      (DecompressionContext_init self [0xB0, 0xD8, 0x80, 0x01, 0x00] buf_len) 0
      Window.initial [] w' [97, 98, 97, 98, 97] 5 (by decide) (by decide) hbits
      (by simp only [DecompressionContext_init]; decide)
      (by simp only [DecompressionContext_init]; decide)
      (Agrees_initial _ _ _) hexp (by decide) (by decide)
    rw [← readerAt_zero] at hrun
    exact ⟨_, hrun, hag.2 1 97 hl1, hag.2 2 98 hl2, hag.2 3 97 hl3⟩

set_option maxRecDepth 100000 in
/-- The concrete raw scenario with `start_offset = 16`. In the archive laid out with header
`{version = 1, entry_count = 1}` and the one entry
`{crc32("a.txt"), start_offset = 16, stored_length = 5, compressed_length = 5}`
the header and the entry take the first 24 bytes, so the payload "hello"
stands at offset 24 and the 5 bytes at offset 16 are those of the entry's own
fields `stored_length` and `compressed_length`, `05 00 00 00 05`; these are
what the read of "a.txt" returns, not "hello". No image has both that entry
and "hello" at offset 16: with "hell" at offset 16 the field `stored_length`
of the first entry is `0x6C6C6568`. -/
theorem raw_scenario_offset_16 :
    load_u32 image16 0 = some 1 ∧ load_u32 image16 4 = some 1 ∧
    load_entry image16 0
      = some { name := 4164353880, start_offset := 16, length := 5, compressed_length := 5 } ∧
    image16.drop 24 = [104, 101, 108, 108, 111] ∧
    (image16.drop 16).take 5 = [5, 0, 0, 0, 5] ∧
    read_wad_file zlibRef DecompressionContext.zero [wadOf image16] name_a_txt
      = .ret (some ([5, 0, 0, 0, 5], 5)) ∧
    read_file zlibRef DecompressionContext.zero fsAB [wadOf image16] name_a_txt
      = .ret (some ([5, 0, 0, 0, 5], 5)) ∧
    (∀ img e, (img.drop 16).take 5 = [104, 101, 108, 108, 111] →
        load_entry img 0 = some e → e.length = 0x6C6C6568) := by
  refine ⟨by decide, by decide, by decide, by decide, by decide, by decide, by decide, ?_⟩
  intro img e h he
  have h4 : (img.drop 16).take 4 = [104, 101, 108, 108] := by
    have := congrArg (List.take 4) h
    simpa [List.take_take] using this
  exact load_entry_length_of_take img e 104 101 108 108 h4 he

set_option maxRecDepth 100000 in
/-- The concrete raw scenario with `start_offset = 24`: for the mounted archive image laid out
as the container format prescribes, with header
`{version = 1, entry_count = 1}`, one entry
`{crc32("a.txt"), start_offset = 24, stored_length = 5, compressed_length = 5}`
and the payload bytes "hello" at offset 24 (right after the 8-byte header and
the 16-byte entry), `read("a.txt")` returns the 5 bytes "hello": from
`read_wad_file`, and from `read_file` over any file system. -/
theorem raw_scenario (tmp : DecompressionContext) (fs : FileSystem) :
    load_u32 image24 0 = some 1 ∧ load_u32 image24 4 = some 1 ∧
    load_entry image24 0
      = some { name := name_hash zlibRef name_a_txt, start_offset := 24, length := 5,
               compressed_length := 5 } ∧
    image24.drop 24 = [104, 101, 108, 108, 111] ∧
    read_wad_file zlibRef tmp [wadOf image24] name_a_txt
      = .ret (some ([104, 101, 108, 108, 111], 5)) ∧
    read_file zlibRef tmp fs [wadOf image24] name_a_txt
      = .ret (some ([104, 101, 108, 108, 111], 5)) := by
  have hres : Resolves [wadOf image24] (name_hash zlibRef name_a_txt) (wadOf image24)
      { name := 4164353880, start_offset := 24, length := 5, compressed_length := 5 } :=
    Resolves_wadOf image24 _ 1 _ rfl (by decide) rfl name_hash_a_txt.symm
  have hentry : read_wad_entry zlibRef tmp (wadOf image24)
      { name := 4164353880, start_offset := 24, length := 5, compressed_length := 5 }
      = .ret ([104, 101, 108, 108, 111], 5) := by
    rw [read_wad_entry_raw zlibRef tmp _ _ rfl]
    rfl
  have hread := read_wad_file_resolves zlibRef tmp _ name_a_txt _ _ hres
  rw [hentry] at hread
  refine ⟨rfl, rfl, ?_, by decide, hread, read_file_of_found zlibRef tmp fs _ name_a_txt _ hread⟩
  rw [name_hash_a_txt]
  rfl

/-- C20. Reads never mutate the mount chain. On a memory that holds the chain,
its images and the buffers the reads allocate, whenever `read_wad_file(name,
len)` or `read_file(name, len)` returns (the name found or not, through any
codec path): the global `g_mounted_wads` is what it was; every byte buffer
that existed before the call (every image with its entry table, every name
string) holds the bytes it held; every `struct MountedWAD` is what it was,
but for the one whose field `len` the caller passed as `len`; so the chain
read from the memory (its nodes in order, each with its name, image bytes and
`len`) is unchanged when `len` is not the field of one of its nodes. -/
theorem reads_leave_chain (z : Zlib) (tmp : DecompressionContext) (fs : FileSystem)
    (m m' : Memory) (filename : List Nat) (len : Option SizePtr) (result : Option Nat)
    (h : read_wad_file_mem z tmp m filename len = .ret (result, m') ∨
      read_file_mem z tmp fs m filename len = .ret (result, m')) :
    m'.g_mounted_wads = m.g_mounted_wads ∧
    (∀ addr data, m.objects.get? addr = some (.bytes data) →
        m'.objects.get? addr = some (.bytes data)) ∧
    (∀ addr f hd l n, m.objects.get? addr = some (.wad f hd l n) →
        len ≠ some (.wad_len addr) → m'.objects.get? addr = some (.wad f hd l n)) ∧
    (∀ fuel chain, chain_view fuel m m.g_mounted_wads = some chain →
        (∀ addr, len = some (.wad_len addr) → addr ∉ chain.map Prod.fst) →
        chain_view fuel m' m'.g_mounted_wads = some chain) := by
  have hk : Kept len m.objects.length m m' := by
    rcases h with h | h
    · exact read_wad_file_mem_Kept z tmp m filename len _ h
    · exact read_file_mem_Kept z tmp fs m filename len _ h
  have hlt : ∀ addr obj, m.objects.get? addr = some obj → addr < m.objects.length := by
    intro addr obj h
    rw [List.get?_eq_getElem?] at h
    exact (List.getElem?_eq_some.1 h).1
  refine ⟨hk.1, ?_, ?_, ?_⟩
  · intro addr data hd
    exact (hk.2.2 addr (hlt _ _ hd)).1 _ hd
  · intro addr f hd l n hw hne
    exact (hk.2.2 addr (hlt _ _ hw)).2 _ _ _ _ hw hne
  · intro fuel chain hc hlen
    rw [hk.1]
    exact chain_view_Kept len m m' hk fuel _ chain hc hlen

set_option maxRecDepth 100000 in
/-- Witness of C20: `a.txt` read from the memory `memA` with `len` a variable
of the caller: the chain read from the memory after the call is `[wadA]` at
the node 2, as before. -/
theorem reads_leave_chain_witness :
    chain_view 2
      { objects := [.bytes name_a_wad, .bytes imageA, .wad 0 1 imageA.length none, .size_t 5,
          .bytes [104, 101, 108, 108, 111]], g_mounted_wads := some 2 }
      (some 2) = some [(2, wadA)] :=
  (reads_leave_chain zlibRef DecompressionContext.zero fsAB memA
    { objects := [.bytes name_a_wad, .bytes imageA, .wad 0 1 imageA.length none, .size_t 5,
        .bytes [104, 101, 108, 108, 111]], g_mounted_wads := some 2 }
    name_a_txt (some (.var 3)) (some 4) (Or.inl (by decide))).2.2.2 2 [(2, wadA)] (by decide)
    (fun addr h => by cases h)

set_option maxRecDepth 100000 in
/-- C21, counterexample. The file system `fsAB` holds the file `b.wad` with the
bytes of `imageB`, and the chain holds one archive with an entry of the name
hash of `b.wad` (the bytes `01 02 03`). `mount_wad("b.wad")` succeeds and the
image of the container put at the front of the chain is `01 02 03`, the
decoded entry of the mounted archive, not the contents of the file. -/
theorem mount_reads_through_archives :
    fsAB.fopen name_b_wad = some imageB ∧
    mount_wad zlibRef DecompressionContext.zero fsAB [wadOf imageN] name_b_wad
      = .ret (true, [{ filename := name_b_wad, header := [1, 2, 3], len := 3 }, wadOf imageN]) ∧
    mount_wad zlibRef DecompressionContext.zero fsAB [] name_b_wad
      = .ret (true, [{ filename := name_b_wad, header := imageB, len := imageB.length }]) ∧
    imageB ≠ [1, 2, 3] := by
  decide

/-- C21, amended. `mount_wad(path)` loads what `read_file(path)` returns against
the chain already mounted: after a successful `mount_wad(path)` the container
at the front of the chain carries `path` and, when no mounted archive has an
entry with the name hash of `path`, its image is byte-identical to the
contents of the real file at `path`; when the lookup of that hash resolves to
an entry of a mounted archive, its image is the decoding of that entry. -/
theorem mount_wad_image (z : Zlib) (tmp : DecompressionContext) (fs : FileSystem)
    (g g' : List MountedWAD) (path : List Nat)
    (h : mount_wad z tmp fs g path = .ret (true, g')) :
    ∃ wad, g' = wad :: g ∧ wad.filename = path ∧
      (Unresolved g (name_hash z path) →
        fs.fopen path = some wad.header ∧ wad.len = wad.header.length) ∧
      (∀ w e, Resolves g (name_hash z path) w e →
        read_wad_entry z tmp w e = .ret (wad.header, wad.len)) := by
  obtain ⟨header, len, hread, hg⟩ := mount_wad_true z tmp fs g g' path h
  refine ⟨{ filename := path, header := header, len := len }, hg, rfl, ?_, ?_⟩
  · intro hun
    have h1 := read_file_of_not_found z tmp fs g path (read_wad_file_unresolved z tmp g path hun)
    rw [hread] at h1
    cases hf : fs.fopen path with
    | none => rw [hf] at h1; cases h1
    | some contents =>
      rw [hf] at h1
      dsimp only at h1
      by_cases hu : fs.unread path ≠ 0
      · rw [if_pos hu] at h1
        cases h1
      · rw [if_neg hu] at h1
        simp only [Outcome.ret.injEq, Option.some.injEq, Prod.mk.injEq] at h1
        obtain ⟨h2, h3⟩ := h1
        subst h2
        exact ⟨rfl, h3⟩
  · intro w e hres
    have h1 := read_file_of_found z tmp fs g path (read_wad_entry z tmp w e)
      (read_wad_file_resolves z tmp g path w e hres)
    rw [hread] at h1
    exact (Outcome.map_some_eq_ret _ _).1 h1.symm

set_option maxRecDepth 100000 in
/-- Witness of C21 (amended): `b.wad` mounted over the chain `[wadA]`, which has
no entry of that name hash, carries the bytes of the file. -/
theorem mount_wad_image_witness :
    ∃ wad, [{ filename := name_b_wad, header := imageB, len := imageB.length }, wadA]
        = wad :: [wadA] ∧ wad.filename = name_b_wad ∧
      (Unresolved [wadA] (name_hash zlibRef name_b_wad) →
        fsAB.fopen name_b_wad = some wad.header ∧ wad.len = wad.header.length) ∧
      (∀ w e, Resolves [wadA] (name_hash zlibRef name_b_wad) w e →
        read_wad_entry zlibRef DecompressionContext.zero w e = .ret (wad.header, wad.len)) :=
  mount_wad_image zlibRef DecompressionContext.zero fsAB [wadA] _ name_b_wad (by decide)

/-- C22. Manifest processing: for every manifest text whose lines are each
terminated by `'\n'` (lines of a text: no NUL byte in them),
`parse_file_lines` with `parse_wadlist_line` makes the calls `mount_wad(l)`,
one after the other in file order, for exactly the lines `l` that are not
empty and do not start with `#`, passing the line without its terminator; on a
blank line and on a line starting with `#` the callback returns without a
call. More generally `parse_file_lines` invokes any callback once per line,
in order, on the C string of the line. -/
theorem manifest_processing (z : Zlib) (tmp : DecompressionContext) (fs : FileSystem)
    (g : List MountedWAD) (len0 : Nat) (filename : List Nat) (lines : List (List Nat))
    (hlines : ∀ l ∈ lines, 10 ∉ l ∧ 0 ∉ l)
    (hread : read_file z tmp fs g filename
      = .ret (some (joinLines lines, (joinLines lines).length))) :
    parse_file_lines z tmp fs g len0 filename (parse_wadlist_line z tmp fs) g
      = runLines (fun l g1 => (mount_wad z tmp fs g1 l).map Prod.snd)
          (lines.filter fun l => decide (l ≠ []) && decide (l.head? ≠ some 35)) g ∧
    (∀ l ∈ lines, ∀ rest g1, parse_wadlist_line z tmp fs (l ++ 0 :: rest) g1
      = if l ≠ [] ∧ l.head? ≠ some 35 then (mount_wad z tmp fs g1 l).map Prod.snd
        else .ret g1) ∧
    (∀ (σ : Type) (f : List Nat → σ → Outcome σ) (st : σ),
      parse_file_lines z tmp fs g len0 filename (fun p s => f (c_string p) s) st
        = runLines f lines st) ∧
    parse_file_lines z tmp fs g len0 filename
        (fun p (calls : List (List Nat)) => .ret (calls ++ [c_string p])) []
      = .ret lines := by
  have hpath : ∀ l : List Nat, isPathLine l = (decide (l ≠ []) && decide (l.head? ≠ some 35)) := by
    intro l
    cases l with
    | nil => rfl
    | cons c l =>
      by_cases hc : c = 35 <;> simp [isPathLine, hc]
  have hfilter : (lines.filter fun l => decide (l ≠ []) && decide (l.head? ≠ some 35))
      = lines.filter isPathLine := by
    congr 1
    funext l
    exact (hpath l).symm
  have hgen : ∀ (σ : Type) (f : List Nat → σ → Outcome σ) (st : σ),
      parse_file_lines z tmp fs g len0 filename (fun p s => f (c_string p) s) st
        = runLines f lines st := by
    intro σ f st
    exact parse_file_lines_joinLines z tmp fs g len0 filename _ f lines st hlines
      (fun l hl rest s => by
        show f (c_string (l ++ 0 :: rest)) s = f l s
        rw [c_string_line l rest (hlines l hl).2]) hread
  refine ⟨?_, ?_, hgen, ?_⟩
  · rw [hfilter]
    exact parse_wadlist_joinLines z tmp fs g g len0 filename lines hlines hread
  · intro l hl rest g1
    rw [parse_wadlist_line_eq z tmp fs l rest g1 (hlines l hl).2, hpath l]
    by_cases h1 : l ≠ [] ∧ l.head? ≠ some 35
    · rw [if_pos h1]
      simp [h1.1, h1.2]
    · rw [if_neg h1]
      have : (decide (l ≠ []) && decide (l.head? ≠ some 35)) = false := by
        cases hb : (decide (l ≠ []) && decide (l.head? ≠ some 35)) with
        | false => rfl
        | true =>
          exfalso
          simp only [Bool.and_eq_true, decide_eq_true_eq] at hb
          exact h1 hb
      rw [this]
      rfl
  · rw [hgen (List (List Nat)) (fun l calls => .ret (calls ++ [l])) []]
    have : ∀ (ls : List (List Nat)) (acc : List (List Nat)),
        runLines (fun l (calls : List (List Nat)) => Outcome.ret (calls ++ [l])) ls acc
          = .ret (acc ++ ls) := by
      intro ls
      induction ls with
      | nil => intro acc; simp [runLines]
      | cons l ls ih =>
        intro acc
        rw [runLines]
        simp only [Outcome.bind]
        rw [ih]
        simp
    simpa using this lines []

set_option maxRecDepth 100000 in
/-- Witness of C22: the manifest `# list`, empty line, `a.wad`, `b.wad` of
`fsMain`, processed from the empty chain, mounts `a.wad` and then `b.wad`. -/
theorem manifest_processing_witness :
    parse_file_lines zlibRef DecompressionContext.zero fsMain [] 0 name_wadlist_txt
        (parse_wadlist_line zlibRef DecompressionContext.zero fsMain) []
      = runLines (fun l g1 => (mount_wad zlibRef DecompressionContext.zero fsMain g1 l).map Prod.snd)
          [name_a_wad, name_b_wad] [] :=
  (manifest_processing zlibRef DecompressionContext.zero fsMain [] 0 name_wadlist_txt
    [[35, 32, 108, 105, 115, 116], [], name_a_wad, name_b_wad] (by decide) (by decide)).1

/-- C23. Self-referential copy: for the copy run of a back-reference executed
when the write cursor is `w`, with offset `o = (w - d) mod 8192` for some
`1 ≤ d ≤ 8191` and repeat count `c`, the emitted bytes `e[0..c)` are
`e[i] = lookback[(o + i) mod 8192]`, read in the lookback buffer as it was
before the run, for `i < d`, and `e[i] = e[i - d]` for `i ≥ d`. In particular
`d = 1` emits `c` times the byte at slot `(w - 1) mod 8192`, which is the byte
emitted last before the run. -/
theorem self_referential_copy (self : DecompressionContext) (buffer : List Nat) (L o c d : Nat)
    (hw : self.lookback_buffer_write_index < 8192) (hd1 : 1 ≤ d) (hd : d ≤ 8191)
    (ho : o = (self.lookback_buffer_write_index + 8192 - d) % 8192) :
    ∃ e : List Nat, e.length = c ∧
      (copy_loop o c 0 (self, buffer, L)).2.1 = buffer ++ e ∧
      (∀ i, i < c → i < d → e[i]? = some (self.lookback_buffer ((o + i) % 8192))) ∧
      (∀ i, i < c → d ≤ i → e[i]? = e[i - d]?) ∧
      (d = 1 → ∀ i, i < c →
        e[i]? = some (self.lookback_buffer ((self.lookback_buffer_write_index + 8191) % 8192))) ∧
      (d = 1 → WindowInv self buffer → buffer ≠ [] → ∀ i, i < c → e[i]? = buffer.getLast?) := by
  obtain ⟨e, hlen, hbuf, _, _, _, hlt, hge⟩ := copy_loop_self_ref self buffer L o d hw hd1 hd ho c
  have hone : d = 1 → ∀ i, i < c →
      e[i]? = some (self.lookback_buffer ((self.lookback_buffer_write_index + 8191) % 8192)) := by
    intro hd1' i
    subst hd1'
    induction i with
    | zero =>
      intro hi
      rw [hlt 0 hi (by omega), ho]
      have e1 : ((self.lookback_buffer_write_index + 8192 - 1) % 8192 + 0) % 8192
          = (self.lookback_buffer_write_index + 8191) % 8192 := by omega
      rw [e1]
    | succ i ih =>
      intro hi
      rw [hge (i + 1) hi (by omega)]
      exact ih (by omega)
  refine ⟨e, hlen, hbuf, hlt, hge, hone, ?_⟩
  intro hd1' hinv hne i hi
  rw [hone hd1' i hi]
  obtain ⟨hcur, hslots⟩ := hinv
  have hpos : 0 < buffer.length := List.length_pos.2 hne
  have h0 := hslots 0 (by simp only [lt_min_iff]; omega)
  simp only [Nat.sub_zero] at h0
  have e1 : ((1 + buffer.length) % 8192 + 8191) % 8192 = buffer.length % 8192 := by omega
  rw [List.getLast?_eq_getElem?, h0, hcur, e1]

/-- Witness of C23: cursor 3, `d = 1`, count 4, the slot 2 holding 98. -/
theorem self_referential_copy_witness :
    ∃ e : List Nat, e.length = 4 ∧
      (copy_loop 2 4 0
        ({ DecompressionContext.zero with
            lookback_buffer_write_index := 3,
            lookback_buffer := fun x => if x = 1 then 97 else if x = 2 then 98 else 0 },
         [97, 98], 4)).2.1 = [97, 98] ++ e ∧
      (∀ i, i < 4 → i < 1 → e[i]? = some
        ((fun x => if x = 1 then 97 else if x = 2 then 98 else 0) ((2 + i) % 8192))) ∧
      (∀ i, i < 4 → 1 ≤ i → e[i]? = e[i - 1]?) := by
  obtain ⟨e, h1, h2, h3, h4, _⟩ := self_referential_copy
    { DecompressionContext.zero with
        lookback_buffer_write_index := 3,
        lookback_buffer := fun x => if x = 1 then 97 else if x = 2 then 98 else 0 }
    [97, 98] 4 2 4 1 (by decide) (by decide) (by decide) (by decide)
  exact ⟨e, h1, h2, h3, h4⟩

/-- C24. Bit reads compose across byte boundaries: over a buffer of fewer than
`2^32` bytes, from every reader state reached after `k` bits and for every
`n, m ≥ 1` with `n + m ≤ 32` and `k + n + m ≤ 8 * |buf|`, reading `n` bits and
then `m` bits returns values `a` and `b`, and a single read of `n + m` bits
from the same state returns `a * 2^m + b` and leaves the same state as the two
reads. In a state reached after `k` bits the mask is `0x80 >> (k mod 8)` and
the read position is `ceil (k / 8)`. -/
theorem read_bits_compose (self : DecompressionContext) (buf : List Nat) (buf_len k n m : Nat)
    (s : DecompressionContext)
    (hlen : buf.length < 4294967296)
    (hreach : ReachedAfter (DecompressionContext_init self buf buf_len) k s)
    (hn : 1 ≤ n) (hm : 1 ≤ m) (hnm : n + m ≤ 32) (hk : k + n + m ≤ 8 * buf.length) :
    ∃ a b s1 s2,
      DecompressionContext_read_bits s n = .ret (a, s1) ∧
      DecompressionContext_read_bits s1 m = .ret (b, s2) ∧
      DecompressionContext_read_bits s (n + m) = .ret (a * 2 ^ m + b, s2) ∧
      s.bit_in_current_byte = 0x80 >>> (k % 8) ∧ s.current_byte_read_pos = (k + 7) / 8 ∧
      s1.bit_in_current_byte = 0x80 >>> ((k + n) % 8) ∧
      s1.current_byte_read_pos = (k + n + 7) / 8 ∧
      s2.bit_in_current_byte = 0x80 >>> ((k + n + m) % 8) ∧
      s2.current_byte_read_pos = (k + n + m + 7) / 8 := by
  obtain ⟨_, lb, w, hs⟩ := ReachedAfter_readerAt self buf buf_len hlen k s hreach
  have hmask : ∀ j : Nat, 2 ^ (7 - j % 8) = 0x80 >>> (j % 8) := by
    intro j
    have hj : j % 8 < 8 := Nat.mod_lt _ (by decide)
    interval_cases (j % 8) <;> rfl
  have hpos : ∀ j : Nat, j ≤ 8 * buf.length → (j + 7) / 8 % 4294967296 = (j + 7) / 8 := by
    intro j hj
    apply Nat.mod_eq_of_lt
    omega
  have h1 := read_bits_at
    { DecompressionContext_init self buf buf_len with
      lookback_buffer := lb, lookback_buffer_write_index := w } k n (Nat.le_of_lt hlen) hn
    (by omega) (by show k + n ≤ 8 * buf.length; omega)
  have h2 := read_bits_at
    { DecompressionContext_init self buf buf_len with
      lookback_buffer := lb, lookback_buffer_write_index := w } (k + n) m (Nat.le_of_lt hlen) hm
    (by omega) (by show k + n + m ≤ 8 * buf.length; omega)
  have h3 := read_bits_at
    { DecompressionContext_init self buf buf_len with
      lookback_buffer := lb, lookback_buffer_write_index := w } k (n + m) (Nat.le_of_lt hlen)
    (by omega) hnm (by show k + (n + m) ≤ 8 * buf.length; omega)
  rw [← hs] at h1 h3
  refine ⟨_, _, _, _, h1, h2, ?_, ?_, ?_, ?_, ?_, ?_, ?_⟩
  · rw [h3]
    have : readVal buf k (n + m) = readVal buf k n * 2 ^ m + readVal buf (k + n) m :=
      readVal_add buf n m k
    have e : k + (n + m) = k + n + m := by omega
    show Outcome.ret (readVal buf k (n + m), _) = Outcome.ret (readVal buf k n * 2 ^ m
      + readVal buf (k + n) m, _)
    rw [this, e]
  · rw [hs]; exact hmask k
  · rw [hs]; exact hpos k (by omega)
  · exact hmask (k + n)
  · exact hpos (k + n) (by omega)
  · exact hmask (k + n + m)
  · exact hpos (k + n + m) (by omega)

/-- Witness of C24: over `AB CD`, after 4 bits, 3 bits and then 6 bits. -/
theorem read_bits_compose_witness :
    ∃ a b s1 s2,
      DecompressionContext_read_bits
        (readerAt (DecompressionContext_init DecompressionContext.zero [0xAB, 0xCD] 2) 4) 3
          = .ret (a, s1) ∧
      DecompressionContext_read_bits s1 6 = .ret (b, s2) ∧
      DecompressionContext_read_bits
        (readerAt (DecompressionContext_init DecompressionContext.zero [0xAB, 0xCD] 2) 4) (3 + 6)
          = .ret (a * 2 ^ 6 + b, s2) := by
  obtain ⟨a, b, s1, s2, h1, h2, h3, _⟩ := read_bits_compose DecompressionContext.zero
    [0xAB, 0xCD] 2 4 3 6 _ (by decide)
    (ReachedAfter.read 0 4 _ _ _ ReachedAfter.start (by decide) (by decide)
      (by
        rw [readerAt_zero]
        exact read_bits_at _ 0 4 (by decide) (by decide) (by decide) (by decide)))
    (by decide) (by decide) (by decide) (by decide)
  exact ⟨a, b, s1, s2, h1, h2, h3⟩

/-- C25. Container layout: for every image of at least `8 + 16 * entry_count`
bytes, `version` is the 32-bit little-endian value of bytes `[0,4)`, the lookup
reads `entry_count` from bytes `[4,8)` and, for each `i < entry_count`, the
fields `name_hash`, `start_offset`, `stored_length` and `compressed_length` of
entry `i` as the 32-bit little-endian values at byte offsets `8+16i`, `12+16i`,
`16+16i` and `20+16i`: the name is resolved to the first entry whose value at
`8+16i` is the name hash. The payload pointer of an entry is image start +
`start_offset`: a raw entry is the `stored_length` bytes of the image from
index `start_offset` on, and the decoders are run on the image from that index
on. An image built as header, entry table and payload (`archiveImage`) is read
back with these fields, its payload standing at offset `8 + 16 * entry_count`. -/
theorem container_layout (z : Zlib) (tmp : DecompressionContext) (w : MountedWAD) (n : Nat)
    (hn : load_u32 w.header 4 = some n) (hlen : 8 + 16 * n ≤ w.header.length) :
    load_u32 w.header 0 = some (le32 w.header 0) ∧ n = le32 w.header 4 ∧
    (∀ i, i < n → load_entry w.header i
      = some { name := le32 w.header (8 + 16 * i), start_offset := le32 w.header (12 + 16 * i),
               length := le32 w.header (16 + 16 * i),
               compressed_length := le32 w.header (20 + 16 * i) }) ∧
    (∀ name i post, i < n → le32 w.header (8 + 16 * i) = name →
      (∀ j, j < i → le32 w.header (8 + 16 * j) ≠ name) →
      read_wad_chain z tmp name (w :: post)
        = (read_wad_entry z tmp w
            { name := le32 w.header (8 + 16 * i), start_offset := le32 w.header (12 + 16 * i),
              length := le32 w.header (16 + 16 * i),
              compressed_length := le32 w.header (20 + 16 * i) }).map some) ∧
    (∀ e : WADEntry, e.length = e.compressed_length →
      e.start_offset + e.length ≤ w.header.length →
      ∃ result, read_wad_entry z tmp w e = .ret (result, e.length) ∧ result.length = e.length ∧
        ∀ j, j < e.length → result[j]? = w.header[e.start_offset + j]?) ∧
    (∀ e : WADEntry, e.length ≠ e.compressed_length → e.length &&& 0x80000000 = 0 →
      read_wad_entry z tmp w e
        = (DecompressionContext_unpack
            (DecompressionContext_init tmp (w.header.drop e.start_offset) e.compressed_length)
            e.length).bind fun r =>
              if e.length < r.2.length then .oob else .ret (r.2, e.length)) ∧
    (∀ version entries payload, version < 4294967296 → entries.length < 4294967296 →
      (∀ e ∈ entries, e.Fits) →
      le32 (archiveImage version entries payload) 0 = version ∧
      le32 (archiveImage version entries payload) 4 = entries.length ∧
      (∀ i e, entries[i]? = some e →
        load_entry (archiveImage version entries payload) i = some e) ∧
      (archiveImage version entries payload).drop (8 + 16 * entries.length) = payload) := by
  have hentry : ∀ i, i < n → load_entry w.header i
      = some { name := le32 w.header (8 + 16 * i), start_offset := le32 w.header (12 + 16 * i),
               length := le32 w.header (16 + 16 * i),
               compressed_length := le32 w.header (20 + 16 * i) } :=
    fun i hi => load_entry_eq_le32 w.header i (by omega)
  have hname : ∀ i, i < n → nameAt w.header i = some (le32 w.header (8 + 16 * i)) := by
    intro i hi
    exact (nameAt_eq_some _ _ _).2 ⟨_, hentry i hi, rfl⟩
  refine ⟨load_u32_eq_le32 _ _ (by omega), ?_, hentry, ?_, ?_, ?_, ?_⟩
  · have := load_u32_eq_le32 w.header 4 (by omega)
    rw [hn] at this
    exact Option.some.inj this
  · intro name i post hi hthis hbefore
    refine read_wad_chain_first z tmp name w post i _ ⟨⟨n, hn, hi⟩, ?_, ?_⟩ (hentry i hi)
    · rw [hname i hi, hthis]
    · intro j hj
      rw [hname j (by omega)]
      exact fun hc => hbefore j hj (Option.some.inj hc)
  · intro e hraw hin
    refine ⟨(w.header.drop e.start_offset).take e.length, ?_, ?_, ?_⟩
    · rw [read_wad_entry_raw z tmp w e hraw, if_pos (Or.inr hin)]
    · rw [List.length_take, List.length_drop]
      omega
    · intro j hj
      rw [List.getElem?_take_of_lt hj, List.getElem?_drop]
  · intro e hne hclear
    exact read_wad_entry_lz z tmp w e hne hclear
  · intro version entries payload hv hcount hfit
    obtain ⟨h0, h4, hes, hpay⟩ := archiveImage_le32 version entries payload hv hcount hfit
    refine ⟨h0, h4, ?_, hpay⟩
    intro i e hi
    obtain ⟨e1, e2, e3, e4⟩ := hes i e hi
    have hil : i < entries.length := by
      by_contra hcon
      rw [List.getElem?_eq_none (by omega)] at hi
      cases hi
    have hsize : 8 + 16 * i + 16 ≤ (archiveImage version entries payload).length := by
      simp only [archiveImage, List.length_append, entryTable_length, store_u32, List.length_cons,
        List.length_nil]
      omega
    rw [load_entry_eq_le32 _ i hsize, e1, e2, e3, e4]

set_option maxRecDepth 100000 in
/-- Witness of C25: the image `image24`, one entry. -/
theorem container_layout_witness :
    load_entry (wadOf image24).header 0
      = some { name := le32 (wadOf image24).header (8 + 16 * 0),
               start_offset := le32 (wadOf image24).header (12 + 16 * 0),
               length := le32 (wadOf image24).header (16 + 16 * 0),
               compressed_length := le32 (wadOf image24).header (20 + 16 * 0) } :=
  (container_layout zlibRef DecompressionContext.zero (wadOf image24) 1 (by decide)
    (by decide)).2.2.1 0 (by decide)

/-- C26. Independence from uninitialised lookback memory: for every stream that
holds the bits of a token sequence whose documented expansion is defined (every
back-reference reads only lookback slots written earlier in the same decode;
slot 0 counts as written only after the cursor has wrapped) and for the output
length of that expansion, two runs of `DecompressionContext_unpack` from
contexts with any contents of the lookback buffer, which
`DecompressionContext_init` leaves as they are, return with the same bytes
written: the documented expansion. -/
theorem lookback_independence (buf : List Nat) (toks : List Token) (s : List Nat)
    (self1 self2 : DecompressionContext) (buf_len : Nat)
    (hwf : ∀ t ∈ toks, t.WellFormed) (hbits : BitsAt buf 0 (tokenBits toks))
    (hin : (tokenBits toks).length ≤ 8 * buf.length) (hbuf : buf.length ≤ 4294967296)
    (hs : expandTokens toks = some s) (hlen : s.length < 4294967296) :
    (DecompressionContext_init self1 buf buf_len).lookback_buffer = self1.lookback_buffer ∧
    (DecompressionContext_init self2 buf buf_len).lookback_buffer = self2.lookback_buffer ∧
    (DecompressionContext_unpack (DecompressionContext_init self1 buf buf_len) s.length).written
      = (DecompressionContext_unpack (DecompressionContext_init self2 buf buf_len)
          s.length).written ∧
    (DecompressionContext_unpack (DecompressionContext_init self1 buf buf_len) s.length).written
      = .ret s := by
  unfold expandTokens at hs
  cases hexp : expandFrom toks Window.initial [] with
  | none => simp [hexp] at hs
  | some st =>
    obtain ⟨w', out⟩ := st
    simp only [hexp, Option.map_some', Option.some.injEq] at hs
    subst hs
    have h9 := tokenBits_length_ge toks
    have hrun : ∀ self : DecompressionContext,
        (DecompressionContext_unpack (DecompressionContext_init self buf buf_len)
          out.length).written = .ret out := by
      intro self
      obtain ⟨base', hrun, _⟩ := unpack_tokens_run self buf buf_len toks Window.initial w' out
        (buf.length + 1) hwf hbits hin hbuf (Agrees_initial _ _ _) hexp hlen (by omega)
      unfold DecompressionContext_unpack
      show (unpack_loop (buf.length + 1) _ [] out.length).written = _
      rw [hrun]
      rfl
    exact ⟨rfl, rfl, by rw [hrun self1, hrun self2], hrun self1⟩

/-- Witness of C26: the stream `B0 D8 80 01 00` of literal 'a', literal 'b',
back-reference (offset 1, count 3), decoded with a lookback buffer of zeros and
with one of sevens. -/
theorem lookback_independence_witness :
    (DecompressionContext_unpack
        (DecompressionContext_init DecompressionContext.zero [0xB0, 0xD8, 0x80, 0x01, 0x00] 5)
        5).written
      = (DecompressionContext_unpack
          (DecompressionContext_init
            { DecompressionContext.zero with lookback_buffer := fun _ => 7 }
            [0xB0, 0xD8, 0x80, 0x01, 0x00] 5) 5).written :=
  (lookback_independence [0xB0, 0xD8, 0x80, 0x01, 0x00]
    [.literal 97, .literal 98, .backref 1 3] [97, 98, 97, 98, 97] DecompressionContext.zero
    { DecompressionContext.zero with lookback_buffer := fun _ => 7 } 5 (by decide)
    (by
      have : serialise [.literal 97, .literal 98, .backref 1 3] []
          = [0xB0, 0xD8, 0x80, 0x01, 0x00] := by decide
      rw [← this]
      exact ((BitsAt_append _ _ _ 0).1
        (BitsAt_packBits (tokenBits [.literal 97, .literal 98, .backref 1 3] ++ []))).1)
    (by decide) (by decide) (by decide) (by decide)).2.2.1

/-- C27. Termination of the decoder: for every output length `L < 2^32` and
every stream that holds, within its bytes, the bits of a sequence of tokens
emitting `L` bytes in all (enough input, and no back-reference repeats more
bytes than are still to be produced), `DecompressionContext_unpack` returns
with `L` bytes written after one iteration of its outer loop per token, which
is at most `L` iterations (the loop with fuel `L + 1` returns), and it has
then consumed the bits of those tokens, at most `9 * L`: the mask and the read
position are those after that many bits. -/
theorem unpack_terminates (self : DecompressionContext) (buf : List Nat) (buf_len L : Nat)
    (toks : List Token)
    (hwf : ∀ t ∈ toks, t.WellFormed) (hbits : BitsAt buf 0 (tokenBits toks))
    (hin : (tokenBits toks).length ≤ 8 * buf.length) (hbuf : buf.length < 4294967296)
    (hsize : tokensSize toks = L) (hL : L < 4294967296) :
    ∃ ctx out,
      DecompressionContext_unpack (DecompressionContext_init self buf buf_len) L
        = .ret (ctx, out) ∧
      unpack_loop (L + 1) (DecompressionContext_init self buf buf_len) [] L = .ret (ctx, out) ∧
      unpack_loop (toks.length + 1) (DecompressionContext_init self buf buf_len) [] L
        = .ret (ctx, out) ∧
      toks.length ≤ L ∧ out.length = L ∧
      ∃ k, k = (tokenBits toks).length ∧ k ≤ 9 * L ∧
        ctx.bit_in_current_byte = 0x80 >>> (k % 8) ∧ ctx.current_byte_read_pos = (k + 7) / 8 := by
  obtain ⟨w', out, hexp, hout⟩ := expandFrom_total toks
    (Window.ofContext (DecompressionContext_init self buf buf_len)) []
    (fun x => ⟨_, rfl⟩)
  have houtL : out.length = L := by rw [hout, hsize]; simp
  have hag : Agrees (Window.ofContext (DecompressionContext_init self buf buf_len))
      (DecompressionContext_init self buf buf_len) := by
    refine ⟨rfl, ?_⟩
    intro i b h
    exact Option.some.inj h
  obtain ⟨hn, hb9⟩ := tokens_bounds toks hwf
  rw [hsize] at hn hb9
  have h9 := tokenBits_length_ge toks
  obtain ⟨base', hrun, _⟩ := unpack_tokens_run self buf buf_len toks _ w' out (toks.length + 1)
    hwf hbits hin (Nat.le_of_lt hbuf) hag hexp (by rw [houtL]; exact hL) (Nat.le_refl _)
  rw [houtL] at hrun
  have hmask : ∀ j : Nat, 2 ^ (7 - j % 8) = 0x80 >>> (j % 8) := by
    intro j
    have hj : j % 8 < 8 := Nat.mod_lt _ (by decide)
    interval_cases (j % 8) <;> rfl
  refine ⟨_, out, unpack_loop_fuel_mono _ _ _ _ _ hrun _ (by show toks.length + 1 ≤ buf.length + 1; omega),
    unpack_loop_fuel_mono _ _ _ _ _ hrun _ (by omega), hrun, hn, houtL, _, rfl, hb9, hmask _, ?_⟩
  show ((tokenBits toks).length + 7) / 8 % 4294967296 = _
  apply Nat.mod_eq_of_lt
  omega

set_option maxRecDepth 100000 in
/-- Witness of C27: the stream `B0 D8 80 01 00`, three tokens emitting 5 bytes. -/
theorem unpack_terminates_witness :
    ∃ ctx out,
      DecompressionContext_unpack
        (DecompressionContext_init DecompressionContext.zero [0xB0, 0xD8, 0x80, 0x01, 0x00] 5) 5
        = .ret (ctx, out) ∧
      unpack_loop (5 + 1)
        (DecompressionContext_init DecompressionContext.zero [0xB0, 0xD8, 0x80, 0x01, 0x00] 5)
        [] 5 = .ret (ctx, out) ∧ out.length = 5 := by
  obtain ⟨ctx, out, h1, h2, _, _, h3, _⟩ := unpack_terminates DecompressionContext.zero
    [0xB0, 0xD8, 0x80, 0x01, 0x00] 5 5 [.literal 97, .literal 98, .backref 1 3] (by decide)
    (by
      have : serialise [.literal 97, .literal 98, .backref 1 3] []
          = [0xB0, 0xD8, 0x80, 0x01, 0x00] := by decide
      rw [← this]
      exact ((BitsAt_append _ _ _ 0).1
        (BitsAt_packBits (tokenBits [.literal 97, .literal 98, .backref 1 3] ++ []))).1)
    (by decide) (by decide) (by decide) (by decide)
  exact ⟨ctx, out, h1, h2, h3⟩

/-- C28. Manifest order determines priority: when `editor.wad` mounts, the
manifest `data/editor/wadlist.txt` is a text of lines terminated by `'\n'` and
the archives `p1, ..., pn` it lists (its lines that are not empty and do not
start with `#`) mount one after the other, the chain `main` ends with is
`pn, ..., p1, editor.wad`. So `read_wad_file` returns the entry of the first
container of `pn, ..., p1` that has the name, that is of the archive listed
last in the manifest among those that have it, and the entry of `editor.wad`
when no manifest archive has the name. -/
theorem manifest_priority (z : Zlib) (tmp : DecompressionContext) (fs : FileSystem) (len0 : Nat)
    (ed : MountedWAD) (lines : List (List Nat)) (g' : List MountedWAD)
    (hed : mount_wad z tmp fs [] name_editor_wad = .ret (true, [ed]))
    (hlines : ∀ l ∈ lines, 10 ∉ l ∧ 0 ∉ l)
    (hlist : read_file z tmp fs [ed] name_wadlist_txt
      = .ret (some (joinLines lines, (joinLines lines).length)))
    (hmount : Mountable z tmp fs (lines.filter isPathLine) [ed] g') :
    main_mounts z tmp fs len0 = .ret (some g') ∧
    ∃ ws, g' = ws ++ [ed] ∧ ed.filename = name_editor_wad ∧
      ws.map (fun w => w.filename) = (lines.filter isPathLine).reverse ∧
      ∀ tmp1 filename,
        (∀ w e, Resolves ws (name_hash z filename) w e →
          read_wad_file z tmp1 g' filename = (read_wad_entry z tmp1 w e).map some) ∧
        (∀ e, Unresolved ws (name_hash z filename) →
          Resolves [ed] (name_hash z filename) ed e →
          read_wad_file z tmp1 g' filename = (read_wad_entry z tmp1 ed e).map some) := by
  obtain ⟨hrun, ws, hws, hnames⟩ := Mountable_chain z tmp fs _ _ _ hmount
  obtain ⟨header, len, _, hg1⟩ := mount_wad_true z tmp fs [] [ed] name_editor_wad hed
  have hedname : ed.filename = name_editor_wad := by
    have := (List.cons.inj hg1).1
    rw [this]
  refine ⟨?_, ws, hws, hedname, hnames, ?_⟩
  · unfold main_mounts
    rw [hed]
    simp only [Outcome.bind, Bool.true_eq_false, if_false]
    rw [parse_wadlist_joinLines z tmp fs [ed] [ed] len0 name_wadlist_txt lines hlines hlist, hrun]
    rfl
  · intro tmp1 filename
    refine ⟨?_, ?_⟩
    · intro w e hres
      rw [hws]
      exact read_wad_file_resolves z tmp1 _ filename w e (Resolves_append_right ws [ed] _ w e hres)
    · intro e hun hres
      rw [hws]
      exact read_wad_file_resolves z tmp1 _ filename ed e
        (Resolves_append_left ws [ed] _ ed e hun hres)

set_option maxRecDepth 100000 in
/-- Witness of C28: over `fsMain` the chain is `b.wad, a.wad, editor.wad`. -/
theorem manifest_priority_witness :
    main_mounts zlibRef DecompressionContext.zero fsMain 0
      = .ret (some [{ filename := name_b_wad, header := imageB, len := imageB.length },
          { filename := name_a_wad, header := imageA, len := imageA.length },
          { filename := name_editor_wad, header := imageC, len := imageC.length }]) :=
  (manifest_priority zlibRef DecompressionContext.zero fsMain 0
    { filename := name_editor_wad, header := imageC, len := imageC.length }
    [[35, 32, 108, 105, 115, 116], [], name_a_wad, name_b_wad]
    [{ filename := name_b_wad, header := imageB, len := imageB.length },
     { filename := name_a_wad, header := imageA, len := imageA.length },
     { filename := name_editor_wad, header := imageC, len := imageC.length }]
    (by decide) (by decide) (by decide)
    ⟨[{ filename := name_a_wad, header := imageA, len := imageA.length },
      { filename := name_editor_wad, header := imageC, len := imageC.length }], by decide,
     [{ filename := name_b_wad, header := imageB, len := imageB.length },
      { filename := name_a_wad, header := imageA, len := imageA.length },
      { filename := name_editor_wad, header := imageC, len := imageC.length }], by decide,
     rfl⟩).1

set_option maxRecDepth 100000 in
/-- C29. The inner scan of `parse_file_lines` does not compare `lineend` with
`end`: on the 3-byte file `xyz` of `fsAB`, whose last line has no terminator,
the scan reads the byte at index 3 = `len`, outside the buffer. A content whose
last line ends with `'\n'` or NUL is split inside the buffer, and the empty
content runs no iteration. -/
theorem parse_file_lines_unterminated :
    fsAB.fopen name_a_txt = some [120, 121, 122] ∧
    scan_line [120, 121, 122] 4 0 = .oob ∧
    parse_file_lines zlibRef DecompressionContext.zero fsAB [] 0 name_a_txt
        (fun p (calls : List (List Nat)) => .ret (calls ++ [c_string p])) [] = .oob ∧
    parse_lines (fun p (calls : List (List Nat)) => .ret (calls ++ [c_string p]))
        5 [120, 121, 122, 10] 4 0 [] = .ret [[120, 121, 122]] ∧
    parse_lines (fun p (calls : List (List Nat)) => .ret (calls ++ [c_string p]))
        6 [120, 10, 121, 122, 0] 5 0 [] = .ret [[120], [121, 122]] ∧
    parse_lines (fun p (calls : List (List Nat)) => .ret (calls ++ [c_string p]))
        1 [] 0 0 [] = .ret [] := by
  decide

set_option maxRecDepth 100000 in
/-- C30. The loop that writes the undefined sentinel runs over the indices
`0..254` only, so `char_offset[255]` keeps the 0 left by `memset`: after
`in_memory_font_new` with `replacements = false`, a character code `c ≤ 254`
that is not the character of any of the `count` glyph entries has
`char_offset[c] = 0xFFFFFFFF`, and the character code 255, when it is not the
character of any glyph entry, has `char_offset[255] = 0`, which is not the
sentinel. For the font with the single glyph 26 (3 by 5, spacing 1)
`in_memory_font_measure` treats the code 254 as missing (it measures glyph 26:
width 4, height 5) and the code 255 as a glyph of size 0. -/
theorem char_offset_255_not_sentinel :
    (∀ chars count encoded_pixel_data codepage font c,
      in_memory_font_new chars count encoded_pixel_data codepage false = .ret font → c < 255 →
      (∀ i e, i < count → chars.get? i = some e → e.character ≠ c) →
      font.char_offset c = 0xFFFFFFFF) ∧
    (∀ chars count encoded_pixel_data codepage font,
      in_memory_font_new chars count encoded_pixel_data codepage false = .ret font →
      (∀ i e, i < count → chars.get? i = some e → e.character ≠ 255) →
      font.char_offset 255 = 0) ∧
    (in_memory_font_new chars26 1 pixels26 0 false).map
        (fun font => (font.char_offset 26, font.char_offset 254, font.char_offset 255))
      = .ret (0, 0xFFFFFFFF, 0) ∧
    (in_memory_font_new chars26 1 pixels26 0 false).bind
        (fun font => in_memory_font_measure font [254, 0]) = .ret (4, 5) ∧
    (in_memory_font_new chars26 1 pixels26 0 false).bind
        (fun font => in_memory_font_measure font [255, 0]) = .ret (0, 0) := by
  have hvals := font26_values
  cases hnew : in_memory_font_new chars26 1 pixels26 0 false with
  | fatal m => rw [hnew] at hvals; exact Outcome.noConfusion hvals.1
  | oob => rw [hnew] at hvals; exact Outcome.noConfusion hvals.1
  | timeout => rw [hnew] at hvals; exact Outcome.noConfusion hvals.1
  | ret font =>
  rw [hnew] at hvals
  simp only [Outcome.map, Outcome.bind, Outcome.ret.injEq, Prod.mk.injEq] at hvals
  obtain ⟨⟨o26, o254, o255⟩, ⟨w26, h26, x26⟩, w255, h255, x255⟩ := hvals
  refine ⟨?_, ?_, ?_, ?_, ?_⟩
  rotate_left 2
  · simp only [Outcome.map, Outcome.bind, o26, o254, o255]
  · simp [Outcome.bind, in_memory_font_measure, measure_loop, o26, o254, w26, h26, x26]
  · simp [Outcome.bind, in_memory_font_measure, measure_loop, o255, w255, h255, x255]
  · intro chars count enc cp font c h hc hno
    rw [in_memory_font_new_char_offset chars count enc cp font c h hno, if_pos hc]
  · intro chars count enc cp font h hno
    rw [in_memory_font_new_char_offset chars count enc cp font 255 h hno, if_neg (by omega)]

end Shipedit
